import Mathlib

/-! Shortest path on a weighted grid: a shallow embedding of `Dijkstra`, `readInput` and
`main` from `main.go` and the properties of their results.

Modelling decisions.

* Go's `int` is taken to be the 64-bit two's-complement integer: the one addition on
  distances, `dist[cur] + grid[next]`, is wrapped by `wrapInt`. Coordinates are never
  wrapped: `curPoint` is always an in-bounds cell, so `curPoint.x + d.x` lies in
  `[-1, len(grid)]`.
* Slices are lists; indexing a slice out of range is a run-time panic, which the model
  makes explicit (`index`, `store` return `none`).
* `container/heap` is not part of the repository. `heap.Pop` is modelled by its contract:
  it removes and returns an entry whose `dist` is least according to `Less`. Which of
  several least entries is returned is decided by an arbitrary oracle `tie`, consulted
  with the number of the pop, so every tie-breaking order is covered (`heapPop_any`).
  `heap.Init` on the one-entry queue changes nothing.
* The two unbounded loops (`for pq.Len() > 0` and the backward walk `for { ... }`) take
  fuel; running out of fuel is the outcome `Result.outOfFuel`. Any other result is the
  same for every larger amount of fuel (`Dijkstra_mono`).
* The standard input is the list of its lines. `scanText` is what `bufio.Scanner` does
  when every line fits its buffer of 64 KiB; that is the hypothesis `Scannable` of the
  theorem about `readInput`. `strings.Fields` and `strconv.Atoi` are not part of the
  repository either and are modelled by their documentation (`fields`, `atoi`).
* `make([]T, n)` panics for a negative `n` and for a length whose size in bytes exceeds
  the limit `maxAlloc` of the allocator (`makeSlice`); below that limit the allocation
  is taken to succeed: the memory of the machine is not bounded.
* A run of `main` is its standard output, its standard error and its exit status.
-/

namespace Maze

/-- The source's `Point`: `x` is the row, `y` the column. -/
structure Point where
  x : Int
  y : Int
deriving DecidableEq, Repr

/-- The source's `PqNode`. -/
structure PqNode where
  point : Point
  dist : Int
deriving DecidableEq, Repr

/-- The source's `priorityQueue`: the entries in the order they were pushed. -/
abbrev priorityQueue := List PqNode

/-- Addition result of a Go `int` (64 bits): reduce into `[-2^63, 2^63)`. -/
def wrapInt (n : Int) : Int :=
  (n + 9223372036854775808) % 18446744073709551616 - 9223372036854775808

/-- The literal `1 << 20` that the source uses for "not reached yet". -/
def inf : Int := 1048576

/-- Slice read `s[i]`; `none` is the index-out-of-range panic. -/
def index {α : Type} (s : List α) (i : Int) : Option α :=
  if i < 0 then none else s[i.toNat]?

/-- Slice write `s[i] = v`; `none` is the index-out-of-range panic. -/
def store {α : Type} (s : List α) (i : Int) (v : α) : Option (List α) :=
  if 0 ≤ i ∧ i.toNat < s.length then some (s.set i.toNat v) else none

/-- Read of `t[p.x][p.y]`. -/
def at2 {α : Type} (t : List (List α)) (p : Point) : Option α :=
  (index t p.x).bind fun row => index row p.y

/-- Write `t[p.x][p.y] = v`. -/
def store2 {α : Type} (t : List (List α)) (p : Point) (v : α) : Option (List (List α)) :=
  (index t p.x).bind fun row => (store row p.y v).bind fun row2 => store t p.x row2

/-- Least `dist` of a non-empty queue `e :: es`. -/
def leastDist (e : PqNode) (es : List PqNode) : Int :=
  es.foldl (fun a n => min a n.dist) e.dist

/-- Entry number `c` of the non-empty list `e :: es` (the last one when `c` is larger
than that). -/
def pick (c : Nat) (e : PqNode) (es : List PqNode) : PqNode :=
  match es with
  | [] => e
  | e2 :: rest =>
    match c with
    | 0 => e
    | c2 + 1 => pick c2 e2 rest
termination_by structural es

/-- The call `heap.Pop(&pq)`: an entry of least `dist` is taken out of the queue. Among
several entries of the same least `dist` the one numbered `choice` is taken. `none` on
an empty queue. -/
def heapPop (choice : Nat) (pq : priorityQueue) : Option (PqNode × priorityQueue) :=
  match pq with
  | [] => none
  | e :: es =>
    match (e :: es).filter fun n => n.dist = leastDist e es with
    | [] => none
    | a :: as => some (pick choice a as, (e :: es).erase (pick choice a as))

/-- The call `heap.Push(&pq, n)`. -/
def heapPush (pq : priorityQueue) (n : PqNode) : priorityQueue := pq ++ [n]

/-- What a call of `Dijkstra` does. -/
inductive Result where
  /-- The return `path, nil`. -/
  | path (cells : List Point)
  /-- The return `nil, errors.New(msg)`. -/
  | error (msg : String)
  /-- A run-time panic (index out of range, nil dereference). -/
  | panic
  /-- The fuel of the model ran out. -/
  | outOfFuel
deriving DecidableEq, Repr

/-- Outcome of one of the two loops. -/
inductive Outcome (α : Type) where
  | ret (v : α)
  | panic
  | outOfFuel
deriving Repr

/-- The mutable locals of the search loop. -/
structure State where
  dist : List (List Int)
  parent : List (List (Option Point))
  pq : priorityQueue
deriving Repr

def errStartOutside : String := "стартовая точка вне лабиринта"
def errEndOutside : String := "финишная точка вне лабиринта"
def errStartWall : String := "стартовая точка - тупик"
def errEndWall : String := "финишная точка - тупик"
def errNoPath : String := "нет пути до финиша"

/-- The source's `directions`: up, down, left, right. -/
def directions : List Point := [⟨-1, 0⟩, ⟨1, 0⟩, ⟨0, -1⟩, ⟨0, 1⟩]

/-- Body of `for _, d := range directions` for one `d`; `none` is a panic. -/
def relax (grid : List (List Int)) (rows columns : Int) (cur : Point) (st : State)
    (d : Point) : Option State :=
  let next : Point := ⟨cur.x + d.x, cur.y + d.y⟩
  if next.x < 0 ∨ next.x ≥ rows ∨ next.y < 0 ∨ next.y ≥ columns then some st
  else do
    let g ← at2 grid next
    if g = 0 then some st
    else do
      let dc ← at2 st.dist cur
      let newDist := wrapInt (dc + g)
      let dn ← at2 st.dist next
      if newDist < dn then do
        let dist2 ← store2 st.dist next newDist
        let parent2 ← store2 st.parent next (some cur)
        some ⟨dist2, parent2, heapPush st.pq ⟨next, newDist⟩⟩
      else some st

/-- The whole `for _, d := range directions` loop. -/
def relaxAll (grid : List (List Int)) (rows columns : Int) (cur : Point) (st : State)
    (ds : List Point) : Option State :=
  match ds with
  | [] => some st
  | d :: rest =>
    match relax grid rows columns cur st d with
    | none => none
    | some st2 => relaxAll grid rows columns cur st2 rest

/-- The loop `for pq.Len() > 0`; `k` counts the pops made so far. -/
def searchLoop (tie : Nat → Nat) (grid : List (List Int)) (rows columns : Int)
    (finish : Point) : Nat → Nat → State → Outcome State
  | 0, _, _ => .outOfFuel
  | fuel + 1, k, st =>
    if st.pq.length > 0 then
      match heapPop (tie k) st.pq with
      | none => .panic
      | some (item, rest) =>
        let st1 : State := ⟨st.dist, st.parent, rest⟩
        if item.point = finish then .ret st1
        else
          match at2 st1.dist item.point with
          | none => .panic
          | some dc =>
            if item.dist > dc then searchLoop tie grid rows columns finish fuel (k + 1) st1
            else
              match relaxAll grid rows columns item.point st1 directions with
              | none => .panic
              | some st2 => searchLoop tie grid rows columns finish fuel (k + 1) st2
    else .ret st

/-- The backward walk `for { path = append(path, cur); ... }`. -/
def walkBack (parent : List (List (Option Point))) (start : Point) :
    Nat → Point → List Point → Outcome (List Point)
  | 0, _, _ => .outOfFuel
  | fuel + 1, cur, path =>
    let path2 := path ++ [cur]
    if cur = start then .ret path2
    else
      match at2 parent cur with
      | none => .panic
      | some none => .panic
      | some (some p) => walkBack parent start fuel p path2

/-- The swap `path[i], path[j] = path[j], path[i]`. -/
def swapAt (path : List Point) (i j : Nat) : List Point :=
  match path[i]?, path[j]? with
  | some a, some b => (path.set i b).set j a
  | _, _ => path

/-- The loop `for i, j := 0, len(path)-1; i < j; i, j = i+1, j-1`, at most `n` rounds. -/
def reverseLoop : Nat → Int → Int → List Point → List Point
  | 0, _, _, path => path
  | n + 1, i, j, path =>
    if i < j then reverseLoop n (i + 1) (j - 1) (swapAt path i.toNat j.toNat) else path

/-- The in-place reversal at the end of `Dijkstra`. -/
def reversePath (path : List Point) : List Point :=
  reverseLoop path.length 0 ((path.length : Int) - 1) path

/-- The part of `Dijkstra` from `dist := make([][]int, rows)` to `heap.Init(&pq)`: the
tables and the queue before the search loop; `gs` is `grid[start.x][start.y]`. -/
def initState (rows columns : Nat) (start : Point) (gs : Int) : Option State := do
  let dist0 := List.replicate rows (List.replicate columns inf)
  let dist1 ← store2 dist0 start gs
  let parent0 : List (List (Option Point)) := List.replicate rows (List.replicate columns none)
  let ds ← at2 dist1 start
  some ⟨dist1, parent0, [⟨start, ds⟩]⟩

/-- The part of `Dijkstra` after the search loop: the test of `dist[end]`, the backward
walk and the reversal. -/
def reconstruct (fuel : Nat) (start finish : Point) (st : State) : Result :=
  match at2 st.dist finish with
  | none => .panic
  | some de =>
    if de = inf then .error errNoPath
    else
      match walkBack st.parent start fuel finish [] with
      | .panic => .panic
      | .outOfFuel => .outOfFuel
      | .ret path => .path (reversePath path)

/-- The part of `Dijkstra` after the four validation tests. -/
def search (tie : Nat → Nat) (fuel : Nat) (grid : List (List Int)) (rows columns : Nat)
    (start finish : Point) (gs : Int) : Result :=
  match initState rows columns start gs with
  | none => .panic
  | some st0 =>
    match searchLoop tie grid rows columns finish fuel 0 st0 with
    | .panic => .panic
    | .outOfFuel => .outOfFuel
    | .ret st => reconstruct fuel start finish st

/-- The source's `Dijkstra(grid, start, end)`. -/
def Dijkstra (tie : Nat → Nat) (fuel : Nat) (grid : List (List Int)) (start finish : Point) :
    Result :=
  match grid with
  | [] => .panic
  | row0 :: _ =>
    let rows : Int := grid.length
    let columns : Int := row0.length
    if start.x < 0 ∨ start.x ≥ rows ∨ start.y < 0 ∨ start.y ≥ columns then
      .error errStartOutside
    else if finish.x < 0 ∨ finish.x ≥ rows ∨ finish.y < 0 ∨ finish.y ≥ columns then
      .error errEndOutside
    else
      match at2 grid start with
      | none => .panic
      | some gs =>
        if gs = 0 then .error errStartWall
        else
          match at2 grid finish with
          | none => .panic
          | some ge =>
            if ge = 0 then .error errEndWall
            else search tie fuel grid grid.length row0.length start finish gs

/-- Every pop of the search loop, run for at most `fuel` rounds from `st`, finds exactly
one entry of least `dist` in the queue. -/
def tieFree (grid : List (List Int)) (rows columns : Int) (finish : Point) :
    Nat → State → Bool
  | 0, _ => true
  | fuel + 1, st =>
    match st.pq with
    | [] => true
    | e :: es =>
      match (e :: es).filter fun n => n.dist = leastDist e es with
      | [item] =>
        let st1 : State := ⟨st.dist, st.parent, (e :: es).erase item⟩
        if item.point = finish then true
        else
          match at2 st1.dist item.point with
          | none => true
          | some dc =>
            if item.dist > dc then tieFree grid rows columns finish fuel st1
            else
              match relaxAll grid rows columns item.point st1 directions with
              | none => true
              | some st2 => tieFree grid rows columns finish fuel st2
      | _ => false

/-- The search loop of `Dijkstra(grid, start, finish)` never has to break a tie. -/
def tieFreeRun (fuel : Nat) (grid : List (List Int)) (start finish : Point) : Bool :=
  match grid with
  | [] => true
  | row0 :: _ =>
    match at2 grid start with
    | none => true
    | some gs =>
      match initState grid.length row0.length start gs with
      | none => true
      | some st0 => tieFree grid grid.length row0.length finish fuel st0

/-! ## Vocabulary of the specification -/

/-- Number of columns, `len(grid[0])`. -/
def columnsOf (grid : List (List Int)) : Nat := (grid.headD []).length

/-- A non-empty rectangular grid. -/
def Rect (grid : List (List Int)) : Prop :=
  grid ≠ [] ∧ ∀ row ∈ grid, row.length = columnsOf grid

/-- The cell lies in `[0, rows) × [0, columns)`. -/
def InBounds (grid : List (List Int)) (p : Point) : Prop :=
  0 ≤ p.x ∧ p.x < grid.length ∧ 0 ≤ p.y ∧ p.y < columnsOf grid

/-- Every value of the grid is non-negative. -/
def NonNeg (grid : List (List Int)) : Prop := ∀ row ∈ grid, ∀ v ∈ row, 0 ≤ v

/-- The cell is a cell of the grid and its value is not zero. -/
def Passable (grid : List (List Int)) (p : Point) : Prop :=
  ∃ g, at2 grid p = some g ∧ g ≠ 0

/-- Two cells differ by exactly 1 in exactly one coordinate and agree in the other. -/
def Adjacent (u v : Point) : Prop :=
  (u.x = v.x ∧ (v.y - u.y = 1 ∨ u.y - v.y = 1)) ∨ (u.y = v.y ∧ (v.x - u.x = 1 ∨ u.x - v.x = 1))

instance (u v : Point) : Decidable (Adjacent u v) :=
  inferInstanceAs (Decidable ((u.x = v.x ∧ (v.y - u.y = 1 ∨ u.y - v.y = 1)) ∨
    (u.y = v.y ∧ (v.x - u.x = 1 ∨ u.x - v.x = 1))))

instance (grid : List (List Int)) (p : Point) : Decidable (Passable grid p) :=
  match h : at2 grid p with
  | none => isFalse (by rintro ⟨g, hg, _⟩; rw [h] at hg; exact absurd hg (by simp))
  | some g =>
    if h0 : g = 0 then
      isFalse (by
        rintro ⟨g2, hg, hne⟩
        rw [h] at hg
        exact hne ((Option.some.inj hg).symm.trans h0))
    else isTrue ⟨g, h, h0⟩

instance (grid : List (List Int)) (p : Point) : Decidable (InBounds grid p) :=
  inferInstanceAs (Decidable (0 ≤ p.x ∧ p.x < grid.length ∧ 0 ≤ p.y ∧ p.y < columnsOf grid))

instance (grid : List (List Int)) : Decidable (Rect grid) :=
  inferInstanceAs (Decidable (grid ≠ [] ∧ ∀ row ∈ grid, row.length = columnsOf grid))

instance (grid : List (List Int)) : Decidable (NonNeg grid) :=
  inferInstanceAs (Decidable (∀ row ∈ grid, ∀ v ∈ row, 0 ≤ v))

/-- Deciding whether each two consecutive cells of a sequence are adjacent. -/
instance decidableSteps : (w : List Point) → Decidable (List.Chain' Adjacent w)
  | [] => isTrue List.chain'_nil
  | [a] => isTrue (List.chain'_singleton a)
  | u :: v :: rest =>
    have : Decidable (List.Chain' Adjacent (v :: rest)) := decidableSteps (v :: rest)
    decidable_of_iff (Adjacent u v ∧ List.Chain' Adjacent (v :: rest)) List.chain'_cons.symm

/-- A sequence of nonzero cells that goes from `start` to `finish` by 4-directional
steps. -/
def IsWalk (grid : List (List Int)) (start finish : Point) (w : List Point) : Prop :=
  w.head? = some start ∧ w.getLast? = some finish ∧ List.Chain' Adjacent w ∧
    ∀ p ∈ w, Passable grid p

/-- Sum of the grid values of the cells of a sequence. -/
def cost (grid : List (List Int)) (w : List Point) : Int :=
  (w.map fun p => (at2 grid p).getD 0).sum

instance (grid : List (List Int)) (start finish : Point) (w : List Point) :
    Decidable (IsWalk grid start finish w) :=
  inferInstanceAs (Decidable (w.head? = some start ∧ w.getLast? = some finish ∧
    List.Chain' Adjacent w ∧ ∀ p ∈ w, Passable grid p))

/-- Some walk leads from `start` to `v`. -/
def Reach (grid : List (List Int)) (start v : Point) : Prop := ∃ w, IsWalk grid start v w

/-- The grid value of a cell, 0 for a cell outside the grid. -/
def val (grid : List (List Int)) (p : Point) : Int := (at2 grid p).getD 0

/-- No addition of the search overflows a Go `int`: a distance is the value of the start
cell or lies below the sentinel, and is added to a value of the grid. -/
def Fits (grid : List (List Int)) (start : Point) : Prop :=
  ∀ row ∈ grid, ∀ v ∈ row, max (val grid start) (inf - 1) + v < 9223372036854775808

instance (grid : List (List Int)) (start : Point) : Decidable (Fits grid start) :=
  inferInstanceAs (Decidable (∀ row ∈ grid, ∀ v ∈ row,
    max (val grid start) (inf - 1) + v < 9223372036854775808))

/-! ## Measure and invariants of the search loop -/

/-- Height of one distance above the least Go `int`. -/
def height (d : Int) : Nat := (d + 9223372036854775808).toNat

/-- Sum of the heights of all entries of a table. -/
def potential (t : List (List Int)) : Nat := (t.map fun row => (row.map height).sum).sum

/-- The measure that every round of the search loop decreases. -/
def measure (st : State) : Nat := 2 * potential st.dist + st.pq.length

/-- The tables have an entry for every cell of the grid; the cells in the queue and the
cells with a distance other than the sentinel can be reached from `start`; a recorded
predecessor is an adjacent nonzero cell. -/
structure Sound (grid : List (List Int)) (start : Point) (st : State) : Prop where
  shape : ∀ p, InBounds grid p → (at2 st.dist p).isSome ∧ (at2 st.parent p).isSome
  queue : ∀ e ∈ st.pq, Passable grid e.point ∧ Reach grid start e.point
  reached : ∀ v d, at2 st.dist v = some d → d ≠ inf → Reach grid start v
  parent : ∀ v u, at2 st.parent v = some (some u) →
    Adjacent u v ∧ Passable grid u ∧ Passable grid v

/-- The state of the search, with the set `D` of the cells whose neighbours have been
relaxed: the distance of a cell of `D` is least among all walks; every other reached
cell has its entry in the queue; a cell of `D` is never farther than an entry of the
queue; a reached cell other than `start` has a predecessor in `D`, one step and one
grid value before it. -/
structure Core (grid : List (List Int)) (start : Point) (gs : Int) (D : Point → Prop)
    (st : State) : Prop where
  sound : Sound grid start st
  dstart : at2 st.dist start = some gs
  dbound : ∀ v d, at2 st.dist v = some d → 0 ≤ d ∧ (v ≠ start → d ≤ inf)
  par : ∀ v d, at2 st.dist v = some d → v ≠ start → d ≠ inf →
    ∃ u du, at2 st.parent v = some (some u) ∧ D u ∧ at2 st.dist u = some du ∧
      d = du + val grid v
  dmem : ∀ u, D u → Passable grid u ∧ ∃ du, at2 st.dist u = some du ∧
    (u = start ∨ du < inf) ∧ ∀ w, IsWalk grid start u w → du ≤ cost grid w
  qkey : ∀ e ∈ st.pq, ∃ de, at2 st.dist e.point = some de ∧ de ≤ e.dist
  qmono : ∀ u du, D u → at2 st.dist u = some du → ∀ e ∈ st.pq, du ≤ e.dist
  qinf : (st.pq = [⟨start, gs⟩] ∧ ∀ u, ¬ D u) ∨ ∀ e ∈ st.pq, e.dist < inf
  qhas : ∀ v dv, InBounds grid v → ¬ D v → at2 st.dist v = some dv →
    (v = start ∨ dv ≠ inf) → ⟨v, dv⟩ ∈ st.pq

/-- The edges out of the cells of `D` are relaxed, except those out of `cur` in the
directions `todo` still to come. -/
def Edges (grid : List (List Int)) (D : Point → Prop) (cur : Point) (todo : List Point)
    (st : State) : Prop :=
  ∀ u du, D u → at2 st.dist u = some du → ∀ d ∈ directions, (u = cur → d ∉ todo) →
    ∀ g, at2 grid ⟨u.x + d.x, u.y + d.y⟩ = some g → g ≠ 0 →
      ∃ dv, at2 st.dist ⟨u.x + d.x, u.y + d.y⟩ = some dv ∧ dv ≤ du + g

/-- The invariant inside the loop over `directions`: `cur` is in `D`, no cell of `D` is
farther than `cur`, and the directions `todo` are still to come. -/
def Relaxing (grid : List (List Int)) (start : Point) (gs : Int) (D : Point → Prop)
    (cur : Point) (todo : List Point) (st : State) : Prop :=
  Core grid start gs D st ∧ Edges grid D cur todo st ∧ D cur ∧
    ∃ dc, at2 st.dist cur = some dc ∧ ∀ u du, D u → at2 st.dist u = some du → du ≤ dc

/-- The invariant of the search loop. -/
def Inv (grid : List (List Int)) (start : Point) (gs : Int) (st : State) : Prop :=
  ∃ D, Core grid start gs D st ∧ Edges grid D start [] st

/-- What holds when the search loop is left: the distance of `finish`, when `finish`
was reached, is the least cost of a walk from `start` to `finish`. -/
def Final (grid : List (List Int)) (start finish : Point) (gs : Int) (st : State) : Prop :=
  (∃ D, Core grid start gs D st) ∧
    ∀ de, at2 st.dist finish = some de → (finish = start ∨ de ≠ inf) →
      ∀ w, IsWalk grid start finish w → de ≤ cost grid w

/-- All cells of a grid with `rows` rows and `columns` columns, row by row. -/
def allCells (rows columns : Nat) : List Point :=
  (List.range rows).flatMap fun (i : Nat) =>
    (List.range columns).map fun (j : Nat) => (⟨(i : Int), (j : Int)⟩ : Point)

/-- The cell is `start` or has a recorded predecessor. -/
def HasPred (start : Point) (st : State) (v : Point) : Prop :=
  v = start ∨ ∃ u, at2 st.parent v = some (some u)

/-- Every cell that the backward walk can come to has a recorded predecessor: the cells
in the queue, the cells with a distance other than the sentinel, and the recorded
predecessors themselves. -/
structure Linked (start : Point) (st : State) : Prop where
  queue : ∀ e ∈ st.pq, HasPred start st e.point
  reached : ∀ v d, at2 st.dist v = some d → d ≠ inf → HasPred start st v
  parent : ∀ v u, at2 st.parent v = some (some u) → HasPred start st u

/-- What the search loop does to the queue. -/
inductive Event where
  /-- The call `heap.Pop(&pq)` returned `item`. -/
  | pop (item : PqNode)
  /-- The call `heap.Push(&pq, n)` in the round in which `cur` was popped. -/
  | push (cur : Point) (n : PqNode)
deriving DecidableEq, Repr

/-- The search loop `for pq.Len() > 0` again, now also recording the pops and the pushes
in order: the events of at most `fuel` rounds, and the state reached. The entries
pushed in a round are those at the end of the queue after the loop over `directions`. -/
def searchEvents (tie : Nat → Nat) (grid : List (List Int)) (rows columns : Int)
    (finish : Point) : Nat → Nat → State → List Event × State
  | 0, _, st => ([], st)
  | fuel + 1, k, st =>
    if st.pq.length > 0 then
      match heapPop (tie k) st.pq with
      | none => ([], st)
      | some (item, rest) =>
        let st1 : State := ⟨st.dist, st.parent, rest⟩
        if item.point = finish then ([.pop item], st1)
        else
          match at2 st1.dist item.point with
          | none => ([], st)
          | some dc =>
            if item.dist > dc then
              (.pop item :: (searchEvents tie grid rows columns finish fuel (k + 1) st1).1,
                (searchEvents tie grid rows columns finish fuel (k + 1) st1).2)
            else
              match relaxAll grid rows columns item.point st1 directions with
              | none => ([], st)
              | some st2 =>
                (.pop item :: ((st2.pq.drop rest.length).map (Event.push item.point) ++
                    (searchEvents tie grid rows columns finish fuel (k + 1) st2).1),
                  (searchEvents tie grid rows columns finish fuel (k + 1) st2).2)
    else ([], st)

/-- The entries popped, in order. -/
def pops : List Event → List PqNode
  | [] => []
  | .pop e :: l => e :: pops l
  | .push _ _ :: l => pops l

/-- The pushes of the loop, in order: the cell whose neighbours were being relaxed and
the cell pushed. -/
def pushes : List Event → List (Point × Point)
  | [] => []
  | .pop _ :: l => pushes l
  | .push c n :: l => (c, n.point) :: pushes l

/-- The entries that are the first to be popped for their cell, `seen` being the cells
popped before. -/
def firstPops (seen : List Point) : List PqNode → List PqNode
  | [] => []
  | e :: es =>
    if e.point ∈ seen then firstPops (e.point :: seen) es
    else e :: firstPops (e.point :: seen) es

/-- The number `d` is the least sum of grid values of a walk from `start` to `v`. -/
def MinCost (grid : List (List Int)) (start v : Point) (d : Int) : Prop :=
  (∃ w, IsWalk grid start v w ∧ cost grid w = d) ∧ ∀ w, IsWalk grid start v w → d ≤ cost grid w

/-- The predecessor table of a search without overflow: `start` has no predecessor, and
a cell with a predecessor has a distance below the sentinel. -/
def ParentOk (start : Point) (st : State) : Prop :=
  at2 st.parent start = some none ∧
    ∀ v u, at2 st.parent v = some (some u) → ∃ d, at2 st.dist v = some d ∧ d < inf

/-- The distance of `start` and every distance other than the sentinel is the cost of a
walk from `start`. -/
def Witnessed (grid : List (List Int)) (start : Point) (st : State) : Prop :=
  ∀ v d, at2 st.dist v = some d → (v = start ∨ d ≠ inf) →
    ∃ w, IsWalk grid start v w ∧ cost grid w = d

/-- What holds of the events so far and the state at the head of a round of a search
without overflow, `D` being the set of the cells popped so far. -/
structure Traced (grid : List (List Int)) (start : Point) (gs : Int) (D : Point → Prop)
    (log : List Event) (st : State) : Prop where
  core : Core grid start gs D st
  parentOk : ParentOk start st
  witnessed : Witnessed grid start st
  popsIn : ∀ u, D u → ∃ e, Event.pop e ∈ log ∧ e.point = u
  popsOut : ∀ e, Event.pop e ∈ log → D e.point
  pushesFrom : ∀ a b, (a, b) ∈ pushes log →
    D a ∧ (∃ d ∈ directions, b = ⟨a.x + d.x, a.y + d.y⟩) ∧ b ≠ start ∧ InBounds grid b
  pushNodup : (pushes log).Nodup
  firstOk : ∀ e ∈ firstPops [] (pops log), MinCost grid start e.point e.dist
  balance : (pops log).length + st.pq.length = 1 + (pushes log).length

/-- The invariant of the recording loop. -/
def TracedLoop (grid : List (List Int)) (start : Point) (gs : Int) (log : List Event)
    (st : State) : Prop :=
  ∃ D, Traced grid start gs D log st ∧ Edges grid D start [] st

/-- What holds when the recording loop is left. -/
def TracedEnd (grid : List (List Int)) (start : Point) (gs : Int) (log : List Event)
    (st : State) : Prop :=
  ∃ D, Traced grid start gs D log st

/-- The events of the search loop of `Dijkstra(grid, start, finish)`, for arguments that
pass the validation. -/
def DijkstraEvents (tie : Nat → Nat) (fuel : Nat) (grid : List (List Int))
    (start finish : Point) : List Event :=
  match grid with
  | [] => []
  | row0 :: _ =>
    match at2 grid start with
    | none => []
    | some gs =>
      match initState grid.length row0.length start gs with
      | none => []
      | some st0 => (searchEvents tie grid grid.length row0.length finish fuel 0 st0).1

/-- The tables and the queue at the moment the search loop of
`Dijkstra(grid, start, finish)` is left, for arguments that pass the validation. -/
def loopEnd (tie : Nat → Nat) (fuel : Nat) (grid : List (List Int))
    (start finish : Point) : Option State :=
  match grid with
  | [] => none
  | row0 :: _ =>
    match at2 grid start with
    | none => none
    | some gs =>
      match initState grid.length row0.length start gs with
      | none => none
      | some st0 =>
        match searchLoop tie grid grid.length row0.length finish fuel 0 st0 with
        | .ret st => some st
        | _ => none

/-! ## Reading the input and printing the result -/

def errSize : String := "некорректный формат размеров лабиринта"
def errRows : String := "некорректное значение строк"
def errColumns : String := "некорректное значение столбцов"
def errRowLength : String := "некорректное количество столбцов в строке"
def errValue : String := "некорректное значение в лабиринте"
def errCoords : String := "некорректный формат координат"
def errStartX : String := "некорректное значение X для стартовой точки"
def errStartY : String := "некорректное значение Y для стартовой точки"
def errEndX : String := "некорректное значение X для конечной точки"
def errEndY : String := "некорректное значение Y для конечной точки"

/-- Go's `unicode.IsSpace`, by code point: tab, line feed, vertical tab, form feed,
carriage return, space, U+0085, U+00A0 and the space separators of Unicode. -/
def isSpace (c : Char) : Bool :=
  let n := c.toNat
  (9 ≤ n ∧ n ≤ 13) ∨ n = 32 ∨ n = 133 ∨ n = 160 ∨ n = 5760 ∨ (8192 ≤ n ∧ n ≤ 8202) ∨
    n = 8232 ∨ n = 8233 ∨ n = 8239 ∨ n = 8287 ∨ n = 12288

/-- The scan of `strings.Fields`: `tok` is the field being read, if any. -/
def fieldsLoop : List Char → Option (List Char) → List (List Char)
  | [], none => []
  | [], some tok => [tok]
  | c :: cs, none => if isSpace c then fieldsLoop cs none else fieldsLoop cs (some [c])
  | c :: cs, some tok =>
    if isSpace c then tok :: fieldsLoop cs none else fieldsLoop cs (some (tok ++ [c]))

/-- Go's `strings.Fields`: the maximal runs of characters that are not white space. -/
def fields (s : String) : List String := (fieldsLoop s.toList none).map String.mk

/-- Value of a run of decimal digits after the digits of value `acc`; `none` when a
character is not one of `0` to `9`. -/
def digitsValue : List Char → Nat → Option Nat
  | [], acc => some acc
  | c :: cs, acc =>
    if 48 ≤ c.toNat ∧ c.toNat ≤ 57 then digitsValue cs (10 * acc + (c.toNat - 48)) else none

/-- An optional sign `+` or `-` and one or more decimal digits, with its value. -/
def decimal (s : String) : Option Int :=
  match s.toList with
  | [] => none
  | c :: cs =>
    if c.toNat = 43 then
      if cs = [] then none else (digitsValue cs 0).map fun n => (n : Int)
    else if c.toNat = 45 then
      if cs = [] then none else (digitsValue cs 0).map fun n => -(n : Int)
    else (digitsValue (c :: cs) 0).map fun n => (n : Int)

/-- Go's `strconv.Atoi` on a 64-bit platform: the value of a decimal integer that a Go
`int` can hold; `none` is a returned error (wrong syntax or out of range). -/
def atoi (s : String) : Option Int :=
  match decimal s with
  | none => none
  | some n => if -9223372036854775808 ≤ n ∧ n < 9223372036854775808 then some n else none

/-- The pair `scanner.Scan(); scanner.Text()`: the next line of the input and the lines
left; the text is empty once every line has been read. This is what the scanner does on
an input every line of which fits its buffer (`Scannable`); on a longer line `Scan`
fails, which is not modelled. -/
def scanText (input : List String) : String × List String :=
  match input with
  | [] => ("", [])
  | line :: rest => (line, rest)

/-- Go's `bufio.MaxScanTokenSize`, the size in bytes of the buffer of a scanner. -/
def maxScanTokenSize : Nat := 65536

/-- Every line of the input, together with the one or two bytes that end it, fits the
buffer of the scanner. -/
def Scannable (input : List String) : Prop :=
  ∀ line ∈ input, line.utf8ByteSize + 2 ≤ maxScanTokenSize

instance (input : List String) : Decidable (Scannable input) :=
  inferInstanceAs (Decidable (∀ line ∈ input, line.utf8ByteSize + 2 ≤ maxScanTokenSize))

/-- The limit `maxAlloc` of the Go allocator on a 64-bit platform with 48 address bits
(linux/amd64): `1 << 48` bytes. -/
def maxAlloc : Int := 281474976710656

/-- Go's `make([]T, n)` for elements of `size` bytes, every element `zero`; `none` is the
panic "makeslice: len out of range", raised for `n < 0` and for `size * n` above
`maxAlloc`. -/
def makeSlice {α : Type} (size n : Int) (zero : α) : Option (List α) :=
  if n < 0 ∨ size * n > maxAlloc then none else some (List.replicate n.toNat zero)

/-- What `readInput` returns: the grid, the start and the end, or an error message. -/
abbrev Input := Except String (List (List Int) × Point × Point)

/-- The loop `for j, val := range line` of `readInput`: `none` is the return with the
error, otherwise the grid with the row `i` filled from column `j` on. -/
def fillRow (i : Int) : List String → Int → List (List Int) → Outcome (Option (List (List Int)))
  | [], _, maze => .ret (some maze)
  | v :: rest, j, maze =>
    match atoi v with
    | none => .ret none
    | some num =>
      match store2 maze ⟨i, j⟩ num with
      | none => .panic
      | some maze2 => fillRow i rest (j + 1) maze2

/-- The loop `for i := 0; i < rows; i++` of `readInput` with `n` rounds to go: an error
message, or the grid and the lines left. -/
def readRows (columns : Int) :
    Nat → Int → List String → List (List Int) → Outcome (Except String (List (List Int) × List String))
  | 0, _, input, maze => .ret (.ok (maze, input))
  | n + 1, i, input, maze =>
    let line := fields (scanText input).1
    if (line.length : Int) ≠ columns then .ret (.error errRowLength)
    else
      match makeSlice 8 columns (0 : Int) with
      | none => .panic
      | some row =>
        match store maze i row with
        | none => .panic
        | some maze1 =>
          match fillRow i line 0 maze1 with
          | .panic => .panic
          | .outOfFuel => .outOfFuel
          | .ret none => .ret (.error errValue)
          | .ret (some maze2) => readRows columns n (i + 1) (scanText input).2 maze2

/-- The part of `readInput` that reads the line of the coordinates. -/
def readCoords (maze : List (List Int)) (input : List String) : Input :=
  match fields (scanText input).1 with
  | [c0, c1, c2, c3] =>
    match atoi c0 with
    | none => .error errStartX
    | some startX =>
      match atoi c1 with
      | none => .error errStartY
      | some startY =>
        match atoi c2 with
        | none => .error errEndX
        | some endX =>
          match atoi c3 with
          | none => .error errEndY
          | some endY => .ok (maze, ⟨startX, startY⟩, ⟨endX, endY⟩)
  | _ => .error errCoords

/-- The source's `readInput()`, on the lines of the standard input. -/
def readInput (input : List String) : Outcome Input :=
  match fields (scanText input).1 with
  | [s0, s1] =>
    match atoi s0 with
    | none => .ret (.error errRows)
    | some rows =>
      match atoi s1 with
      | none => .ret (.error errColumns)
      | some columns =>
        match makeSlice 24 rows ([] : List Int) with
        | none => .panic
        | some maze =>
          match readRows columns rows.toNat 0 (scanText input).2 maze with
          | .panic => .panic
          | .outOfFuel => .outOfFuel
          | .ret (.error msg) => .ret (.error msg)
          | .ret (.ok (maze2, rest)) => .ret (readCoords maze2 rest)
  | _ => .ret (.error errSize)

/-- What a run of the program leaves behind: the standard output, the standard error
and the exit status. -/
structure Run where
  stdout : String
  stderr : String
  status : Nat
deriving DecidableEq, Repr

/-- The loop `for _, p := range path` of `main`, after the output `out`. -/
def printPath : List Point → String → String
  | [], out => out
  | p :: rest, out => printPath rest (out ++ (toString p.x ++ " " ++ toString p.y ++ "\n"))

/-- The source's `main()`, on the lines of the standard input. -/
def main (tie : Nat → Nat) (fuel : Nat) (input : List String) : Outcome Run :=
  match readInput input with
  | .panic => .panic
  | .outOfFuel => .outOfFuel
  | .ret (.error msg) => .ret ⟨"", "Ошибка ввода: " ++ msg ++ "\n", 1⟩
  | .ret (.ok (grid, start, finish)) =>
    match Dijkstra tie fuel grid start finish with
    | .panic => .panic
    | .outOfFuel => .outOfFuel
    | .error msg =>
      if msg = "нет пути до финиша" then .ret ⟨"Пути не существует\n", "", 0⟩
      else .ret ⟨"", "Ошибка во время расчета пути: " ++ msg ++ "\n", 1⟩
    | .path path => .ret ⟨printPath path "" ++ ".\n", "", 0⟩

/-- The line `n` of the input, counted from 0; empty when the input has fewer lines. -/
def lineAt (input : List String) (n : Nat) : String := input.getD n ""

/-- All the values of a list, when none is missing. -/
def allSome {α : Type} : List (Option α) → Option (List α)
  | [] => some []
  | none :: _ => none
  | some a :: rest => (allSome rest).map fun l => a :: l

/-- A line of the grid as the specification words it: exactly `columns` tokens, each of
them an integer; the values of the tokens in order. -/
def rowSpec (parse : String → Option Int) (columns : Int) (tokens : List String) :
    Option (List Int) :=
  if (tokens.length : Int) = columns then allSome (tokens.map parse) else none

/-- The line of the coordinates as the specification words it: exactly 4 tokens, each
of them an integer; start is (token 1, token 2) and end is (token 3, token 4). -/
def coordsSpec (parse : String → Option Int) (tokens : List String) : Option (Point × Point) :=
  match tokens with
  | [c0, c1, c2, c3] =>
    match allSome [parse c0, parse c1, parse c2, parse c3] with
    | some [startX, startY, endX, endY] => some (⟨startX, startY⟩, ⟨endX, endY⟩)
    | _ => none
  | _ => none

/-- The input construction as the specification words it, `parse` telling which tokens
are integers: `none` is an error; otherwise the first line has exactly 2 tokens `rows`
and `columns`, each of the next `rows` lines has exactly `columns` tokens, the line after
them has exactly 4 tokens, every token is an integer, and the result is the grid of the
values in order with the start and the end. -/
def readInputSpec (parse : String → Option Int) (input : List String) :
    Option (List (List Int) × Point × Point) :=
  match fields (lineAt input 0) with
  | [s0, s1] =>
    match allSome [parse s0, parse s1] with
    | some [rows, columns] =>
      match allSome ((List.range rows.toNat).map fun k =>
          rowSpec parse columns (fields (lineAt input (k + 1)))) with
      | none => none
      | some grid =>
        match coordsSpec parse (fields (lineAt input (rows.toNat + 1))) with
        | none => none
        | some (start, finish) => some (grid, start, finish)
    | _ => none
  | _ => none

/-! ## Slices and tables -/

theorem index_eq_some {α : Type} {s : List α} {i : Int} {v : α} :
    index s i = some v ↔ 0 ≤ i ∧ s[i.toNat]? = some v := by
  unfold index
  by_cases h : i < 0
  · simp [h]
  · simp [h]; omega

theorem index_isSome {α : Type} {s : List α} {i : Int} :
    (index s i).isSome ↔ 0 ≤ i ∧ i < s.length := by
  unfold index
  by_cases h : i < 0
  · simp [h]
  · have e : ((i.toNat : Nat) : Int) = i := Int.toNat_of_nonneg (by omega)
    simp only [h, if_false, List.getElem?_eq_some_iff, Option.isSome_iff_exists]
    constructor
    · rintro ⟨_, h2, _⟩; omega
    · intro h2; exact ⟨_, by omega, rfl⟩

theorem store_eq_some {α : Type} {s s2 : List α} {i : Int} {v : α} :
    store s i v = some s2 ↔ (0 ≤ i ∧ i < s.length) ∧ s2 = s.set i.toNat v := by
  unfold store
  by_cases h : 0 ≤ i ∧ i.toNat < s.length
  · simp [h]
    constructor
    · intro h2; exact ⟨by omega, h2.symm⟩
    · intro h2; exact h2.2.symm
  · simp [h]
    intro h1 h2
    exact absurd ⟨h1, by omega⟩ h

theorem index_store {α : Type} {s s2 : List α} {i j : Int} {v : α}
    (h : store s i v = some s2) :
    index s2 j = if j = i then some v else index s j := by
  obtain ⟨⟨h0, h1⟩, rfl⟩ := store_eq_some.mp h
  unfold index
  by_cases hj : j < 0
  · have : j ≠ i := by omega
    simp [hj, this]
  · simp only [hj, if_false]
    by_cases hji : j = i
    · subst hji
      simp [List.getElem?_set]
      omega
    · have : i.toNat ≠ j.toNat := by omega
      simp [hji, List.getElem?_set, this]

theorem at2_isSome {α : Type} {t : List (List α)} {p : Point} :
    (at2 t p).isSome ↔ ∃ row, index t p.x = some row ∧ (0 ≤ p.y ∧ p.y < row.length) := by
  unfold at2
  cases h : index t p.x with
  | none => simp
  | some row => simp [index_isSome]

theorem store2_of_at2 {α : Type} {t : List (List α)} {p : Point} (v : α)
    (h : (at2 t p).isSome) : ∃ t2, store2 t p v = some t2 := by
  obtain ⟨row, h1, h2⟩ := at2_isSome.mp h
  have hx := index_isSome.mp (by rw [h1]; rfl : (index t p.x).isSome)
  unfold store2
  simp only [h1, Option.some_bind]
  have : store row p.y v = some (row.set p.y.toNat v) := store_eq_some.mpr ⟨h2, rfl⟩
  simp only [this, Option.some_bind]
  exact ⟨_, store_eq_some.mpr ⟨hx, rfl⟩⟩

theorem at2_store2 {α : Type} {t t2 : List (List α)} {p : Point} {v : α}
    (h : store2 t p v = some t2) (q : Point) :
    at2 t2 q = if q = p then some v else at2 t q := by
  unfold store2 at h
  cases h1 : index t p.x with
  | none => simp [h1] at h
  | some row =>
    simp only [h1, Option.some_bind] at h
    cases h2 : store row p.y v with
    | none => simp [h2] at h
    | some row2 =>
      simp only [h2, Option.some_bind] at h
      unfold at2
      rw [index_store h]
      by_cases hx : q.x = p.x
      · simp only [hx, if_true, Option.some_bind]
        rw [index_store h2]
        by_cases hy : q.y = p.y
        · have : q = p := by cases q; cases p; simp_all
          simp [hy, this]
        · have : q ≠ p := fun e => hy (by rw [e])
          simp [hy, this, h1]
      · have : q ≠ p := fun e => hx (by rw [e])
        simp [hx, this]

theorem at2_replicate {α : Type} (r c : Nat) (v : α) (p : Point) :
    at2 (List.replicate r (List.replicate c v)) p =
      if 0 ≤ p.x ∧ p.x < r ∧ 0 ≤ p.y ∧ p.y < c then some v else none := by
  unfold at2 index
  by_cases hx : p.x < 0
  · have : ¬ (0 ≤ p.x ∧ p.x < r ∧ 0 ≤ p.y ∧ p.y < c) := by omega
    simp [hx, this]
  · simp only [hx, if_false]
    by_cases hr : p.x.toNat < r
    · simp only [List.getElem?_replicate, hr, if_true, Option.some_bind]
      by_cases hy : p.y < 0
      · have : ¬ (0 ≤ p.x ∧ p.x < r ∧ 0 ≤ p.y ∧ p.y < c) := by omega
        simp [hy, this]
      · simp only [hy, if_false]
        by_cases hc : p.y.toNat < c
        · have : (0 ≤ p.x ∧ p.x < r ∧ 0 ≤ p.y ∧ p.y < c) := by omega
          simp [hc, this]
        · have : ¬ (0 ≤ p.x ∧ p.x < r ∧ 0 ≤ p.y ∧ p.y < c) := by omega
          simp [hc, this]
    · have : ¬ (0 ≤ p.x ∧ p.x < r ∧ 0 ≤ p.y ∧ p.y < c) := by omega
      simp [List.getElem?_replicate, hr, this]

/-! ## The priority queue -/

theorem foldl_min_le (es : List PqNode) (a : Int) :
    es.foldl (fun a n => min a n.dist) a ≤ a ∧
      ∀ n ∈ es, es.foldl (fun a n => min a n.dist) a ≤ n.dist := by
  induction es generalizing a with
  | nil => simp
  | cons e es ih =>
    simp only [List.foldl_cons, List.mem_cons]
    obtain ⟨h1, h2⟩ := ih (min a e.dist)
    refine ⟨le_trans h1 (min_le_left _ _), ?_⟩
    rintro n (rfl | hn)
    · exact le_trans h1 (min_le_right _ _)
    · exact h2 n hn

theorem foldl_min_mem (es : List PqNode) (a : Int) :
    es.foldl (fun a n => min a n.dist) a = a ∨
      ∃ n ∈ es, n.dist = es.foldl (fun a n => min a n.dist) a := by
  induction es generalizing a with
  | nil => simp
  | cons e es ih =>
    simp only [List.foldl_cons, List.mem_cons]
    rcases ih (min a e.dist) with h | ⟨n, hn, h⟩
    · rcases min_choice a e.dist with h2 | h2
      · left; rw [h, h2]
      · right; exact ⟨e, Or.inl rfl, by rw [h, h2]⟩
    · right; exact ⟨n, Or.inr hn, h⟩

theorem pick_mem (c : Nat) (e : PqNode) (es : List PqNode) : pick c e es ∈ e :: es := by
  induction es generalizing c e with
  | nil => simp [pick]
  | cons e2 es ih =>
    cases c with
    | zero => simp [pick]
    | succ c => simp only [pick]; exact List.mem_cons_of_mem _ (ih c e2)

/-- What `heap.Pop` returns: an entry of the queue of least `dist`, and the queue
without it. -/
theorem heapPop_spec {c : Nat} {pq rest : priorityQueue} {item : PqNode}
    (h : heapPop c pq = some (item, rest)) :
    item ∈ pq ∧ (∀ e ∈ pq, item.dist ≤ e.dist) ∧ rest = pq.erase item := by
  unfold heapPop at h
  cases pq with
  | nil => simp at h
  | cons e es =>
    simp only at h
    split at h
    · simp at h
    · rename_i a as hfil
      simp only [Option.some.injEq, Prod.mk.injEq] at h
      obtain ⟨rfl, rfl⟩ := h
      have hmem : pick c a as ∈ (e :: es).filter fun n => n.dist = leastDist e es := by
        rw [hfil]; exact pick_mem c a as
      rw [List.mem_filter] at hmem
      obtain ⟨hm, hd⟩ := hmem
      simp only [decide_eq_true_eq] at hd
      refine ⟨hm, ?_, rfl⟩
      intro n hn
      rw [hd]
      rcases List.mem_cons.mp hn with rfl | hn
      · exact (foldl_min_le es _).1
      · exact (foldl_min_le es _).2 n hn

/-- A call `heap.Pop` on a non-empty queue returns an entry. -/
theorem heapPop_of_ne_nil (c : Nat) {pq : priorityQueue} (h : pq ≠ []) :
    ∃ item rest, heapPop c pq = some (item, rest) := by
  unfold heapPop
  cases pq with
  | nil => exact absurd rfl h
  | cons e es =>
    simp only
    have hne : ∃ n, n ∈ (e :: es).filter fun n => n.dist = leastDist e es := by
      rcases foldl_min_mem es e.dist with h1 | ⟨n, hn, h1⟩
      · exact ⟨e, List.mem_filter.mpr ⟨List.mem_cons_self _ _, by simp [leastDist, h1]⟩⟩
      · exact ⟨n, List.mem_filter.mpr ⟨List.mem_cons_of_mem _ hn, by simp [leastDist, h1]⟩⟩
    split
    · rename_i hfil
      obtain ⟨n, hn⟩ := hne
      rw [hfil] at hn
      simp at hn
    · exact ⟨_, _, rfl⟩

theorem pick_any (e : PqNode) (es : List PqNode) (x : PqNode) (hx : x ∈ e :: es) :
    ∃ c, pick c e es = x := by
  induction es generalizing e with
  | nil =>
    rw [List.mem_singleton] at hx
    exact ⟨0, by simp [pick, hx]⟩
  | cons e2 es ih =>
    rcases List.mem_cons.mp hx with rfl | hx
    · exact ⟨0, by simp [pick]⟩
    · obtain ⟨c, hc⟩ := ih e2 hx
      exact ⟨c + 1, by simp [pick, hc]⟩

/-- Every entry of least `dist` is returned by `heap.Pop` for some choice: the model
covers every tie-breaking order. -/
theorem heapPop_any {pq : priorityQueue} {item : PqNode} (hmem : item ∈ pq)
    (hleast : ∀ e ∈ pq, item.dist ≤ e.dist) :
    ∃ c, heapPop c pq = some (item, pq.erase item) := by
  cases pq with
  | nil => simp at hmem
  | cons e es =>
    have hmin : item.dist = leastDist e es := by
      apply le_antisymm
      · rcases foldl_min_mem es e.dist with h1 | ⟨n, hn, h1⟩
        · unfold leastDist; rw [h1]; exact hleast e (List.mem_cons_self _ _)
        · unfold leastDist; rw [← h1]; exact hleast n (List.mem_cons_of_mem _ hn)
      · rcases List.mem_cons.mp hmem with rfl | h1
        · exact (foldl_min_le es _).1
        · exact (foldl_min_le es _).2 item h1
    have hfil : item ∈ (e :: es).filter fun n => n.dist = leastDist e es :=
      List.mem_filter.mpr ⟨hmem, by simpa using hmin⟩
    unfold heapPop
    simp only
    split
    · rename_i h0
      rw [h0] at hfil
      simp at hfil
    · rename_i a as h0
      rw [h0] at hfil
      obtain ⟨c, hc⟩ := pick_any a as item hfil
      exact ⟨c, by rw [hc]⟩

theorem heapPop_singleton (c : Nat) (e : PqNode) : heapPop c [e] = some (e, []) := by
  simp [heapPop, leastDist, pick]

/-! ## The potential of a distance table -/

theorem sum_map_set {α : Type} (f : α → Nat) (l : List α) (i : Nat) (v old : α)
    (h : l[i]? = some old) :
    ((l.set i v).map f).sum + f old = (l.map f).sum + f v := by
  induction l generalizing i with
  | nil => simp at h
  | cons a l ih =>
    cases i with
    | zero =>
      simp only [List.getElem?_cons_zero, Option.some.injEq] at h
      subst h
      simp only [List.set_cons_zero, List.map_cons, List.sum_cons]
      omega
    | succ i =>
      simp only [List.getElem?_cons_succ] at h
      have := ih i h
      simp only [List.set_cons_succ, List.map_cons, List.sum_cons]
      omega

theorem potential_store2 {t t2 : List (List Int)} {p : Point} {v old : Int}
    (h : store2 t p v = some t2) (ho : at2 t p = some old) :
    potential t2 + height old = potential t + height v := by
  unfold store2 at h
  unfold at2 at ho
  cases h1 : index t p.x with
  | none => simp [h1] at h
  | some row =>
    simp only [h1, Option.some_bind] at h ho
    cases h2 : store row p.y v with
    | none => simp [h2] at h
    | some row2 =>
      simp only [h2, Option.some_bind] at h
      obtain ⟨_, rfl⟩ := store_eq_some.mp h
      obtain ⟨_, rfl⟩ := store_eq_some.mp h2
      have e1 := sum_map_set (fun row => (row.map height).sum) t p.x.toNat
        (row.set p.y.toNat v) row (index_eq_some.mp h1).2
      have e2 := sum_map_set height row p.y.toNat v old (index_eq_some.mp ho).2
      simp only at e1
      unfold potential
      omega

theorem wrapInt_range (n : Int) :
    -9223372036854775808 ≤ wrapInt n ∧ wrapInt n < 9223372036854775808 := by
  unfold wrapInt; omega

theorem wrapInt_of_range {n : Int} (h1 : -9223372036854775808 ≤ n)
    (h2 : n < 9223372036854775808) : wrapInt n = n := by
  unfold wrapInt; omega

/-! ## Grids -/

theorem at2_grid_of_inBounds {grid : List (List Int)} (hr : Rect grid) {p : Point}
    (hp : InBounds grid p) : ∃ g, at2 grid p = some g := by
  obtain ⟨h0, hx, h1, hy⟩ := hp
  have hi : (index grid p.x).isSome := index_isSome.mpr ⟨h0, hx⟩
  obtain ⟨row, hrow⟩ := Option.isSome_iff_exists.mp hi
  have hmem : row ∈ grid := List.getElem?_mem (index_eq_some.mp hrow).2
  have hlen := hr.2 row hmem
  have : (at2 grid p).isSome := at2_isSome.mpr ⟨row, hrow, h1, by rw [hlen]; exact hy⟩
  exact Option.isSome_iff_exists.mp this

theorem inBounds_of_at2_grid {grid : List (List Int)} (hr : Rect grid) {p : Point} {g : Int}
    (h : at2 grid p = some g) : InBounds grid p := by
  have hs : (at2 grid p).isSome := by rw [h]; rfl
  obtain ⟨row, hrow, h1, hy⟩ := at2_isSome.mp hs
  have hx := index_isSome.mp (by rw [hrow]; rfl : (index grid p.x).isSome)
  have hmem : row ∈ grid := List.getElem?_mem (index_eq_some.mp hrow).2
  have hlen := hr.2 row hmem
  exact ⟨hx.1, hx.2, h1, by rw [← hlen]; exact hy⟩

theorem nonneg_of_at2_grid {grid : List (List Int)} (hn : NonNeg grid) {p : Point} {g : Int}
    (h : at2 grid p = some g) : 0 ≤ g := by
  unfold at2 at h
  cases h1 : index grid p.x with
  | none => simp [h1] at h
  | some row =>
    simp only [h1, Option.some_bind] at h
    exact hn row (List.getElem?_mem (index_eq_some.mp h1).2) g
      (List.getElem?_mem (index_eq_some.mp h).2)




/-! ## Runs that never break a tie -/

theorem searchLoop_of_tieFree (tie1 tie2 : Nat → Nat) (grid : List (List Int))
    (rows columns : Int) (finish : Point) (fuel : Nat) :
    ∀ (k1 k2 : Nat) (st : State), tieFree grid rows columns finish fuel st = true →
      searchLoop tie1 grid rows columns finish fuel k1 st =
        searchLoop tie2 grid rows columns finish fuel k2 st := by
  induction fuel with
  | zero => intro k1 k2 st _; rfl
  | succ fuel ih =>
    intro k1 k2 st h
    obtain ⟨dist, parent, pq⟩ := st
    cases pq with
    | nil => simp [searchLoop]
    | cons e es =>
      unfold tieFree at h
      simp only at h
      unfold searchLoop heapPop
      simp only [List.length_cons, gt_iff_lt, Nat.zero_lt_succ, if_true]
      split at h
      · rename_i item hfil
        simp only [hfil, pick]
        by_cases hfin : item.point = finish
        · simp [hfin]
        · simp only [hfin, if_false] at h ⊢
          cases hd : at2 dist item.point with
          | none => rfl
          | some dc =>
            simp only [hd] at h ⊢
            by_cases hst : item.dist > dc
            · simp only [hst, if_true] at h ⊢
              exact ih _ _ _ h
            · simp only [hst, if_false] at h ⊢
              cases hrel : relaxAll grid rows columns item.point
                  ⟨dist, parent, (e :: es).erase item⟩ directions with
              | none => rfl
              | some st2 =>
                simp only [hrel] at h ⊢
                exact ih _ _ _ h
      · exact absurd h (by simp)

/-- When no pop of the run has to break a tie, the result is the same for every
tie-breaking order. -/
theorem Dijkstra_of_tieFreeRun (tie1 tie2 : Nat → Nat) (fuel : Nat) (grid : List (List Int))
    (start finish : Point) (h : tieFreeRun fuel grid start finish = true) :
    Dijkstra tie1 fuel grid start finish = Dijkstra tie2 fuel grid start finish := by
  unfold Dijkstra
  cases grid with
  | nil => rfl
  | cons row0 rest =>
    simp only
    unfold tieFreeRun at h
    simp only at h
    split
    · rfl
    · split
      · rfl
      · cases hgs : at2 (row0 :: rest) start with
        | none => rfl
        | some gs =>
          simp only [hgs] at h ⊢
          split
          · rfl
          · cases hge : at2 (row0 :: rest) finish with
            | none => rfl
            | some ge =>
              simp only
              split
              · rfl
              · unfold search
                cases hin : initState (row0 :: rest).length row0.length start gs with
                | none => rfl
                | some st0 =>
                  simp only [hin] at h ⊢
                  rw [searchLoop_of_tieFree tie1 tie2 _ _ _ _ _ 0 0 st0 h]

/-! ## More fuel does not change a result -/

theorem searchLoop_mono (tie : Nat → Nat) (grid : List (List Int)) (rows columns : Int)
    (finish : Point) (extra : Nat) (fuel : Nat) :
    ∀ (k : Nat) (st : State),
      searchLoop tie grid rows columns finish fuel k st ≠ .outOfFuel →
      searchLoop tie grid rows columns finish (fuel + extra) k st =
        searchLoop tie grid rows columns finish fuel k st := by
  induction fuel with
  | zero => intro k st h; exact absurd rfl h
  | succ fuel ih =>
    intro k st h
    have e : fuel + 1 + extra = (fuel + extra) + 1 := by omega
    rw [e]
    unfold searchLoop at h ⊢
    split
    · cases hpop : heapPop (tie k) st.pq with
      | none => rfl
      | some pr =>
        obtain ⟨item, rest⟩ := pr
        simp only [hpop] at h ⊢
        split
        · rfl
        · rename_i hlen hfin
          simp only [hlen, hfin, if_true, if_false] at h
          cases hdc : at2 st.dist item.point with
          | none => rfl
          | some dc =>
            simp only [hdc] at h ⊢
            split
            · rename_i hst
              simp only [hst, if_true] at h
              exact ih _ _ h
            · rename_i hst
              simp only [hst, if_false] at h
              cases hrel : relaxAll grid rows columns item.point
                  ⟨st.dist, st.parent, rest⟩ directions with
              | none => rfl
              | some st2 =>
                simp only [hrel] at h ⊢
                exact ih _ _ h
    · rfl

theorem walkBack_mono (parent : List (List (Option Point))) (start : Point) (extra : Nat)
    (fuel : Nat) :
    ∀ (cur : Point) (acc : List Point), walkBack parent start fuel cur acc ≠ .outOfFuel →
      walkBack parent start (fuel + extra) cur acc = walkBack parent start fuel cur acc := by
  induction fuel with
  | zero => intro cur acc h; exact absurd rfl h
  | succ fuel ih =>
    intro cur acc h
    have e : fuel + 1 + extra = (fuel + extra) + 1 := by omega
    rw [e]
    unfold walkBack at h ⊢
    simp only at h ⊢
    split
    · rfl
    · rename_i hc
      simp only [hc, if_false] at h
      cases hp : at2 parent cur with
      | none => rfl
      | some o =>
        cases o with
        | none => rfl
        | some q =>
          simp only [hp] at h ⊢
          exact ih _ _ h

theorem search_mono (tie : Nat → Nat) (fuel extra : Nat) (grid : List (List Int))
    (rows columns : Nat) (start finish : Point) (gs : Int)
    (h : search tie fuel grid rows columns start finish gs ≠ .outOfFuel) :
    search tie (fuel + extra) grid rows columns start finish gs =
      search tie fuel grid rows columns start finish gs := by
  unfold search at h ⊢
  cases hin : initState rows columns start gs with
  | none => rfl
  | some st0 =>
    simp only [hin] at h ⊢
    have hloop : searchLoop tie grid rows columns finish fuel 0 st0 ≠ .outOfFuel := by
      intro e
      rw [e] at h
      exact h rfl
    rw [searchLoop_mono tie grid rows columns finish extra fuel 0 st0 hloop]
    cases hl : searchLoop tie grid rows columns finish fuel 0 st0 with
    | panic => rfl
    | outOfFuel => exact absurd hl hloop
    | ret st =>
      simp only [hl] at h ⊢
      unfold reconstruct at h ⊢
      cases hde : at2 st.dist finish with
      | none => rfl
      | some de =>
        simp only [hde] at h ⊢
        split
        · rfl
        · rename_i hinf
          simp only [hinf, if_false] at h
          have hwb : walkBack st.parent start fuel finish [] ≠ .outOfFuel := by
            intro e
            rw [e] at h
            exact h rfl
          rw [walkBack_mono st.parent start extra fuel finish [] hwb]

/-- A result other than `outOfFuel` stays the same with more fuel: it is the result of
the source's call. -/
theorem Dijkstra_mono (tie : Nat → Nat) (fuel extra : Nat) (grid : List (List Int))
    (start finish : Point) (h : Dijkstra tie fuel grid start finish ≠ .outOfFuel) :
    Dijkstra tie (fuel + extra) grid start finish = Dijkstra tie fuel grid start finish := by
  unfold Dijkstra at h ⊢
  cases grid with
  | nil => rfl
  | cons row0 rest =>
    simp only at h ⊢
    split
    · rfl
    · split
      · rfl
      · rename_i hsb hfb
        simp only [hsb, hfb, if_false] at h
        cases hgs : at2 (row0 :: rest) start with
        | none => rfl
        | some gs =>
          simp only [hgs] at h ⊢
          split
          · rfl
          · rename_i hs0
            simp only [hs0, if_false] at h
            cases hge : at2 (row0 :: rest) finish with
            | none => rfl
            | some ge =>
              simp only [hge] at h ⊢
              split
              · rfl
              · rename_i hf0
                simp only [hf0, if_false] at h
                exact search_mono tie fuel extra _ _ _ _ _ _ h

/-! ## The in-place reversal -/

theorem swapAt_cons_succ (c : Point) (l : List Point) (i j : Nat) :
    swapAt (c :: l) (i + 1) (j + 1) = c :: swapAt l i j := by
  unfold swapAt
  simp only [List.getElem?_cons_succ]
  cases l[i]? <;> cases l[j]? <;> simp

theorem set_append_cons (m : List Point) (y x : Point) (b : List Point) :
    (m ++ y :: b).set m.length x = m ++ x :: b := by
  induction m with
  | nil => rfl
  | cons c m ih => simp [ih]

theorem getElem?_append_cons (m : List Point) (y : Point) (b : List Point) :
    (m ++ y :: b)[m.length]? = some y := by
  induction m with
  | nil => simp
  | cons c m ih => simpa using ih

theorem swapAt_ends (a m b : List Point) (x y : Point) :
    swapAt (a ++ x :: (m ++ y :: b)) a.length (a.length + m.length + 1) =
      a ++ y :: (m ++ x :: b) := by
  induction a with
  | nil =>
    simp only [List.length_nil, List.nil_append, Nat.zero_add]
    unfold swapAt
    simp only [List.getElem?_cons_zero, List.getElem?_cons_succ, getElem?_append_cons,
      List.set_cons_zero, List.set_cons_succ, set_append_cons]
  | cons c a ih =>
    have e : (c :: a).length + m.length + 1 = (a.length + m.length + 1) + 1 := by
      simp only [List.length_cons]; omega
    rw [e]
    simp only [List.length_cons, List.cons_append]
    rw [swapAt_cons_succ, ih]

theorem reverseLoop_spec (n : Nat) :
    ∀ (a m b : List Point), m.length ≤ n →
      reverseLoop n a.length ((a.length : Int) + m.length - 1) (a ++ m ++ b) =
        a ++ m.reverse ++ b := by
  induction n with
  | zero =>
    intro a m b h
    have : m = [] := List.length_eq_zero.mp (by omega)
    subst this
    simp [reverseLoop]
  | succ n ih =>
    intro a m b h
    unfold reverseLoop
    cases m with
    | nil =>
      have : ¬ ((a.length : Int) < (a.length : Int) + (([] : List Point).length : Nat) - 1) := by
        simp
      simp only [this, if_false]
      simp
    | cons x m1 =>
      rcases List.eq_nil_or_concat m1 with rfl | ⟨m2, y, rfl⟩
      · simp
      · simp only [List.concat_eq_append] at h ⊢
        have hlt : (a.length : Int) < (a.length : Int) + ((x :: (m2 ++ [y])).length : Nat) - 1 := by
          simp only [List.length_cons, List.length_append, List.length_nil]
          omega
        simp only [hlt, if_true]
        have e1 : ((a.length : Int)).toNat = a.length := by omega
        have e2 : ((a.length : Int) + ((x :: (m2 ++ [y])).length : Nat) - 1).toNat =
            a.length + m2.length + 1 := by
          simp only [List.length_cons, List.length_append, List.length_nil]
          omega
        rw [e1, e2]
        have e3 : a ++ x :: (m2 ++ [y]) ++ b = a ++ x :: (m2 ++ y :: b) := by simp
        rw [e3, swapAt_ends]
        have e4 : a ++ y :: (m2 ++ x :: b) = (a ++ [y]) ++ m2 ++ (x :: b) := by simp
        have e5 : ((a.length : Int) + 1) = ((a ++ [y]).length : Nat) := by simp
        have e6 : ((a.length : Int) + ((x :: (m2 ++ [y])).length : Nat) - 1 - 1) =
            (((a ++ [y]).length : Nat) : Int) + (m2.length : Nat) - 1 := by
          simp only [List.length_cons, List.length_append, List.length_nil]
          push_cast
          omega
        rw [e4, e5, e6, ih (a ++ [y]) m2 (x :: b)
          (by simp only [List.length_cons, List.length_append, List.length_nil] at h; omega)]
        simp

/-- The swap loop at the end of `Dijkstra` reverses the slice. -/
theorem reversePath_eq (path : List Point) : reversePath path = path.reverse := by
  have h := reverseLoop_spec path.length [] path [] (le_refl _)
  simpa [reversePath] using h

/-! ## The validation tests -/

theorem not_inBounds_iff (row0 : List Int) (rest : List (List Int)) (p : Point) :
    (p.x < 0 ∨ p.x ≥ ((row0 :: rest).length : Int) ∨ p.y < 0 ∨ p.y ≥ (row0.length : Int)) ↔
      ¬ InBounds (row0 :: rest) p := by
  unfold InBounds columnsOf
  simp only [List.headD_cons]
  omega

/-- `Dijkstra` on a grid with in-bounds nonzero `start` and `finish` is the search. -/
theorem Dijkstra_of_valid (tie : Nat → Nat) (fuel : Nat) {grid : List (List Int)}
    {start finish : Point} (hs : InBounds grid start) (hf : InBounds grid finish)
    {gs ge : Int} (hgs : at2 grid start = some gs) (hs0 : gs ≠ 0)
    (hge : at2 grid finish = some ge) (hf0 : ge ≠ 0) :
    Dijkstra tie fuel grid start finish =
      search tie fuel grid grid.length (columnsOf grid) start finish gs := by
  cases grid with
  | nil => simp [at2, index] at hgs
  | cons row0 rest =>
    unfold Dijkstra
    simp only
    rw [if_neg (fun h => (not_inBounds_iff row0 rest start).mp h hs),
      if_neg (fun h => (not_inBounds_iff row0 rest finish).mp h hf)]
    simp only [hgs, hge, hs0, hf0, if_false]
    rfl

theorem search_not_validation_error (tie : Nat → Nat) (fuel : Nat) (grid : List (List Int))
    (rows columns : Nat) (start finish : Point) (gs : Int) (msg : String)
    (h : search tie fuel grid rows columns start finish gs = .error msg) : msg = errNoPath := by
  unfold search at h
  split at h
  · exact absurd h (by simp)
  · split at h
    · exact absurd h (by simp)
    · exact absurd h (by simp)
    · unfold reconstruct at h
      split at h
      · exact absurd h (by simp)
      · split at h
        · simpa using h.symm
        · split at h <;> exact absurd h (by simp)

/-- C8. On a non-empty grid, when `start` lies outside `[0, rows) × [0, columns)` the
result is the error "стартовая точка вне лабиринта"; when `start` lies inside and
`finish` outside, it is the error "финишная точка вне лабиринта". No path is returned,
and the result is the same for every grid of the same number of rows and columns: no
value of the grid is read (nor does the shape of the rows after the first matter). -/
theorem C8_out_of_bounds (tie : Nat → Nat) (fuel : Nat) (grid : List (List Int))
    (start finish : Point) (hne : grid ≠ []) :
    (¬ InBounds grid start → Dijkstra tie fuel grid start finish = .error errStartOutside) ∧
    (InBounds grid start → ¬ InBounds grid finish →
      Dijkstra tie fuel grid start finish = .error errEndOutside) ∧
    (¬ InBounds grid start ∨ ¬ InBounds grid finish →
      ∀ grid2 : List (List Int), grid2 ≠ [] → grid2.length = grid.length →
        columnsOf grid2 = columnsOf grid →
        Dijkstra tie fuel grid2 start finish = Dijkstra tie fuel grid start finish) := by
  have key : ∀ g : List (List Int), g ≠ [] →
      (¬ InBounds g start → Dijkstra tie fuel g start finish = .error errStartOutside) ∧
      (InBounds g start → ¬ InBounds g finish →
        Dijkstra tie fuel g start finish = .error errEndOutside) := by
    intro g hg
    cases g with
    | nil => exact absurd rfl hg
    | cons row0 rest =>
      constructor
      · intro h
        unfold Dijkstra
        simp only
        rw [if_pos ((not_inBounds_iff row0 rest start).mpr h)]
      · intro h1 h2
        unfold Dijkstra
        simp only
        rw [if_neg (fun h => (not_inBounds_iff row0 rest start).mp h h1),
          if_pos ((not_inBounds_iff row0 rest finish).mpr h2)]
  refine ⟨(key grid hne).1, (key grid hne).2, ?_⟩
  intro h grid2 hne2 hlen hcol
  have e : ∀ p, InBounds grid2 p ↔ InBounds grid p := by
    intro p; unfold InBounds; rw [hlen, hcol]
  by_cases hs : InBounds grid start
  · have hf : ¬ InBounds grid finish := by tauto
    rw [(key grid hne).2 hs hf, (key grid2 hne2).2 ((e _).mpr hs) (fun h2 => hf ((e _).mp h2))]
  · rw [(key grid hne).1 hs, (key grid2 hne2).1 (fun h2 => hs ((e _).mp h2))]

/-- Witness of C8: on a 1×2 grid the start `(0, 5)` is reported as outside. -/
theorem C8_out_of_bounds_witness :
    Dijkstra (fun _ => 0) 0 [[1, 1]] ⟨0, 5⟩ ⟨0, 1⟩ = .error errStartOutside :=
  (C8_out_of_bounds (fun _ => 0) 0 [[1, 1]] ⟨0, 5⟩ ⟨0, 1⟩ (by decide)).1
    (by decide)

/-- C9. On a non-empty rectangular grid with `start` and `finish` in bounds: when the
start cell is 0 the result is the error "стартовая точка - тупик"; when the start cell
is nonzero and the finish cell is 0 it is the error "финишная точка - тупик". Both hold
for every amount of fuel, zero included, so the search loop is not run. When both cells
are nonzero, the result is none of the four validation errors. -/
theorem C9_blocked (tie : Nat → Nat) (fuel : Nat) (grid : List (List Int))
    (start finish : Point) (hr : Rect grid) (hs : InBounds grid start)
    (hf : InBounds grid finish) :
    (at2 grid start = some 0 → Dijkstra tie fuel grid start finish = .error errStartWall) ∧
    (Passable grid start → at2 grid finish = some 0 →
      Dijkstra tie fuel grid start finish = .error errEndWall) ∧
    (Passable grid start → Passable grid finish →
      ∀ msg ∈ [errStartOutside, errEndOutside, errStartWall, errEndWall],
        Dijkstra tie fuel grid start finish ≠ .error msg) := by
  refine ⟨?_, ?_, ?_⟩
  · intro h0
    cases grid with
    | nil => exact absurd rfl hr.1
    | cons row0 rest =>
      unfold Dijkstra
      simp only
      rw [if_neg (fun h => (not_inBounds_iff row0 rest start).mp h hs),
        if_neg (fun h => (not_inBounds_iff row0 rest finish).mp h hf)]
      simp [h0]
  · rintro ⟨gs, hgs, hs0⟩ h0
    cases grid with
    | nil => exact absurd rfl hr.1
    | cons row0 rest =>
      unfold Dijkstra
      simp only
      rw [if_neg (fun h => (not_inBounds_iff row0 rest start).mp h hs),
        if_neg (fun h => (not_inBounds_iff row0 rest finish).mp h hf)]
      simp [hgs, hs0, h0]
  · rintro ⟨gs, hgs, hs0⟩ ⟨ge, hge, hf0⟩ msg hmsg hD
    rw [Dijkstra_of_valid tie fuel hs hf hgs hs0 hge hf0] at hD
    have := search_not_validation_error _ _ _ _ _ _ _ _ _ hD
    subst this
    revert hmsg
    decide

/-- Witness of C9: the grid `[[0, 1]]` with start `(0, 0)`. -/
theorem C9_blocked_witness :
    Dijkstra (fun _ => 0) 0 [[0, 1]] ⟨0, 0⟩ ⟨0, 1⟩ = .error errStartWall :=
  (C9_blocked (fun _ => 0) 0 [[0, 1]] ⟨0, 0⟩ ⟨0, 1⟩
    (by decide) (by decide) (by decide)).1 (by decide)

/-! ## The state before the loop -/

theorem at2_replicate_grid {α : Type} (grid : List (List Int)) (v : α) (q : Point) :
    at2 (List.replicate grid.length (List.replicate (columnsOf grid) v)) q =
      if InBounds grid q then some v else none := by
  rw [at2_replicate]
  rfl

theorem initState_spec {grid : List (List Int)} {start : Point} (hs : InBounds grid start)
    (gs : Int) :
    ∃ dist1, initState grid.length (columnsOf grid) start gs =
        some ⟨dist1, List.replicate grid.length (List.replicate (columnsOf grid) none),
          [⟨start, gs⟩]⟩ ∧
      ∀ q, at2 dist1 q = if q = start then some gs else
        if InBounds grid q then some inf else none := by
  have h0 : (at2 (List.replicate grid.length (List.replicate (columnsOf grid) inf)) start).isSome := by
    rw [at2_replicate_grid, if_pos hs]; rfl
  obtain ⟨dist1, hd⟩ := store2_of_at2 gs h0
  have hat := at2_store2 hd
  refine ⟨dist1, ?_, ?_⟩
  · unfold initState
    simp only [hd, Option.bind_eq_bind, Option.some_bind, hat start, if_true]
  · intro q
    rw [hat q, at2_replicate_grid]

/-! ## Start and finish coincide -/

/-- With `finish = start` the first pop ends the loop: the result is the one-cell path,
unless the value of the start cell is exactly the sentinel `1 << 20`, in which case the
test `dist[end] == 1<<20` reports that there is no path. -/
theorem Dijkstra_start_eq_finish (tie : Nat → Nat) (k : Nat) (grid : List (List Int))
    (start : Point) (hs : InBounds grid start) (gs : Int)
    (hgs : at2 grid start = some gs) (hs0 : gs ≠ 0) :
    Dijkstra tie (k + 1) grid start start =
      if gs = inf then .error errNoPath else .path [start] := by
  rw [Dijkstra_of_valid tie (k + 1) hs hs hgs hs0 hgs hs0]
  obtain ⟨dist1, hin, hat⟩ := initState_spec hs gs
  unfold search
  simp only [hin]
  unfold searchLoop
  simp only [List.length_singleton, gt_iff_lt, Nat.lt_one_iff, Nat.zero_lt_one, if_true,
    heapPop_singleton, if_true]
  unfold reconstruct
  simp only [hat start, if_true]
  by_cases hinf : gs = inf
  · simp [hinf]
  · simp only [hinf, if_false]
    unfold walkBack
    simp [reversePath_eq]

/-! ## Walks -/

theorem isWalk_single {grid : List (List Int)} {p : Point} (h : Passable grid p) :
    IsWalk grid p p [p] := by
  refine ⟨rfl, rfl, List.chain'_singleton p, ?_⟩
  intro q hq
  rw [List.mem_singleton] at hq
  exact hq ▸ h

theorem isWalk_snoc {grid : List (List Int)} {s u v : Point} {w : List Point}
    (hw : IsWalk grid s u w) (ha : Adjacent u v) (hv : Passable grid v) :
    IsWalk grid s v (w ++ [v]) := by
  obtain ⟨h1, h2, h3, h4⟩ := hw
  have hne : w ≠ [] := by rintro rfl; simp at h1
  refine ⟨?_, ?_, ?_, ?_⟩
  · cases w with
    | nil => exact absurd rfl hne
    | cons a w => simpa using h1
  · simp
  · refine List.Chain'.append h3 (List.chain'_singleton v) ?_
    intro x hx y hy
    rw [h2] at hx
    simp only [Option.mem_def, Option.some.injEq] at hx
    simp only [List.head?_cons, Option.mem_def, Option.some.injEq] at hy
    subst hx; subst hy
    exact ha
  · intro p hp
    rcases List.mem_append.mp hp with hp | hp
    · exact h4 p hp
    · rw [List.mem_singleton] at hp
      exact hp ▸ hv

theorem reach_self {grid : List (List Int)} {p : Point} (h : Passable grid p) :
    Reach grid p p := ⟨[p], isWalk_single h⟩

theorem reach_step {grid : List (List Int)} {s u v : Point} (hu : Reach grid s u)
    (ha : Adjacent u v) (hv : Passable grid v) : Reach grid s v := by
  obtain ⟨w, hw⟩ := hu
  exact ⟨w ++ [v], isWalk_snoc hw ha hv⟩

theorem adjacent_of_direction {cur d : Point} (hd : d ∈ directions) :
    Adjacent cur ⟨cur.x + d.x, cur.y + d.y⟩ := by
  unfold directions at hd
  simp only [List.mem_cons, List.mem_singleton, List.not_mem_nil, or_false] at hd
  unfold Adjacent
  rcases hd with rfl | rfl | rfl | rfl <;> simp

/-! ## One relaxation -/

/-- The three ways through the body of the loop over `directions`: the neighbour is
outside the grid or a wall; the candidate distance is no improvement; or the tables
and the queue are updated. -/
theorem relax_cases {grid : List (List Int)} {rows columns : Int} {cur d : Point}
    {st st2 : State} (h : relax grid rows columns cur st d = some st2) :
    (st2 = st ∧ ((cur.x + d.x < 0 ∨ cur.x + d.x ≥ rows ∨ cur.y + d.y < 0 ∨
        cur.y + d.y ≥ columns) ∨ at2 grid ⟨cur.x + d.x, cur.y + d.y⟩ = some 0)) ∨
    (∃ g dc dn, st2 = st ∧ at2 grid ⟨cur.x + d.x, cur.y + d.y⟩ = some g ∧ g ≠ 0 ∧
        at2 st.dist cur = some dc ∧ at2 st.dist ⟨cur.x + d.x, cur.y + d.y⟩ = some dn ∧
        ¬ wrapInt (dc + g) < dn) ∨
    (∃ g dc dn dist2 parent2, at2 grid ⟨cur.x + d.x, cur.y + d.y⟩ = some g ∧ g ≠ 0 ∧
        at2 st.dist cur = some dc ∧ at2 st.dist ⟨cur.x + d.x, cur.y + d.y⟩ = some dn ∧
        wrapInt (dc + g) < dn ∧
        store2 st.dist ⟨cur.x + d.x, cur.y + d.y⟩ (wrapInt (dc + g)) = some dist2 ∧
        store2 st.parent ⟨cur.x + d.x, cur.y + d.y⟩ (some cur) = some parent2 ∧
        st2 = ⟨dist2, parent2, st.pq ++ [⟨⟨cur.x + d.x, cur.y + d.y⟩, wrapInt (dc + g)⟩]⟩) := by
  unfold relax at h
  simp only at h
  split at h
  · rename_i hoob
    left
    exact ⟨(Option.some.inj h).symm, Or.inl hoob⟩
  · cases hg : at2 grid ⟨cur.x + d.x, cur.y + d.y⟩ with
    | none => simp [hg] at h
    | some g =>
      simp only [hg, Option.bind_eq_bind, Option.some_bind] at h
      by_cases hg0 : g = 0
      · left
        simp only [hg0, if_true] at h
        exact ⟨(Option.some.inj h).symm, Or.inr (by rw [hg0])⟩
      · simp only [hg0, if_false] at h
        cases hdc : at2 st.dist cur with
        | none => simp [hdc] at h
        | some dc =>
          simp only [hdc, Option.some_bind] at h
          cases hdn : at2 st.dist ⟨cur.x + d.x, cur.y + d.y⟩ with
          | none => simp [hdn] at h
          | some dn =>
            simp only [hdn, Option.some_bind] at h
            by_cases hlt : wrapInt (dc + g) < dn
            · simp only [hlt, if_true] at h
              cases hd2 : store2 st.dist ⟨cur.x + d.x, cur.y + d.y⟩ (wrapInt (dc + g)) with
              | none => simp [hd2] at h
              | some dist2 =>
                simp only [hd2, Option.some_bind] at h
                cases hp2 : store2 st.parent ⟨cur.x + d.x, cur.y + d.y⟩ (some cur) with
                | none => simp [hp2] at h
                | some parent2 =>
                  simp only [hp2, Option.some_bind, heapPush] at h
                  right; right
                  exact ⟨g, dc, dn, dist2, parent2, rfl, hg0, rfl, rfl, hlt, hd2, rfl,
                    (Option.some.inj h).symm⟩
            · simp only [hlt, if_false] at h
              right; left
              exact ⟨g, dc, dn, (Option.some.inj h).symm, rfl, hg0, rfl, rfl, hlt⟩

/-! ## Facts of the loop state that hold whatever the additions do -/

theorem relax_sound {grid : List (List Int)} {start : Point} {rows columns : Int}
    {cur d : Point} {st st2 : State} (hs : Sound grid start st) (hc : Passable grid cur)
    (hcr : Reach grid start cur) (hd : d ∈ directions)
    (h : relax grid rows columns cur st d = some st2) : Sound grid start st2 := by
  rcases relax_cases h with ⟨rfl, _⟩ | ⟨_, _, _, rfl, _⟩ |
    ⟨g, dc, dn, dist2, parent2, hg, hg0, hdc, hdn, hlt, hd2, hp2, rfl⟩
  · exact hs
  · exact hs
  · have hadj : Adjacent cur ⟨cur.x + d.x, cur.y + d.y⟩ := adjacent_of_direction hd
    have hpass : Passable grid ⟨cur.x + d.x, cur.y + d.y⟩ := ⟨g, hg, hg0⟩
    have hreach : Reach grid start ⟨cur.x + d.x, cur.y + d.y⟩ := reach_step hcr hadj hpass
    refine ⟨?_, ?_, ?_, ?_⟩
    · intro p hp
      simp only [at2_store2 hd2 p, at2_store2 hp2 p]
      by_cases e : p = ⟨cur.x + d.x, cur.y + d.y⟩
      · simp [e]
      · simp only [e, if_false]
        exact hs.shape p hp
    · intro e he
      rcases List.mem_append.mp he with he | he
      · exact hs.queue e he
      · rw [List.mem_singleton] at he
        subst he
        exact ⟨hpass, hreach⟩
    · intro v dv hv hne
      simp only [at2_store2 hd2 v] at hv
      by_cases e : v = ⟨cur.x + d.x, cur.y + d.y⟩
      · rw [e]; exact hreach
      · simp only [e, if_false] at hv
        exact hs.reached v dv hv hne
    · intro v u hv
      simp only [at2_store2 hp2 v] at hv
      by_cases e : v = ⟨cur.x + d.x, cur.y + d.y⟩
      · simp only [e, if_true, Option.some.injEq] at hv
        subst hv
        rw [e]
        exact ⟨hadj, hc, hpass⟩
      · simp only [e, if_false] at hv
        exact hs.parent v u hv

theorem relaxAll_sound {grid : List (List Int)} {start : Point} {rows columns : Int}
    {cur : Point} (hc : Passable grid cur) (hcr : Reach grid start cur) (ds : List Point) :
    ∀ {st st2 : State}, Sound grid start st → (∀ d ∈ ds, d ∈ directions) →
      relaxAll grid rows columns cur st ds = some st2 → Sound grid start st2 := by
  induction ds with
  | nil =>
    intro st st2 hs _ h
    simp only [relaxAll, Option.some.injEq] at h
    exact h ▸ hs
  | cons d rest ih =>
    intro st st2 hs hds h
    unfold relaxAll at h
    cases h1 : relax grid rows columns cur st d with
    | none => simp [h1] at h
    | some st1 =>
      simp only [h1] at h
      exact ih (relax_sound hs hc hcr (hds d (List.mem_cons_self _ _)) h1)
        (fun d2 hd2 => hds d2 (List.mem_cons_of_mem _ hd2)) h

theorem relax_total {grid : List (List Int)} (hr : Rect grid) {cur : Point}
    (hc : InBounds grid cur) (d : Point) {st : State}
    (hshape : ∀ p, InBounds grid p → (at2 st.dist p).isSome ∧ (at2 st.parent p).isSome) :
    ∃ st2, relax grid grid.length (columnsOf grid) cur st d = some st2 := by
  unfold relax
  simp only
  split
  · exact ⟨st, rfl⟩
  · rename_i hoob
    have hin : InBounds grid ⟨cur.x + d.x, cur.y + d.y⟩ := by
      unfold InBounds
      simp only
      omega
    obtain ⟨g, hg⟩ := at2_grid_of_inBounds hr hin
    obtain ⟨dc, hdc⟩ := Option.isSome_iff_exists.mp (hshape cur hc).1
    obtain ⟨dn, hdn⟩ := Option.isSome_iff_exists.mp (hshape _ hin).1
    simp only [hg, hdc, hdn, Option.bind_eq_bind, Option.some_bind]
    split
    · exact ⟨st, rfl⟩
    · split
      · obtain ⟨dist2, hd2⟩ := store2_of_at2 (wrapInt (dc + g)) (hshape _ hin).1
        obtain ⟨parent2, hp2⟩ := store2_of_at2 (some cur) (hshape _ hin).2
        simp only [hd2, hp2, Option.some_bind]
        exact ⟨_, rfl⟩
      · exact ⟨st, rfl⟩

theorem relax_measure {grid : List (List Int)} {rows columns : Int} {cur d : Point}
    {st st2 : State} (h : relax grid rows columns cur st d = some st2) :
    measure st2 ≤ measure st := by
  rcases relax_cases h with ⟨rfl, _⟩ | ⟨_, _, _, rfl, _⟩ |
    ⟨g, dc, dn, dist2, parent2, hg, hg0, hdc, hdn, hlt, hd2, hp2, rfl⟩
  · exact le_refl _
  · exact le_refl _
  · have hpot := potential_store2 hd2 hdn
    have hrange := wrapInt_range (dc + g)
    unfold measure
    simp only [List.length_append, List.length_singleton]
    unfold height at hpot
    omega

theorem relaxAll_measure {grid : List (List Int)} {rows columns : Int} {cur : Point}
    (ds : List Point) : ∀ {st st2 : State},
      relaxAll grid rows columns cur st ds = some st2 → measure st2 ≤ measure st := by
  induction ds with
  | nil =>
    intro st st2 h
    simp only [relaxAll, Option.some.injEq] at h
    exact h ▸ le_refl _
  | cons d rest ih =>
    intro st st2 h
    unfold relaxAll at h
    cases h1 : relax grid rows columns cur st d with
    | none => simp [h1] at h
    | some st1 =>
      simp only [h1] at h
      exact le_trans (ih h) (relax_measure h1)

theorem relaxAll_total {grid : List (List Int)} (hr : Rect grid) {start cur : Point}
    (hc : Passable grid cur) (hcr : Reach grid start cur) (ds : List Point) :
    ∀ {st : State}, Sound grid start st → (∀ d ∈ ds, d ∈ directions) →
      ∃ st2, relaxAll grid grid.length (columnsOf grid) cur st ds = some st2 := by
  induction ds with
  | nil => intro st _ _; exact ⟨st, rfl⟩
  | cons d rest ih =>
    intro st hs hds
    have hin : InBounds grid cur := by
      obtain ⟨g, hg, _⟩ := hc
      exact inBounds_of_at2_grid hr hg
    obtain ⟨st1, h1⟩ := relax_total hr hin d hs.shape
    unfold relaxAll
    simp only [h1]
    exact ih (relax_sound hs hc hcr (hds d (List.mem_cons_self _ _)) h1)
      (fun d2 hd2 => hds d2 (List.mem_cons_of_mem _ hd2))

/-! ## The search loop -/

/-- Proof rule of the search loop: `I` holds before every round, `Q` when the loop is
left, by the `break` or with an empty queue. -/
theorem searchLoop_rule (tie : Nat → Nat) (grid : List (List Int)) (rows columns : Int)
    (finish : Point) (I Q : State → Prop)
    (hstale : ∀ st item dc, I st → item ∈ st.pq → (∀ e ∈ st.pq, item.dist ≤ e.dist) →
      item.point ≠ finish → at2 st.dist item.point = some dc → item.dist > dc →
      I ⟨st.dist, st.parent, st.pq.erase item⟩)
    (hrelax : ∀ st item dc st2, I st → item ∈ st.pq → (∀ e ∈ st.pq, item.dist ≤ e.dist) →
      item.point ≠ finish → at2 st.dist item.point = some dc → ¬ item.dist > dc →
      relaxAll grid rows columns item.point ⟨st.dist, st.parent, st.pq.erase item⟩
        directions = some st2 → I st2)
    (hbreak : ∀ st item, I st → item ∈ st.pq → (∀ e ∈ st.pq, item.dist ≤ e.dist) →
      item.point = finish → Q ⟨st.dist, st.parent, st.pq.erase item⟩)
    (hempty : ∀ st, I st → st.pq = [] → Q st) (fuel : Nat) :
    ∀ (k : Nat) (st st2 : State), I st →
      searchLoop tie grid rows columns finish fuel k st = .ret st2 → Q st2 := by
  induction fuel with
  | zero => intro k st st2 _ h; simp [searchLoop] at h
  | succ fuel ih =>
    intro k st st2 hI h
    unfold searchLoop at h
    by_cases hlen : st.pq.length > 0
    · simp only [hlen, if_true] at h
      cases hpop : heapPop (tie k) st.pq with
      | none => simp [hpop] at h
      | some pr =>
        obtain ⟨item, rest⟩ := pr
        obtain ⟨hmem, hleast, rfl⟩ := heapPop_spec hpop
        simp only [hpop] at h
        by_cases hfin : item.point = finish
        · simp only [hfin, if_true, Outcome.ret.injEq] at h
          exact h ▸ hbreak st item hI hmem hleast hfin
        · simp only [hfin, if_false] at h
          cases hdc : at2 st.dist item.point with
          | none => simp [hdc] at h
          | some dc =>
            simp only [hdc] at h
            by_cases hst : item.dist > dc
            · simp only [hst, if_true] at h
              exact ih _ _ _ (hstale st item dc hI hmem hleast hfin hdc hst) h
            · simp only [hst, if_false] at h
              cases hrel : relaxAll grid rows columns item.point
                  ⟨st.dist, st.parent, st.pq.erase item⟩ directions with
              | none => simp [hrel] at h
              | some st3 =>
                simp only [hrel] at h
                exact ih _ _ _ (hrelax st item dc st3 hI hmem hleast hfin hdc hst hrel) h
    · simp only [hlen, if_false, Outcome.ret.injEq] at h
      exact h ▸ hempty st hI (List.length_eq_zero.mp (by omega))

theorem sound_erase {grid : List (List Int)} {start : Point} {st : State}
    (hs : Sound grid start st) (item : PqNode) :
    Sound grid start ⟨st.dist, st.parent, st.pq.erase item⟩ :=
  ⟨hs.shape, fun e he => hs.queue e (List.mem_of_mem_erase he), hs.reached, hs.parent⟩

/-- The state in which the loop is left is sound. -/
theorem searchLoop_sound (tie : Nat → Nat) (grid : List (List Int)) (rows columns : Int)
    (start finish : Point) (fuel k : Nat) (st st2 : State) (hs : Sound grid start st)
    (h : searchLoop tie grid rows columns finish fuel k st = .ret st2) :
    Sound grid start st2 := by
  refine searchLoop_rule tie grid rows columns finish (Sound grid start) (Sound grid start)
    ?_ ?_ ?_ ?_ fuel k st st2 hs h
  · intro st item dc hI _ _ _ _ _
    exact sound_erase hI item
  · intro st item dc st3 hI hmem _ _ _ _ hrel
    exact relaxAll_sound (hI.queue item hmem).1 (hI.queue item hmem).2 directions
      (sound_erase hI item) (fun d hd => hd) hrel
  · intro st item hI _ _ _
    exact sound_erase hI item
  · intro st hI _
    exact hI

/-- The search loop ends: with more fuel than the measure of the state it returns. -/
theorem searchLoop_terminates (tie : Nat → Nat) {grid : List (List Int)} (hr : Rect grid)
    (start finish : Point) (fuel : Nat) :
    ∀ (k : Nat) (st : State), Sound grid start st → measure st < fuel →
      ∃ st2, searchLoop tie grid grid.length (columnsOf grid) finish fuel k st = .ret st2 := by
  induction fuel with
  | zero => intro k st _ h; omega
  | succ fuel ih =>
    intro k st hs hm
    unfold searchLoop
    by_cases hlen : st.pq.length > 0
    · simp only [hlen, if_true]
      have hne : st.pq ≠ [] := by
        intro e; rw [e] at hlen; simp at hlen
      obtain ⟨item, rest, hpop⟩ := heapPop_of_ne_nil (tie k) hne
      obtain ⟨hmem, hleast, rfl⟩ := heapPop_spec hpop
      simp only [hpop]
      have hs1 := sound_erase hs item
      have hm1 : measure ⟨st.dist, st.parent, st.pq.erase item⟩ < fuel := by
        unfold measure at hm ⊢
        simp only [List.length_erase_of_mem hmem]
        omega
      by_cases hfin : item.point = finish
      · simp only [hfin, if_true]
        exact ⟨_, rfl⟩
      · simp only [hfin, if_false]
        obtain ⟨hpass, hreach⟩ := hs.queue item hmem
        have hin : InBounds grid item.point := by
          obtain ⟨g, hg, _⟩ := hpass
          exact inBounds_of_at2_grid hr hg
        obtain ⟨dc, hdc⟩ := Option.isSome_iff_exists.mp (hs.shape _ hin).1
        simp only [hdc]
        by_cases hst : item.dist > dc
        · simp only [hst, if_true]
          exact ih _ _ hs1 hm1
        · simp only [hst, if_false]
          obtain ⟨st3, hrel⟩ := relaxAll_total hr hpass hreach directions hs1 (fun d hd => hd)
          simp only [hrel]
          exact ih _ _ (relaxAll_sound hpass hreach directions hs1 (fun d hd => hd) hrel)
            (lt_of_le_of_lt (relaxAll_measure directions hrel) hm1)
    · simp only [hlen, if_false]
      exact ⟨_, rfl⟩

theorem sound_init {grid : List (List Int)} {start : Point} (hs : InBounds grid start)
    (hp : Passable grid start) {gs : Int} {st0 : State}
    (h : initState grid.length (columnsOf grid) start gs = some st0) :
    Sound grid start st0 := by
  obtain ⟨dist1, hin, hat⟩ := initState_spec hs gs
  rw [hin] at h
  obtain rfl := Option.some.inj h
  refine ⟨?_, ?_, ?_, ?_⟩
  · intro p hpb
    simp only [hat p, at2_replicate_grid, hpb, if_true]
    by_cases e : p = start <;> simp [e]
  · intro e he
    rw [List.mem_singleton] at he
    subst he
    exact ⟨hp, reach_self hp⟩
  · intro v d hv hne
    simp only [hat v] at hv
    by_cases e : v = start
    · rw [e]; exact reach_self hp
    · simp only [e, if_false] at hv
      split at hv
      · exact absurd (Option.some.inj hv).symm hne
      · exact absurd hv (by simp)
  · intro v u hv
    simp only [at2_replicate_grid] at hv
    split at hv <;> simp at hv

/-! ## The backward walk -/

/-- The slice that the backward walk returns: what was there before, then the cells
from `cur` to `start`, each one other than `start` and followed by its recorded
predecessor. -/
theorem walkBack_spec (parent : List (List (Option Point))) (start : Point) (fuel : Nat) :
    ∀ (cur : Point) (acc l : List Point), walkBack parent start fuel cur acc = .ret l →
      ∃ chain, l = acc ++ chain ∧ chain.head? = some cur ∧ chain.getLast? = some start ∧
        List.Chain' (fun a b => a ≠ start ∧ at2 parent a = some (some b)) chain := by
  induction fuel with
  | zero => intro cur acc l h; simp [walkBack] at h
  | succ fuel ih =>
    intro cur acc l h
    unfold walkBack at h
    simp only at h
    by_cases hc : cur = start
    · simp only [hc, if_true, Outcome.ret.injEq] at h
      exact ⟨[start], h.symm, by simp [hc], rfl, List.chain'_singleton _⟩
    · simp only [hc, if_false] at h
      cases hp : at2 parent cur with
      | none => simp [hp] at h
      | some o =>
        cases o with
        | none => simp [hp] at h
        | some q =>
          simp only [hp] at h
          obtain ⟨chain, hl, hhead, hlast, hchain⟩ := ih q (acc ++ [cur]) l h
          refine ⟨cur :: chain, by simp [hl], rfl, ?_, ?_⟩
          · cases chain with
            | nil => simp at hhead
            | cons a rest => simpa using hlast
          · rw [List.chain'_cons']
            refine ⟨?_, hchain⟩
            intro y hy
            rw [hhead] at hy
            simp only [Option.mem_def, Option.some.injEq] at hy
            exact ⟨hc, hy ▸ hp⟩

/-- A run that does not end in a validation error or a panic of the validation has
valid arguments. -/
theorem Dijkstra_valid_of_path {tie : Nat → Nat} {fuel : Nat} {grid : List (List Int)}
    {start finish : Point} {p : List Point}
    (h : Dijkstra tie fuel grid start finish = .path p) :
    InBounds grid start ∧ InBounds grid finish ∧
      ∃ gs ge, at2 grid start = some gs ∧ gs ≠ 0 ∧ at2 grid finish = some ge ∧ ge ≠ 0 := by
  cases grid with
  | nil => simp [Dijkstra] at h
  | cons row0 rest =>
    unfold Dijkstra at h
    simp only at h
    split at h
    · simp at h
    · rename_i hsb
      split at h
      · simp at h
      · rename_i hfb
        have hs : InBounds (row0 :: rest) start := by
          by_contra hc
          exact hsb ((not_inBounds_iff row0 rest start).mpr hc)
        have hf : InBounds (row0 :: rest) finish := by
          by_contra hc
          exact hfb ((not_inBounds_iff row0 rest finish).mpr hc)
        cases hgs : at2 (row0 :: rest) start with
        | none => simp [hgs] at h
        | some gs =>
          simp only [hgs] at h
          split at h
          · simp at h
          · rename_i hs0
            cases hge : at2 (row0 :: rest) finish with
            | none => simp [hge] at h
            | some ge =>
              simp only [hge] at h
              split at h
              · simp at h
              · rename_i hf0
                exact ⟨hs, hf, gs, ge, rfl, hs0, rfl, hf0⟩

theorem search_eq_path {tie : Nat → Nat} {fuel : Nat} {grid : List (List Int)}
    {rows columns : Nat} {start finish : Point} {gs : Int} {p : List Point}
    (h : search tie fuel grid rows columns start finish gs = .path p) :
    ∃ st0 st de l, initState rows columns start gs = some st0 ∧
      searchLoop tie grid rows columns finish fuel 0 st0 = .ret st ∧
      at2 st.dist finish = some de ∧ de ≠ inf ∧
      walkBack st.parent start fuel finish [] = .ret l ∧ p = l.reverse := by
  unfold search at h
  cases hin : initState rows columns start gs with
  | none => simp [hin] at h
  | some st0 =>
    simp only [hin] at h
    cases hloop : searchLoop tie grid rows columns finish fuel 0 st0 with
    | panic => simp [hloop] at h
    | outOfFuel => simp [hloop] at h
    | ret st =>
      simp only [hloop] at h
      unfold reconstruct at h
      cases hde : at2 st.dist finish with
      | none => simp [hde] at h
      | some de =>
        simp only [hde] at h
        split at h
        · simp at h
        · rename_i hinf
          cases hwb : walkBack st.parent start fuel finish [] with
          | panic => simp [hwb] at h
          | outOfFuel => simp [hwb] at h
          | ret l =>
            simp only [hwb, Result.path.injEq, reversePath_eq] at h
            exact ⟨st0, st, de, l, rfl, hloop, hde, hinf, hwb, h.symm⟩

/-- What a run that returns a path has gone through. -/
theorem Dijkstra_eq_path {tie : Nat → Nat} {fuel : Nat} {grid : List (List Int)}
    {start finish : Point} {p : List Point}
    (h : Dijkstra tie fuel grid start finish = .path p) :
    InBounds grid start ∧ InBounds grid finish ∧ Passable grid start ∧ Passable grid finish ∧
    ∃ gs st0 st de l, at2 grid start = some gs ∧
      initState grid.length (columnsOf grid) start gs = some st0 ∧
      searchLoop tie grid grid.length (columnsOf grid) finish fuel 0 st0 = .ret st ∧
      at2 st.dist finish = some de ∧ de ≠ inf ∧
      walkBack st.parent start fuel finish [] = .ret l ∧ p = l.reverse := by
  obtain ⟨hs, hf, gs, ge, hgs, hs0, hge, hf0⟩ := Dijkstra_valid_of_path h
  rw [Dijkstra_of_valid tie fuel hs hf hgs hs0 hge hf0] at h
  obtain ⟨st0, st, de, l, h1, h2, h3, h4, h5, h6⟩ := search_eq_path h
  exact ⟨hs, hf, ⟨gs, hgs, hs0⟩, ⟨ge, hge, hf0⟩, gs, st0, st, de, l, hgs, h1, h2, h3, h4,
    h5, h6⟩

/-! ## Shape of the returned path -/

theorem chain_mem_cases {R : Point → Point → Prop} (l : List Point) (h : List.Chain' R l)
    (x : Point) (hx : x ∈ l) : l.head? = some x ∨ ∃ a ∈ l, R a x := by
  induction l with
  | nil => simp at hx
  | cons a l ih =>
    rcases List.mem_cons.mp hx with rfl | hx
    · left; rfl
    · right
      rw [List.chain'_cons'] at h
      rcases ih h.2 hx with hh | ⟨b, hb, hr⟩
      · exact ⟨a, List.mem_cons_self _ _, h.1 x hh⟩
      · exact ⟨b, List.mem_cons_of_mem _ hb, hr⟩

/-- The state in which the loop of a run on valid arguments is left is sound. -/
theorem sound_final {tie : Nat → Nat} {fuel : Nat} {grid : List (List Int)}
    {start finish : Point} {gs : Int} {st0 st : State} (hs : InBounds grid start)
    (hp : Passable grid start)
    (hin : initState grid.length (columnsOf grid) start gs = some st0)
    (hloop : searchLoop tie grid grid.length (columnsOf grid) finish fuel 0 st0 = .ret st) :
    Sound grid start st :=
  searchLoop_sound tie grid _ _ start finish fuel 0 st0 st (sound_init hs hp hin) hloop

/-- Every path that `Dijkstra` returns is a walk from `start` to `finish`. -/
theorem path_isWalk {tie : Nat → Nat} {fuel : Nat} {grid : List (List Int)}
    {start finish : Point} {p : List Point}
    (h : Dijkstra tie fuel grid start finish = .path p) : IsWalk grid start finish p := by
  obtain ⟨hs, _, hp, hpf, gs, st0, st, de, l, _, hin, hloop, _, _, hwb, rfl⟩ :=
    Dijkstra_eq_path h
  have hsound := sound_final hs hp hin hloop
  obtain ⟨chain, hl, hhead, hlast, hchain⟩ := walkBack_spec _ _ _ _ _ _ hwb
  simp only [List.nil_append] at hl
  subst hl
  refine ⟨?_, ?_, ?_, ?_⟩
  · rw [List.head?_reverse]; exact hlast
  · rw [List.getLast?_reverse]; exact hhead
  · rw [List.chain'_reverse]
    exact hchain.imp fun a b hab => (hsound.parent a b hab.2).1
  · intro c hc
    rw [List.mem_reverse] at hc
    rcases chain_mem_cases l hchain c hc with hh | ⟨a, _, hac⟩
    · rw [hhead] at hh
      exact Option.some.inj hh ▸ hpf
    · exact (hsound.parent a c hac.2).2.1

/-- C4. Every path that `Dijkstra` returns is non-empty, its first cell is `start` and
its last cell is `finish`. -/
theorem C4_path_endpoints (tie : Nat → Nat) (fuel : Nat) (grid : List (List Int))
    (start finish : Point) (p : List Point)
    (h : Dijkstra tie fuel grid start finish = .path p) :
    p ≠ [] ∧ p.head? = some start ∧ p.getLast? = some finish := by
  obtain ⟨h1, h2, _, _⟩ := path_isWalk h
  refine ⟨?_, h1, h2⟩
  intro e
  rw [e] at h1
  simp at h1

/-- Witness of C4 on the grid of the scenario of the specification. -/
theorem C4_path_endpoints_witness :
    ([⟨0, 0⟩, ⟨0, 1⟩, ⟨0, 2⟩, ⟨1, 2⟩, ⟨2, 2⟩, ⟨2, 1⟩, ⟨2, 0⟩] : List Point) ≠ [] ∧
    ([⟨0, 0⟩, ⟨0, 1⟩, ⟨0, 2⟩, ⟨1, 2⟩, ⟨2, 2⟩, ⟨2, 1⟩, ⟨2, 0⟩] : List Point).head? =
      some ⟨0, 0⟩ ∧
    ([⟨0, 0⟩, ⟨0, 1⟩, ⟨0, 2⟩, ⟨1, 2⟩, ⟨2, 2⟩, ⟨2, 1⟩, ⟨2, 0⟩] : List Point).getLast? =
      some ⟨2, 0⟩ :=
  C4_path_endpoints (fun _ => 0) 7 [[1, 1, 1], [0, 0, 1], [1, 1, 1]] ⟨0, 0⟩ ⟨2, 0⟩ _ (by decide)

/-- C5. In every path that `Dijkstra` returns, each two consecutive cells differ by
exactly 1 in exactly one of the two coordinates and are equal in the other. -/
theorem C5_path_contiguous (tie : Nat → Nat) (fuel : Nat) (grid : List (List Int))
    (start finish : Point) (p : List Point)
    (h : Dijkstra tie fuel grid start finish = .path p) :
    List.Chain' Adjacent p :=
  (path_isWalk h).2.2.1

/-- Witness of C5 on the grid of the scenario of the specification. -/
theorem C5_path_contiguous_witness :
    List.Chain' Adjacent [⟨0, 0⟩, ⟨0, 1⟩, ⟨0, 2⟩, ⟨1, 2⟩, ⟨2, 2⟩, ⟨2, 1⟩, ⟨2, 0⟩] :=
  C5_path_contiguous (fun _ => 0) 7 [[1, 1, 1], [0, 0, 1], [1, 1, 1]] ⟨0, 0⟩ ⟨2, 0⟩ _
    (by decide)

/-- C6. On a non-empty rectangular grid, every cell of every path that `Dijkstra`
returns lies inside the grid and has a nonzero grid value. -/
theorem C6_path_passable (tie : Nat → Nat) (fuel : Nat) (grid : List (List Int))
    (start finish : Point) (p : List Point) (hr : Rect grid)
    (h : Dijkstra tie fuel grid start finish = .path p) :
    ∀ c ∈ p, InBounds grid c ∧ ∃ g, at2 grid c = some g ∧ g ≠ 0 := by
  intro c hc
  obtain ⟨g, hg, hg0⟩ := (path_isWalk h).2.2.2 c hc
  exact ⟨inBounds_of_at2_grid hr hg, g, hg, hg0⟩

/-- Witness of C6: the cell `(1,2)` of the path of the scenario of the specification. -/
theorem C6_path_passable_witness :
    InBounds [[1, 1, 1], [0, 0, 1], [1, 1, 1]] ⟨1, 2⟩ ∧
      ∃ g : Int, at2 [[1, 1, 1], [0, 0, 1], [1, 1, 1]] ⟨1, 2⟩ = some g ∧ g ≠ 0 :=
  C6_path_passable (fun _ => 0) 7 [[1, 1, 1], [0, 0, 1], [1, 1, 1]] ⟨0, 0⟩ ⟨2, 0⟩
    [⟨0, 0⟩, ⟨0, 1⟩, ⟨0, 2⟩, ⟨1, 2⟩, ⟨2, 2⟩, ⟨2, 1⟩, ⟨2, 0⟩] (by decide) (by decide)
    ⟨1, 2⟩ (by decide)

/-! ## No walk to the finish -/

/-- C7. On a non-empty rectangular grid with in-bounds nonzero `start` and `finish`, if
no walk leads from `start` to `finish`, then for every tie-breaking order and every
sufficient amount of fuel `Dijkstra` returns the error "нет пути до финиша" (and no
path); that error is none of the four validation errors. -/
theorem C7_not_found (grid : List (List Int)) (start finish : Point) (hr : Rect grid)
    (hs : InBounds grid start) (hf : InBounds grid finish) (hps : Passable grid start)
    (hpf : Passable grid finish) (hno : ¬ Reach grid start finish) :
    (∃ n, ∀ (tie : Nat → Nat) (fuel : Nat), n ≤ fuel →
      Dijkstra tie fuel grid start finish = .error errNoPath) ∧
    ∀ msg ∈ [errStartOutside, errEndOutside, errStartWall, errEndWall], errNoPath ≠ msg := by
  refine ⟨?_, by decide⟩
  obtain ⟨gs, hgs, hs0⟩ := hps
  obtain ⟨ge, hge, hf0⟩ := hpf
  obtain ⟨dist1, hin, _⟩ := initState_spec hs gs
  have hsound0 := sound_init hs ⟨gs, hgs, hs0⟩ hin
  refine ⟨measure ⟨dist1, List.replicate grid.length (List.replicate (columnsOf grid) none),
    [⟨start, gs⟩]⟩ + 1, ?_⟩
  intro tie fuel hfuel
  rw [Dijkstra_of_valid tie fuel hs hf hgs hs0 hge hf0]
  obtain ⟨st, hloop⟩ := searchLoop_terminates tie hr start finish fuel 0 _ hsound0
    (by omega)
  have hsound := searchLoop_sound tie grid _ _ start finish fuel 0 _ st hsound0 hloop
  unfold search
  simp only [hin, hloop]
  unfold reconstruct
  obtain ⟨de, hde⟩ := Option.isSome_iff_exists.mp (hsound.shape finish hf).1
  simp only [hde]
  have : de = inf := by
    by_contra hne
    exact hno (hsound.reached finish de hde hne)
  simp [this]

/-- Nothing but the start cell is reached on the grid `[[1, 0, 1]]` from `(0,0)`. -/
theorem no_walk_across_wall : ¬ Reach [[1, 0, 1]] ⟨0, 0⟩ ⟨0, 2⟩ := by
  rintro ⟨w, h1, h2, h3, h4⟩
  cases w with
  | nil => simp at h1
  | cons a w =>
    simp only [List.head?_cons, Option.some.injEq] at h1
    subst h1
    cases w with
    | nil => simp at h2
    | cons b w =>
      have hadj : Adjacent ⟨0, 0⟩ b := (List.chain'_cons.mp h3).1
      have hb : Passable [[1, 0, 1]] b := h4 b (by simp)
      obtain ⟨bx, by_⟩ := b
      unfold Adjacent at hadj
      simp only at hadj
      have hcases : (bx = 0 ∧ by_ = 1) ∨ (bx = 0 ∧ by_ = -1) ∨ (bx = 1 ∧ by_ = 0) ∨
          (bx = -1 ∧ by_ = 0) := by omega
      rcases hcases with ⟨rfl, rfl⟩ | ⟨rfl, rfl⟩ | ⟨rfl, rfl⟩ | ⟨rfl, rfl⟩ <;>
        exact absurd hb (by decide)

/-- Witness of C7: the grid `[[1, 0, 1]]`, whose two nonzero cells are separated by a
wall. -/
theorem C7_not_found_witness :
    (∃ n, ∀ (tie : Nat → Nat) (fuel : Nat), n ≤ fuel →
      Dijkstra tie fuel [[1, 0, 1]] ⟨0, 0⟩ ⟨0, 2⟩ = .error errNoPath) ∧
    ∀ msg ∈ [errStartOutside, errEndOutside, errStartWall, errEndWall], errNoPath ≠ msg :=
  C7_not_found [[1, 0, 1]] ⟨0, 0⟩ ⟨0, 2⟩ (by decide) (by decide) (by decide) (by decide)
    (by decide) no_walk_across_wall

/-! ## Costs -/

theorem cost_cons (grid : List (List Int)) (p : Point) (w : List Point) :
    cost grid (p :: w) = val grid p + cost grid w := by
  simp [cost, val]

theorem val_of_at2 {grid : List (List Int)} {p : Point} {g : Int} (h : at2 grid p = some g) :
    val grid p = g := by
  simp [val, h]

theorem val_nonneg {grid : List (List Int)} (hn : NonNeg grid) (p : Point) :
    0 ≤ val grid p := by
  unfold val
  cases h : at2 grid p with
  | none => simp
  | some g => simpa using nonneg_of_at2_grid hn h

theorem cost_nonneg {grid : List (List Int)} (hn : NonNeg grid) (w : List Point) :
    0 ≤ cost grid w := by
  induction w with
  | nil => simp [cost]
  | cons p w ih =>
    rw [cost_cons]
    have := val_nonneg hn p
    omega

theorem cost_reverse (grid : List (List Int)) (w : List Point) :
    cost grid w.reverse = cost grid w := by
  unfold cost
  rw [List.map_reverse, List.sum_reverse]

theorem fits_of_at2 {grid : List (List Int)} {start : Point} (hfit : Fits grid start)
    {p : Point} {g : Int} (h : at2 grid p = some g) :
    max (val grid start) (inf - 1) + g < 9223372036854775808 := by
  unfold at2 at h
  cases h1 : index grid p.x with
  | none => simp [h1] at h
  | some row =>
    simp only [h1, Option.some_bind] at h
    exact hfit row (List.getElem?_mem (index_eq_some.mp h1).2) g
      (List.getElem?_mem (index_eq_some.mp h).2)

theorem direction_of_adjacent {u v : Point} (h : Adjacent u v) :
    ∃ d ∈ directions, v = ⟨u.x + d.x, u.y + d.y⟩ := by
  obtain ⟨ux, uy⟩ := u
  obtain ⟨vx, vy⟩ := v
  unfold Adjacent at h
  simp only at h
  unfold directions
  rcases h with ⟨h1, h2 | h2⟩ | ⟨h1, h2 | h2⟩
  · exact ⟨⟨0, 1⟩, by simp, by simp only [Point.mk.injEq]; omega⟩
  · exact ⟨⟨0, -1⟩, by simp, by simp only [Point.mk.injEq]; omega⟩
  · exact ⟨⟨1, 0⟩, by simp, by simp only [Point.mk.injEq]; omega⟩
  · exact ⟨⟨-1, 0⟩, by simp, by simp only [Point.mk.injEq]; omega⟩

/-! ## The invariant of the search without overflow -/

/-- Along a walk that starts in `D`, either the walk ends in `D` at a distance no more
than its cost, or the least entry of the queue costs no more than the walk. -/
theorem least_le_cost_aux {grid : List (List Int)} {start : Point} {gs : Int}
    {D : Point → Prop} {st : State} {c : Point} (hr : Rect grid) (hn : NonNeg grid)
    (hc : Core grid start gs D st) (he : Edges grid D c [] st) {m : Int}
    (hm : ∀ e ∈ st.pq, m ≤ e.dist) (hminf : (∃ u, D u) → m ≤ inf) :
    ∀ (w : List Point) (a : Point) (acc da : Int), w.head? = some a →
      List.Chain' Adjacent w → (∀ p ∈ w, Passable grid p) → D a →
      at2 st.dist a = some da → da ≤ acc + val grid a →
      ∀ v, w.getLast? = some v →
        (D v ∧ ∃ dv, at2 st.dist v = some dv ∧ dv ≤ acc + cost grid w) ∨
          m ≤ acc + cost grid w := by
  intro w
  induction w with
  | nil => intro a acc da h; simp at h
  | cons x w ih =>
    intro a acc da hhead hchain hpass hDa hda hle v hlast
    simp only [List.head?_cons, Option.some.injEq] at hhead
    subst hhead
    cases w with
    | nil =>
      simp only [List.getLast?_singleton, Option.some.injEq] at hlast
      subst hlast
      left
      exact ⟨hDa, da, hda, by rw [cost_cons]; simp only [cost, List.map_nil, List.sum_nil]; omega⟩
    | cons b rest =>
      rw [List.chain'_cons] at hchain
      obtain ⟨hadj, hchain2⟩ := hchain
      obtain ⟨d, hd, hbd⟩ := direction_of_adjacent hadj
      obtain ⟨g, hg, hg0⟩ := hpass b (by simp)
      have hgval : val grid b = g := val_of_at2 hg
      obtain ⟨db, hdb, hdble⟩ := he x da hDa hda d hd (fun _ => List.not_mem_nil _) g
        (hbd ▸ hg) hg0
      rw [← hbd] at hdb
      have hcost : cost grid (x :: b :: rest) = val grid x + (val grid b + cost grid rest) := by
        rw [cost_cons, cost_cons]
      have hrest := cost_nonneg hn rest
      by_cases hDb : D b
      · have := ih b (acc + val grid x) db rfl hchain2
          (fun p hp => hpass p (List.mem_cons_of_mem _ hp)) hDb hdb (by omega) v
          (by simpa using hlast)
        rw [cost_cons] at this
        rw [hcost]
        rcases this with ⟨h1, dv, h2, h3⟩ | h1
        · left; exact ⟨h1, dv, h2, by omega⟩
        · right; omega
      · right
        rw [hcost]
        have hmb : m ≤ db := by
          by_cases hreach : b = start ∨ db ≠ inf
          · exact hm _ (hc.qhas b db (inBounds_of_at2_grid hr hg) hDb hdb hreach)
          · have : db = inf := by
              by_contra hne
              exact hreach (Or.inr hne)
            rw [this]
            exact hminf ⟨x, hDa⟩
        omega

/-- The least entry of the queue costs no more than any walk from `start` that does not
end in `D` at a distance within its cost. -/
theorem least_le_cost {grid : List (List Int)} {start : Point} {gs : Int}
    {D : Point → Prop} {st : State} {c : Point} (hr : Rect grid) (hn : NonNeg grid)
    (hgs : at2 grid start = some gs)
    (hc : Core grid start gs D st) (he : Edges grid D c [] st) {item : PqNode}
    (hmem : item ∈ st.pq) (hleast : ∀ e ∈ st.pq, item.dist ≤ e.dist)
    (v : Point) (w : List Point) (hw : IsWalk grid start v w) :
    (D v ∧ ∃ dv, at2 st.dist v = some dv ∧ dv ≤ cost grid w) ∨ item.dist ≤ cost grid w := by
  obtain ⟨h1, h2, h3, h4⟩ := hw
  have hminf : (∃ u, D u) → item.dist ≤ inf := by
    rintro ⟨u, hu⟩
    rcases hc.qinf with ⟨_, hno⟩ | hlt
    · exact absurd hu (hno u)
    · exact le_of_lt (hlt item hmem)
  by_cases hDs : D start
  · have := least_le_cost_aux hr hn hc he hleast hminf w start 0 gs h1 h3 h4 hDs hc.dstart
      (by rw [val_of_at2 hgs]; omega) v h2
    simpa using this
  · right
    have hin := hc.qhas start gs (inBounds_of_at2_grid hr hgs) hDs hc.dstart (Or.inl rfl)
    have hle := hleast _ hin
    simp only at hle
    cases w with
    | nil => simp at h1
    | cons a rest =>
      simp only [List.head?_cons, Option.some.injEq] at h1
      subst h1
      rw [cost_cons, val_of_at2 hgs]
      have := cost_nonneg hn rest
      omega

theorem core_pop_stale {grid : List (List Int)} {start : Point} {gs : Int}
    {D : Point → Prop} {st : State} (hc : Core grid start gs D st) {item : PqNode}
    (hmem : item ∈ st.pq) {dc : Int} (hdc : at2 st.dist item.point = some dc)
    (hst : item.dist > dc) :
    Core grid start gs D ⟨st.dist, st.parent, st.pq.erase item⟩ := by
  refine ⟨sound_erase hc.sound item, hc.dstart, hc.dbound, hc.par, hc.dmem, ?_, ?_, ?_, ?_⟩
  · intro e he
    exact hc.qkey e (List.mem_of_mem_erase he)
  · intro u du hu hdu e he
    exact hc.qmono u du hu hdu e (List.mem_of_mem_erase he)
  · right
    intro e he
    rcases hc.qinf with ⟨hpq, _⟩ | hlt
    · simp only at he
      rw [hpq] at he hmem
      rw [List.mem_singleton] at hmem
      subst hmem
      simp at he
    · exact hlt e (List.mem_of_mem_erase he)
  · intro v dv hv hD hdv hreach
    have hmem2 := hc.qhas v dv hv hD hdv hreach
    refine (List.mem_erase_of_ne ?_).mpr hmem2
    intro heq
    rw [← heq] at hdc hst
    simp only at hdc hst
    rw [hdv] at hdc
    have := Option.some.inj hdc
    omega

theorem core_pop_fresh {grid : List (List Int)} {start : Point} {gs : Int}
    {D : Point → Prop} {st : State} {c : Point} (hr : Rect grid) (hn : NonNeg grid)
    (hgs : at2 grid start = some gs)
    (hc : Core grid start gs D st) (he : Edges grid D c [] st) {item : PqNode}
    (hmem : item ∈ st.pq) (hleast : ∀ e ∈ st.pq, item.dist ≤ e.dist) {dc : Int}
    (hdc : at2 st.dist item.point = some dc) (hst : ¬ item.dist > dc) :
    Relaxing grid start gs (fun p => D p ∨ p = item.point) item.point directions
      ⟨st.dist, st.parent, st.pq.erase item⟩ := by
  have hkey : item.dist = dc := by
    obtain ⟨de, hde, hle⟩ := hc.qkey item hmem
    rw [hdc] at hde
    have := Option.some.inj hde
    omega
  have hfin : item.point = start ∨ dc < inf := by
    rcases hc.qinf with ⟨hpq, _⟩ | hlt
    · rw [hpq, List.mem_singleton] at hmem
      left; rw [hmem]
    · right; rw [← hkey]; exact hlt item hmem
  refine ⟨⟨sound_erase hc.sound item, hc.dstart, hc.dbound, ?_, ?_, ?_, ?_, ?_, ?_⟩, ?_,
    Or.inr rfl, dc, hdc, ?_⟩
  · intro v d hv hne hinf
    obtain ⟨u, du, h1, h2, h3, h4⟩ := hc.par v d hv hne hinf
    exact ⟨u, du, h1, Or.inl h2, h3, h4⟩
  · rintro u (hu | rfl)
    · exact hc.dmem u hu
    · refine ⟨(hc.sound.queue item hmem).1, dc, hdc, hfin, ?_⟩
      intro w hw
      rcases least_le_cost hr hn hgs hc he hmem hleast _ w hw with ⟨_, dv, h1, h2⟩ | h
      · rw [hdc] at h1
        have := Option.some.inj h1
        omega
      · omega
  · intro e hmem2
    exact hc.qkey e (List.mem_of_mem_erase hmem2)
  · rintro u du (hu | rfl) hdu e hmem2
    · exact hc.qmono u du hu hdu e (List.mem_of_mem_erase hmem2)
    · simp only at hdu
      rw [hdc] at hdu
      have := Option.some.inj hdu
      have := hleast e (List.mem_of_mem_erase hmem2)
      omega
  · right
    intro e hmem2
    rcases hc.qinf with ⟨hpq, _⟩ | hlt
    · simp only at hmem2
      rw [hpq] at hmem2 hmem
      rw [List.mem_singleton] at hmem
      subst hmem
      simp at hmem2
    · exact hlt e (List.mem_of_mem_erase hmem2)
  · intro v dv hv hD hdv hreach
    have hmem2 := hc.qhas v dv hv (fun h => hD (Or.inl h)) hdv hreach
    refine (List.mem_erase_of_ne ?_).mpr hmem2
    intro heq
    exact hD (Or.inr (by rw [← heq]))
  · intro u du hu hdu d hd hcond g hg hg0
    by_cases hcur : u = item.point
    · exact absurd hd (hcond hcur)
    · rcases hu with hu | hu
      · exact he u du hu hdu d hd (fun _ => List.not_mem_nil _) g hg hg0
      · exact absurd hu hcur
  · rintro u du (hu | rfl) hdu
    · have := hc.qmono u du hu hdu item hmem
      omega
    · simp only at hdu
      rw [hdc] at hdu
      have := Option.some.inj hdu
      omega

theorem wrapInt_fits {grid : List (List Int)} {start : Point} {dc g : Int}
    (h0 : 0 ≤ dc) (hdc : dc ≤ val grid start ∨ dc < inf) (hg : 0 ≤ g)
    (hfit : max (val grid start) (inf - 1) + g < 9223372036854775808) :
    wrapInt (dc + g) = dc + g := by
  have hinf : inf = 1048576 := rfl
  apply wrapInt_of_range
  · omega
  · rcases hdc with h | h
    · have := le_max_left (val grid start) (inf - 1)
      omega
    · have := le_max_right (val grid start) (inf - 1)
      omega

theorem edges_tail {grid : List (List Int)} {D : Point → Prop} {cur d : Point}
    {todo : List Point} {st : State} (he : Edges grid D cur (d :: todo) st)
    (hnew : ∀ du g, at2 st.dist cur = some du → at2 grid ⟨cur.x + d.x, cur.y + d.y⟩ = some g →
      g ≠ 0 → ∃ dv, at2 st.dist ⟨cur.x + d.x, cur.y + d.y⟩ = some dv ∧ dv ≤ du + g) :
    Edges grid D cur todo st := by
  intro u du hu hdu d2 hd2 hcond g hg hg0
  by_cases hsame : u = cur ∧ d2 = d
  · obtain ⟨rfl, rfl⟩ := hsame
    exact hnew du g hdu hg hg0
  · refine he u du hu hdu d2 hd2 ?_ g hg hg0
    intro hucur hmem
    rcases List.mem_cons.mp hmem with h | h
    · exact hsame ⟨hucur, h⟩
    · exact hcond hucur h

/-- One round of the loop over `directions` keeps the invariant. -/
theorem relaxing_step {grid : List (List Int)} {start : Point} {gs : Int}
    {D : Point → Prop} {cur d : Point} {todo : List Point} {st st2 : State}
    (hr : Rect grid) (hn : NonNeg grid) (hfit : Fits grid start)
    (hgs : at2 grid start = some gs)
    (hR : Relaxing grid start gs D cur (d :: todo) st) (hd : d ∈ directions)
    (h : relax grid grid.length (columnsOf grid) cur st d = some st2) :
    Relaxing grid start gs D cur todo st2 := by
  obtain ⟨hc, he, hDcur, dc, hdc, hmono⟩ := hR
  obtain ⟨hcpass, dc2, hdc2, hcfin, _⟩ := hc.dmem cur hDcur
  rw [hdc] at hdc2
  obtain rfl := Option.some.inj hdc2
  have hdc0 : 0 ≤ dc := (hc.dbound cur dc hdc).1
  have hvs : val grid start = gs := val_of_at2 hgs
  have hdcle : dc ≤ val grid start ∨ dc < inf := by
    rcases hcfin with rfl | hlt
    · left
      rw [hc.dstart] at hdc
      have := Option.some.inj hdc
      omega
    · exact Or.inr hlt
  have hwrap : ∀ g, at2 grid ⟨cur.x + d.x, cur.y + d.y⟩ = some g →
      wrapInt (dc + g) = dc + g := fun g hg =>
    wrapInt_fits hdc0 hdcle (nonneg_of_at2_grid hn hg) (fits_of_at2 hfit hg)
  rcases relax_cases h with ⟨rfl, hskip⟩ | ⟨g, dc3, dn, rfl, hg, hg0, hdc3, hdn, hnlt⟩ |
    ⟨g, dc3, dn, dist2, parent2, hg, hg0, hdc3, hdn, hlt, hd2, hp2, rfl⟩
  · refine ⟨hc, edges_tail he ?_, hDcur, dc, hdc, hmono⟩
    intro du g hdu hg hg0
    exfalso
    rcases hskip with hoob | hzero
    · have hin := inBounds_of_at2_grid hr hg
      unfold InBounds at hin
      simp only at hin
      omega
    · rw [hg] at hzero
      exact hg0 (Option.some.inj hzero)
  · refine ⟨hc, edges_tail he ?_, hDcur, dc, hdc, hmono⟩
    intro du g2 hdu hg2 _
    rw [hg] at hg2
    obtain rfl := Option.some.inj hg2
    rw [hdc] at hdu hdc3
    obtain rfl := Option.some.inj hdu
    obtain rfl := Option.some.inj hdc3
    rw [hwrap g hg] at hnlt
    exact ⟨dn, hdn, by omega⟩
  · rw [hdc] at hdc3
    obtain rfl := Option.some.inj hdc3
    rw [hwrap g hg] at hlt hd2 ⊢
    have hg1 : 0 ≤ g := nonneg_of_at2_grid hn hg
    have hvne : (⟨cur.x + d.x, cur.y + d.y⟩ : Point) ≠ start := by
      intro e
      rw [e] at hdn hg
      rw [hc.dstart] at hdn
      rw [hgs] at hg
      have := Option.some.inj hdn
      have := Option.some.inj hg
      omega
    have hvD : ¬ D ⟨cur.x + d.x, cur.y + d.y⟩ := by
      intro hD
      have := hmono _ dn hD hdn
      omega
    have hdninf : dn ≤ inf := (hc.dbound _ dn hdn).2 hvne
    have hcv : cur ≠ ⟨cur.x + d.x, cur.y + d.y⟩ := fun e => hvD (e ▸ hDcur)
    have hDne : ∀ u, D u → u ≠ ⟨cur.x + d.x, cur.y + d.y⟩ := fun u hu e => hvD (e ▸ hu)
    have hatv : at2 dist2 ⟨cur.x + d.x, cur.y + d.y⟩ = some (dc + g) := by
      rw [at2_store2 hd2]; simp
    have hatne : ∀ q, q ≠ (⟨cur.x + d.x, cur.y + d.y⟩ : Point) → at2 dist2 q = at2 st.dist q := by
      intro q hq; rw [at2_store2 hd2, if_neg hq]
    have hpatv : at2 parent2 ⟨cur.x + d.x, cur.y + d.y⟩ = some (some cur) := by
      rw [at2_store2 hp2]; simp
    have hpatne : ∀ q, q ≠ (⟨cur.x + d.x, cur.y + d.y⟩ : Point) →
        at2 parent2 q = at2 st.parent q := by
      intro q hq; rw [at2_store2 hp2, if_neg hq]
    have hcreach : Reach grid start cur := by
      rcases hcfin with rfl | hltc
      · exact reach_self hcpass
      · exact hc.sound.reached cur dc hdc (by omega)
    have hsound := relax_sound hc.sound hcpass hcreach hd h
    rw [hwrap g hg] at hsound
    have hqlt : ∀ e ∈ st.pq, e.dist < inf := by
      rcases hc.qinf with ⟨_, hno⟩ | hq
      · exact absurd hDcur (hno cur)
      · exact hq
    refine ⟨⟨hsound, ?_, ?_, ?_, ?_, ?_, ?_, ?_, ?_⟩, ?_, hDcur, dc, ?_, ?_⟩
    · show at2 dist2 start = some gs
      rw [hatne start (Ne.symm hvne)]
      exact hc.dstart
    · intro q dq hq
      change at2 dist2 q = some dq at hq
      by_cases e : q = ⟨cur.x + d.x, cur.y + d.y⟩
      · subst e
        rw [hatv] at hq
        obtain rfl := Option.some.inj hq
        exact ⟨by omega, fun _ => by omega⟩
      · rw [hatne q e] at hq
        exact hc.dbound q dq hq
    · intro q dq hq hqs hqinf
      change at2 dist2 q = some dq at hq
      show ∃ u du, at2 parent2 q = some (some u) ∧ D u ∧ at2 dist2 u = some du ∧ _
      by_cases e : q = ⟨cur.x + d.x, cur.y + d.y⟩
      · subst e
        rw [hatv] at hq
        obtain rfl := Option.some.inj hq
        exact ⟨cur, dc, hpatv, hDcur, by rw [hatne cur hcv]; exact hdc,
          by rw [val_of_at2 hg]⟩
      · rw [hatne q e] at hq
        obtain ⟨u, du, h1, h2, h3, h4⟩ := hc.par q dq hq hqs hqinf
        exact ⟨u, du, by rw [hpatne q e]; exact h1, h2,
          by rw [hatne u (hDne u h2)]; exact h3, h4⟩
    · intro u hu
      obtain ⟨h1, du, h2, h3, h4⟩ := hc.dmem u hu
      exact ⟨h1, du, by show at2 dist2 u = some du; rw [hatne u (hDne u hu)]; exact h2, h3, h4⟩
    · intro e hmem
      change e ∈ st.pq ++ _ at hmem
      show ∃ de, at2 dist2 e.point = some de ∧ _
      rcases List.mem_append.mp hmem with hmem | hmem
      · obtain ⟨de, hde, hle⟩ := hc.qkey e hmem
        by_cases hev : e.point = ⟨cur.x + d.x, cur.y + d.y⟩
        · rw [hev] at hde ⊢
          rw [hdn] at hde
          have := Option.some.inj hde
          exact ⟨dc + g, hatv, by omega⟩
        · exact ⟨de, by rw [hatne _ hev]; exact hde, hle⟩
      · rw [List.mem_singleton] at hmem
        subst hmem
        exact ⟨dc + g, hatv, le_refl _⟩
    · intro u du hu hdu e hmem
      change at2 dist2 u = some du at hdu
      change e ∈ st.pq ++ _ at hmem
      rw [hatne u (hDne u hu)] at hdu
      rcases List.mem_append.mp hmem with hmem | hmem
      · exact hc.qmono u du hu hdu e hmem
      · rw [List.mem_singleton] at hmem
        subst hmem
        have := hmono u du hu hdu
        show du ≤ dc + g
        omega
    · right
      intro e hmem
      change e ∈ st.pq ++ _ at hmem
      rcases List.mem_append.mp hmem with hmem | hmem
      · exact hqlt e hmem
      · rw [List.mem_singleton] at hmem
        subst hmem
        show dc + g < inf
        omega
    · intro q dq hq hDq hdq hreach
      change at2 dist2 q = some dq at hdq
      show (⟨q, dq⟩ : PqNode) ∈ st.pq ++ _
      by_cases e : q = ⟨cur.x + d.x, cur.y + d.y⟩
      · subst e
        rw [hatv] at hdq
        obtain rfl := Option.some.inj hdq
        exact List.mem_append_right _ (List.mem_singleton.mpr rfl)
      · rw [hatne q e] at hdq
        exact List.mem_append_left _ (hc.qhas q dq hq hDq hdq hreach)
    · intro u du hu hdu d2 hd2 hcond g2 hg2 hg20
      change at2 dist2 u = some du at hdu
      show ∃ dv, at2 dist2 _ = some dv ∧ _
      rw [hatne u (hDne u hu)] at hdu
      by_cases hsame : u = cur ∧ d2 = d
      · obtain ⟨rfl, rfl⟩ := hsame
        rw [hg] at hg2
        obtain rfl := Option.some.inj hg2
        rw [hdc] at hdu
        obtain rfl := Option.some.inj hdu
        exact ⟨dc + g, hatv, le_refl _⟩
      · have hcond2 : u = cur → d2 ∉ d :: todo := by
          intro hucur hmem
          rcases List.mem_cons.mp hmem with h2 | h2
          · exact hsame ⟨hucur, h2⟩
          · exact hcond hucur h2
        obtain ⟨dv, hdv, hle⟩ := he u du hu hdu d2 hd2 hcond2 g2 hg2 hg20
        by_cases e : (⟨u.x + d2.x, u.y + d2.y⟩ : Point) = ⟨cur.x + d.x, cur.y + d.y⟩
        · rw [e] at hdv ⊢
          rw [hdn] at hdv
          have := Option.some.inj hdv
          exact ⟨dc + g, hatv, by omega⟩
        · exact ⟨dv, by rw [hatne _ e]; exact hdv, hle⟩
    · show at2 dist2 cur = some dc
      rw [hatne cur hcv]; exact hdc
    · intro u du hu hdu
      change at2 dist2 u = some du at hdu
      rw [hatne u (hDne u hu)] at hdu
      exact hmono u du hu hdu

theorem relaxAll_relaxing {grid : List (List Int)} {start : Point} {gs : Int}
    {D : Point → Prop} {cur : Point} (hr : Rect grid) (hn : NonNeg grid)
    (hfit : Fits grid start) (hgs : at2 grid start = some gs) (ds : List Point) :
    ∀ {st st2 : State}, Relaxing grid start gs D cur ds st → (∀ d ∈ ds, d ∈ directions) →
      relaxAll grid grid.length (columnsOf grid) cur st ds = some st2 →
      Relaxing grid start gs D cur [] st2 := by
  induction ds with
  | nil =>
    intro st st2 hR _ h
    simp only [relaxAll, Option.some.injEq] at h
    exact h ▸ hR
  | cons d rest ih =>
    intro st st2 hR hds h
    unfold relaxAll at h
    cases h1 : relax grid grid.length (columnsOf grid) cur st d with
    | none => simp [h1] at h
    | some st1 =>
      simp only [h1] at h
      exact ih (relaxing_step hr hn hfit hgs hR (hds d (List.mem_cons_self _ _)) h1)
        (fun d2 hd2 => hds d2 (List.mem_cons_of_mem _ hd2)) h

theorem edges_nil_cur {grid : List (List Int)} {D : Point → Prop} {c1 c2 : Point}
    {st : State} (he : Edges grid D c1 [] st) : Edges grid D c2 [] st :=
  fun u du hu hdu d hd _ g hg hg0 =>
    he u du hu hdu d hd (fun _ => List.not_mem_nil _) g hg hg0

/-- Before the loop no cell has been relaxed from: the invariant holds with the empty set. -/
theorem core_init {grid : List (List Int)} {start : Point} {gs : Int} (hn : NonNeg grid)
    (hs : InBounds grid start) (hgs : at2 grid start = some gs) (hs0 : gs ≠ 0) {st0 : State}
    (h : initState grid.length (columnsOf grid) start gs = some st0) :
    Core grid start gs (fun _ => False) st0 := by
  have hsound := sound_init hs ⟨gs, hgs, hs0⟩ h
  obtain ⟨dist1, hin, hat⟩ := initState_spec hs gs
  rw [hin] at h
  obtain rfl := Option.some.inj h
  have hgs0 : 0 ≤ gs := nonneg_of_at2_grid hn hgs
  have hother : ∀ q d, at2 dist1 q = some d → q ≠ start → d = inf := by
    intro q d hq hne
    rw [hat q, if_neg hne] at hq
    split at hq
    · exact (Option.some.inj hq).symm
    · exact absurd hq (by simp)
  have hstart : at2 dist1 start = some gs := by rw [hat start, if_pos rfl]
  refine ⟨hsound, hstart, ?_, ?_, ?_, ?_, ?_, ?_, ?_⟩
  · intro q d hq
    by_cases e : q = start
    · subst e
      rw [hstart] at hq
      obtain rfl := Option.some.inj hq
      exact ⟨hgs0, fun hne => absurd rfl hne⟩
    · have := hother q d hq e
      subst this
      exact ⟨by decide, fun _ => le_refl _⟩
  · intro q d hq hne hinf
    exact absurd (hother q d hq hne) hinf
  · intro u hu
    exact absurd hu id
  · intro e he
    change e ∈ [_] at he
    rw [List.mem_singleton] at he
    subst he
    exact ⟨gs, hstart, le_refl _⟩
  · intro u du hu
    exact absurd hu id
  · left
    exact ⟨rfl, fun _ h => h⟩
  · intro q dq _ _ hq hreach
    show (⟨q, dq⟩ : PqNode) ∈ [_]
    by_cases e : q = start
    · subst e
      rw [hstart] at hq
      obtain rfl := Option.some.inj hq
      exact List.mem_singleton.mpr rfl
    · rcases hreach with h1 | h1
      · exact absurd h1 e
      · exact absurd (hother q dq hq e) h1

theorem inv_init {grid : List (List Int)} {start : Point} {gs : Int} (hn : NonNeg grid)
    (hs : InBounds grid start) (hgs : at2 grid start = some gs) (hs0 : gs ≠ 0) {st0 : State}
    (h : initState grid.length (columnsOf grid) start gs = some st0) :
    Inv grid start gs st0 :=
  ⟨fun _ => False, core_init hn hs hgs hs0 h, fun _ _ hu => absurd hu id⟩

/-- The search loop, run without overflow, is left in a state in which the distance of
`finish` is least. -/
theorem searchLoop_final (tie : Nat → Nat) {grid : List (List Int)} {start finish : Point}
    {gs : Int} (hr : Rect grid) (hn : NonNeg grid) (hfit : Fits grid start)
    (hgs : at2 grid start = some gs) (hf : InBounds grid finish) (fuel k : Nat)
    (st st2 : State) (hI : Inv grid start gs st)
    (h : searchLoop tie grid grid.length (columnsOf grid) finish fuel k st = .ret st2) :
    Final grid start finish gs st2 := by
  refine searchLoop_rule tie grid _ _ finish (Inv grid start gs)
    (Final grid start finish gs) ?_ ?_ ?_ ?_ fuel k st st2 hI h
  · rintro st item dc ⟨D, hc, he⟩ hmem _ _ hdc hst
    exact ⟨D, core_pop_stale hc hmem hdc hst, he⟩
  · rintro st item dc st3 ⟨D, hc, he⟩ hmem hleast _ hdc hst hrel
    have hR := core_pop_fresh hr hn hgs hc he hmem hleast hdc hst
    obtain ⟨hc3, he3, _, _⟩ := relaxAll_relaxing hr hn hfit hgs directions hR
      (fun d hd => hd) hrel
    exact ⟨_, hc3, edges_nil_cur he3⟩
  · rintro st item ⟨D, hc, he⟩ hmem hleast hfin
    obtain ⟨dc, hdc, hle⟩ := hc.qkey item hmem
    constructor
    · by_cases hst : item.dist > dc
      · exact ⟨D, core_pop_stale hc hmem hdc hst⟩
      · exact ⟨_, (core_pop_fresh hr hn hgs hc he hmem hleast hdc hst).1⟩
    · intro de hde _ w hw
      change at2 st.dist finish = some de at hde
      rw [hfin, hde] at hdc
      obtain rfl := Option.some.inj hdc
      rcases least_le_cost hr hn hgs hc he hmem hleast finish w hw with ⟨_, dv, h1, h2⟩ | h1
      · rw [hde] at h1
        obtain rfl := Option.some.inj h1
        exact h2
      · omega
  · rintro st ⟨D, hc, he⟩ hpq
    refine ⟨⟨D, hc⟩, ?_⟩
    intro de hde hreach w hw
    by_cases hD : D finish
    · obtain ⟨_, du, h1, _, h2⟩ := hc.dmem finish hD
      rw [hde] at h1
      obtain rfl := Option.some.inj h1
      exact h2 w hw
    · have := hc.qhas finish de hf hD hde hreach
      rw [hpq] at this
      simp at this

/-- The cells from `c` back to `start` along the recorded predecessors sum to the
distance of `c`. -/
theorem chain_cost {grid : List (List Int)} {start : Point} {gs : Int} {D : Point → Prop}
    {st : State} (hgs : at2 grid start = some gs) (hc : Core grid start gs D st) :
    ∀ (chain : List Point) (c : Point) (dc : Int), chain.head? = some c →
      chain.getLast? = some start →
      List.Chain' (fun a b => a ≠ start ∧ at2 st.parent a = some (some b)) chain →
      at2 st.dist c = some dc → (c = start ∨ dc ≠ inf) → cost grid chain = dc := by
  intro chain
  induction chain with
  | nil => intro c dc h; simp at h
  | cons x rest ih =>
    intro c dc hhead hlast hchain hdc hreach
    simp only [List.head?_cons, Option.some.injEq] at hhead
    subst hhead
    cases rest with
    | nil =>
      simp only [List.getLast?_singleton, Option.some.injEq] at hlast
      subst hlast
      rw [hc.dstart] at hdc
      obtain rfl := Option.some.inj hdc
      rw [cost_cons, val_of_at2 hgs]
      simp [cost]
    | cons b rest2 =>
      rw [List.chain'_cons] at hchain
      obtain ⟨⟨hne, hpar⟩, hchain2⟩ := hchain
      have hinf : dc ≠ inf := by
        rcases hreach with h1 | h1
        · exact absurd h1 hne
        · exact h1
      obtain ⟨u, du, h1, h2, h3, h4⟩ := hc.par x dc hdc hne hinf
      rw [hpar] at h1
      have hub : b = u := by simpa using h1
      subst hub
      obtain ⟨_, du2, h5, h6, _⟩ := hc.dmem b h2
      rw [h3] at h5
      obtain rfl := Option.some.inj h5
      have := ih b du rfl (by simpa using hlast) hchain2 h3 (by
        rcases h6 with h6 | h6
        · exact Or.inl h6
        · exact Or.inr (by omega))
      rw [cost_cons, this, h4]
      omega

/-- Without overflow, a path that `Dijkstra` returns costs no more than any walk from
`start` to `finish`. -/
theorem path_cost_le {tie : Nat → Nat} {fuel : Nat} {grid : List (List Int)}
    {start finish : Point} {p : List Point} (hr : Rect grid) (hn : NonNeg grid)
    (hfit : Fits grid start) (h : Dijkstra tie fuel grid start finish = .path p)
    (w : List Point) (hw : IsWalk grid start finish w) : cost grid p ≤ cost grid w := by
  obtain ⟨hs, hf, ⟨gs2, hgs2, hs02⟩, _, gs, st0, st, de, l, hgs, hin, hloop, hde, hinf, hwb,
    rfl⟩ := Dijkstra_eq_path h
  rw [hgs] at hgs2
  obtain rfl := Option.some.inj hgs2
  obtain ⟨⟨D, hc⟩, hopt⟩ := searchLoop_final tie hr hn hfit hgs hf fuel 0 st0 st
    (inv_init hn hs hgs hs02 hin) hloop
  obtain ⟨chain, hl, hhead, hlast, hchain⟩ := walkBack_spec _ _ _ _ _ _ hwb
  simp only [List.nil_append] at hl
  subst hl
  rw [cost_reverse, chain_cost hgs hc l finish de hhead hlast hchain hde (Or.inr hinf)]
  exact hopt de hde (Or.inr hinf) w hw

/-! ## The returned path is a cheapest walk -/

/-- C1, amended. On a non-empty rectangular grid of non-negative integers on which no
addition of the search overflows a 64-bit `int` (`Fits`: the larger of the start value
and `1<<20 - 1`, plus any value of the grid, is below `2^63`), whenever `Dijkstra`
returns a path, for whatever tie-breaking order, the path is a walk from `start` to
`finish` and the sum of its grid values is the least among all walks from `start` to
`finish`. -/
theorem C1_min_cost (tie : Nat → Nat) (fuel : Nat) (grid : List (List Int))
    (start finish : Point) (p : List Point) (hr : Rect grid) (hn : NonNeg grid)
    (hfit : Fits grid start) (h : Dijkstra tie fuel grid start finish = .path p) :
    IsWalk grid start finish p ∧
      ∀ w, IsWalk grid start finish w → cost grid p ≤ cost grid w :=
  ⟨path_isWalk h, path_cost_le hr hn hfit h⟩

/-- Witness of C1, amended, on the grid of the scenario of the specification. -/
theorem C1_min_cost_witness :
    IsWalk [[1, 1, 1], [0, 0, 1], [1, 1, 1]] ⟨0, 0⟩ ⟨2, 0⟩
      [⟨0, 0⟩, ⟨0, 1⟩, ⟨0, 2⟩, ⟨1, 2⟩, ⟨2, 2⟩, ⟨2, 1⟩, ⟨2, 0⟩] ∧
    ∀ w, IsWalk [[1, 1, 1], [0, 0, 1], [1, 1, 1]] ⟨0, 0⟩ ⟨2, 0⟩ w →
      cost [[1, 1, 1], [0, 0, 1], [1, 1, 1]]
        [⟨0, 0⟩, ⟨0, 1⟩, ⟨0, 2⟩, ⟨1, 2⟩, ⟨2, 2⟩, ⟨2, 1⟩, ⟨2, 0⟩] ≤
      cost [[1, 1, 1], [0, 0, 1], [1, 1, 1]] w :=
  C1_min_cost (fun _ => 0) 7 [[1, 1, 1], [0, 0, 1], [1, 1, 1]] ⟨0, 0⟩ ⟨2, 0⟩
    [⟨0, 0⟩, ⟨0, 1⟩, ⟨0, 2⟩, ⟨1, 2⟩, ⟨2, 2⟩, ⟨2, 1⟩, ⟨2, 0⟩] (by decide) (by decide)
    (by decide) (by decide)

/-! ## Concrete runs -/

/-- C10. On the grid `[[1,1,1],[0,0,1],[1,1,1]]` with start `(0,0)` and end `(2,0)`,
for every tie-breaking order and every fuel from 7 on, `Dijkstra` returns exactly the
path `(0,0),(0,1),(0,2),(1,2),(2,2),(2,1),(2,0)`, whose cells sum to 7. -/
theorem C10_scenario :
    ∀ (tie : Nat → Nat) (k : Nat),
      Dijkstra tie (k + 7) [[1, 1, 1], [0, 0, 1], [1, 1, 1]] ⟨0, 0⟩ ⟨2, 0⟩ =
        .path [⟨0, 0⟩, ⟨0, 1⟩, ⟨0, 2⟩, ⟨1, 2⟩, ⟨2, 2⟩, ⟨2, 1⟩, ⟨2, 0⟩] ∧
      cost [[1, 1, 1], [0, 0, 1], [1, 1, 1]]
        [⟨0, 0⟩, ⟨0, 1⟩, ⟨0, 2⟩, ⟨1, 2⟩, ⟨2, 2⟩, ⟨2, 1⟩, ⟨2, 0⟩] = 7 := by
  intro tie k
  have h : tieFreeRun (k + 7) [[1, 1, 1], [0, 0, 1], [1, 1, 1]] ⟨0, 0⟩ ⟨2, 0⟩ = true := rfl
  rw [Dijkstra_of_tieFreeRun tie (fun _ => 0) _ _ _ _ h]
  exact ⟨rfl, by decide⟩

/-- Counterexample to C1: all values of the grid `[[2, 2^63 - 1], [3, 1]]` are
non-negative Go `int`s. From `(0,0)` to `(1,1)` the sum `2 + (2^63 - 1)` wraps to a
negative distance, so for every tie-breaking order `Dijkstra` returns the path through
the cell of value `2^63 - 1`, although the walk through `(1,0)` sums to 6. -/
theorem C1_counterexample :
    Rect [[2, 9223372036854775807], [3, 1]] ∧ NonNeg [[2, 9223372036854775807], [3, 1]] ∧
    (∀ (tie : Nat → Nat) (k : Nat),
      Dijkstra tie (k + 3) [[2, 9223372036854775807], [3, 1]] ⟨0, 0⟩ ⟨1, 1⟩ =
        .path [⟨0, 0⟩, ⟨0, 1⟩, ⟨1, 1⟩]) ∧
    cost [[2, 9223372036854775807], [3, 1]] [⟨0, 0⟩, ⟨0, 1⟩, ⟨1, 1⟩] = 9223372036854775810 ∧
    IsWalk [[2, 9223372036854775807], [3, 1]] ⟨0, 0⟩ ⟨1, 1⟩ [⟨0, 0⟩, ⟨1, 0⟩, ⟨1, 1⟩] ∧
    cost [[2, 9223372036854775807], [3, 1]] [⟨0, 0⟩, ⟨1, 0⟩, ⟨1, 1⟩] = 6 := by
  refine ⟨by decide, by decide, ?_, by decide, by decide, by decide⟩
  intro tie k
  have h : tieFreeRun (k + 3) [[2, 9223372036854775807], [3, 1]] ⟨0, 0⟩ ⟨1, 1⟩ = true := rfl
  rw [Dijkstra_of_tieFreeRun tie (fun _ => 0) _ _ _ _ h]
  rfl

/-- C2, the failing input: on the grid `[[1, 1048576]]` the cells `(0,0)`, `(0,1)` are a
walk from start to end, yet for every tie-breaking order and every fuel from 2 on
`Dijkstra` returns the error "нет пути до финиша": the candidate distance
`1 + 1048576` is not below the sentinel `1 << 20`. -/
theorem C2_no_path_on_connected_grid :
    Rect [[1, 1048576]] ∧ NonNeg [[1, 1048576]] ∧
    IsWalk [[1, 1048576]] ⟨0, 0⟩ ⟨0, 1⟩ [⟨0, 0⟩, ⟨0, 1⟩] ∧
    ∀ (tie : Nat → Nat) (k : Nat),
      Dijkstra tie (k + 2) [[1, 1048576]] ⟨0, 0⟩ ⟨0, 1⟩ = .error errNoPath := by
  refine ⟨by decide, by decide, by decide, ?_⟩
  intro tie k
  have h : tieFreeRun (k + 2) [[1, 1048576]] ⟨0, 0⟩ ⟨0, 1⟩ = true := rfl
  rw [Dijkstra_of_tieFreeRun tie (fun _ => 0) _ _ _ _ h]
  rfl

/-- C3, the failing input: on the 1×1 grid `[[1048576]]` the start cell is in bounds
and nonzero, yet for every tie-breaking order and every fuel from 1 on
`Dijkstra(grid, start, start)` returns the error "нет пути до финиша" instead of the
one-cell path: the value of the start cell equals the sentinel `1 << 20`. -/
theorem C3_start_value_is_sentinel :
    Rect [[1048576]] ∧ InBounds [[1048576]] ⟨0, 0⟩ ∧ Passable [[1048576]] ⟨0, 0⟩ ∧
    ∀ (tie : Nat → Nat) (k : Nat),
      Dijkstra tie (k + 1) [[1048576]] ⟨0, 0⟩ ⟨0, 0⟩ = .error errNoPath := by
  refine ⟨by decide, by decide, by decide, ?_⟩
  intro tie k
  rw [Dijkstra_start_eq_finish tie k [[1048576]] ⟨0, 0⟩ (by decide) 1048576 (by decide)
    (by decide)]
  rfl

/-! ## No walk to the finish, again -/

/-- On valid arguments without a walk from `start` to `finish` the search ends with the
error "нет пути до финиша", for every tie-breaking order and all fuel above the measure
of the first state. -/
theorem not_found_of_unreachable {grid : List (List Int)} {start finish : Point}
    (hr : Rect grid) (hs : InBounds grid start) (hf : InBounds grid finish)
    (hps : Passable grid start) (hpf : Passable grid finish)
    (hno : ¬ Reach grid start finish) :
    ∃ n, ∀ (tie : Nat → Nat) (fuel : Nat), n ≤ fuel →
      Dijkstra tie fuel grid start finish = .error errNoPath := by
  obtain ⟨gs, hgs, hs0⟩ := hps
  obtain ⟨ge, hge, hf0⟩ := hpf
  obtain ⟨dist1, hin, _⟩ := initState_spec hs gs
  have hsound0 := sound_init hs ⟨gs, hgs, hs0⟩ hin
  refine ⟨measure ⟨dist1, List.replicate grid.length (List.replicate (columnsOf grid) none),
    [⟨start, gs⟩]⟩ + 1, ?_⟩
  intro tie fuel hfuel
  rw [Dijkstra_of_valid tie fuel hs hf hgs hs0 hge hf0]
  obtain ⟨st, hloop⟩ := searchLoop_terminates tie hr start finish fuel 0 _ hsound0
    (by omega)
  have hsound := searchLoop_sound tie grid _ _ start finish fuel 0 _ st hsound0 hloop
  unfold search
  simp only [hin, hloop]
  unfold reconstruct
  obtain ⟨de, hde⟩ := Option.isSome_iff_exists.mp (hsound.shape finish hf).1
  simp only [hde]
  have : de = inf := by
    by_contra hne
    exact hno (hsound.reached finish de hde hne)
  simp [this]

theorem adjacent_irrefl (p : Point) : ¬ Adjacent p p := by
  unfold Adjacent; omega

/-- C11, amended. On a non-empty rectangular grid in which every cell other than `start`
and `finish` is 0, with `start` and `finish` in bounds, nonzero, different and not
adjacent, `Dijkstra` returns the error "нет пути до финиша" (and no path) for every
tie-breaking order and every sufficient amount of fuel. -/
theorem C11_isolated_endpoints (grid : List (List Int)) (start finish : Point)
    (hr : Rect grid) (hs : InBounds grid start) (hf : InBounds grid finish)
    (hps : Passable grid start) (hpf : Passable grid finish)
    (hzero : ∀ p, p ≠ start → p ≠ finish → ∀ g, at2 grid p = some g → g = 0)
    (hne : start ≠ finish) (hna : ¬ Adjacent start finish) :
    ∃ n, ∀ (tie : Nat → Nat) (fuel : Nat), n ≤ fuel →
      Dijkstra tie fuel grid start finish = .error errNoPath := by
  apply not_found_of_unreachable hr hs hf hps hpf
  rintro ⟨w, h1, h2, h3, h4⟩
  cases w with
  | nil => simp at h1
  | cons a w =>
    simp only [List.head?_cons, Option.some.injEq] at h1
    subst h1
    cases w with
    | nil =>
      simp only [List.getLast?_singleton, Option.some.injEq] at h2
      exact hne h2
    | cons b w =>
      have hadj : Adjacent a b := (List.chain'_cons.mp h3).1
      obtain ⟨g, hg, hg0⟩ := h4 b (by simp)
      by_cases hb1 : b = a
      · exact adjacent_irrefl a (hb1 ▸ hadj)
      · by_cases hb2 : b = finish
        · exact hna (hb2 ▸ hadj)
        · exact hg0 (hzero b hb1 hb2 g hg)

/-- Witness of C11, amended: the grid `[[1, 0, 1]]`. -/
theorem C11_isolated_endpoints_witness :
    ∃ n, ∀ (tie : Nat → Nat) (fuel : Nat), n ≤ fuel →
      Dijkstra tie fuel [[1, 0, 1]] ⟨0, 0⟩ ⟨0, 2⟩ = .error errNoPath :=
  C11_isolated_endpoints [[1, 0, 1]] ⟨0, 0⟩ ⟨0, 2⟩ (by decide) (by decide) (by decide)
    (by decide) (by decide)
    (by
      intro p hp1 hp2 g hg
      have hin := inBounds_of_at2_grid (by decide : Rect [[1, 0, 1]]) hg
      obtain ⟨px, py⟩ := p
      unfold InBounds columnsOf at hin
      simp only [List.length_cons, List.length_nil, List.headD_cons] at hin
      have hx : px = 0 := by omega
      subst hx
      have hy : py = 0 ∨ py = 1 ∨ py = 2 := by omega
      rcases hy with rfl | rfl | rfl
      · exact absurd rfl hp1
      · have : at2 [[1, 0, 1]] ⟨0, 1⟩ = some (0 : Int) := by decide
        rw [this] at hg
        exact (Option.some.inj hg).symm
      · exact absurd rfl hp2)
    (by decide) (by decide)

/-- Counterexample to C11: on the grid `[[1, 1]]` there is no cell other than `start`
and `finish`, both are in bounds and nonzero, and `Dijkstra` returns the two-cell
path, not the error. -/
theorem C11_counterexample :
    Rect [[1, 1]] ∧ InBounds [[1, 1]] ⟨0, 0⟩ ∧ InBounds [[1, 1]] ⟨0, 1⟩ ∧
    Passable [[1, 1]] ⟨0, 0⟩ ∧ Passable [[1, 1]] ⟨0, 1⟩ ∧
    (∀ p : Point, p ≠ ⟨0, 0⟩ → p ≠ ⟨0, 1⟩ → ∀ g : Int, at2 [[1, 1]] p = some g → g = 0) ∧
    ∀ (tie : Nat → Nat) (k : Nat),
      Dijkstra tie (k + 2) [[1, 1]] ⟨0, 0⟩ ⟨0, 1⟩ = .path [⟨0, 0⟩, ⟨0, 1⟩] := by
  refine ⟨by decide, by decide, by decide, by decide, by decide, ?_, ?_⟩
  · intro p hp1 hp2 g hg
    have hin := inBounds_of_at2_grid (by decide : Rect [[1, 1]]) hg
    obtain ⟨px, py⟩ := p
    unfold InBounds columnsOf at hin
    simp only [List.length_cons, List.length_nil, List.headD_cons] at hin
    have hx : px = 0 := by omega
    subst hx
    have hy : py = 0 ∨ py = 1 := by omega
    rcases hy with rfl | rfl
    · exact absurd rfl hp1
    · exact absurd rfl hp2
  · intro tie k
    have h : tieFreeRun (k + 2) [[1, 1]] ⟨0, 0⟩ ⟨0, 1⟩ = true := rfl
    rw [Dijkstra_of_tieFreeRun tie (fun _ => 0) _ _ _ _ h]
    rfl

/-! ## The returned path has no repeated cell -/

/-- Two sequences that start at the same cell, follow the recorded predecessors and
end at `start`, with `start` nowhere before the end, are the same sequence. -/
theorem chain_unique (parent : List (List (Option Point))) (start : Point) :
    ∀ (l1 l2 : List Point) (c : Point), l1.head? = some c → l2.head? = some c →
      l1.getLast? = some start → l2.getLast? = some start →
      List.Chain' (fun a b => a ≠ start ∧ at2 parent a = some (some b)) l1 →
      List.Chain' (fun a b => a ≠ start ∧ at2 parent a = some (some b)) l2 → l1 = l2 := by
  intro l1
  induction l1 with
  | nil => intro l2 c h; simp at h
  | cons x r1 ih =>
    intro l2 c h1 h2 hl1 hl2 hc1 hc2
    simp only [List.head?_cons, Option.some.injEq] at h1
    subst h1
    cases l2 with
    | nil => simp at h2
    | cons y r2 =>
      simp only [List.head?_cons, Option.some.injEq] at h2
      subst h2
      cases r1 with
      | nil =>
        simp only [List.getLast?_singleton, Option.some.injEq] at hl1
        cases r2 with
        | nil => rfl
        | cons b2 _ =>
          rw [List.chain'_cons] at hc2
          exact absurd hl1 hc2.1.1
      | cons b1 t1 =>
        rw [List.chain'_cons] at hc1
        cases r2 with
        | nil =>
          simp only [List.getLast?_singleton, Option.some.injEq] at hl2
          exact absurd hl2 hc1.1.1
        | cons b2 t2 =>
          rw [List.chain'_cons] at hc2
          have hb : b1 = b2 := by
            have := hc1.1.2.symm.trans hc2.1.2
            simpa using this
          subst hb
          have := ih (b1 :: t2) b1 rfl rfl (by simpa using hl1) (by simpa using hl2)
            hc1.2 hc2.2
          rw [this]

theorem chain_nodup (parent : List (List (Option Point))) (start : Point) :
    ∀ (l : List Point), l.getLast? = some start →
      List.Chain' (fun a b => a ≠ start ∧ at2 parent a = some (some b)) l → l.Nodup := by
  intro l
  induction l with
  | nil => intro _ _; exact List.nodup_nil
  | cons x r ih =>
    intro hl hc
    cases r with
    | nil => simp
    | cons b t =>
      have hc2 : List.Chain' (fun a b => a ≠ start ∧ at2 parent a = some (some b)) (b :: t) :=
        (List.chain'_cons.mp hc).2
      have hl2 : (b :: t).getLast? = some start := by simpa using hl
      rw [List.nodup_cons]
      refine ⟨?_, ih hl2 hc2⟩
      intro hmem
      obtain ⟨pre, post, hsplit⟩ := List.append_of_mem hmem
      have hsuf : List.Chain' (fun a b => a ≠ start ∧ at2 parent a = some (some b))
          (x :: post) := by
        rw [hsplit] at hc2
        exact hc2.right_of_append
      have hlast : (x :: post).getLast? = some start := by
        rw [hsplit] at hl2
        rw [← hl2, List.getLast?_append]
        cases hx : (x :: post).getLast? with
        | none => simp at hx
        | some v => simp
      have := chain_unique parent start (x :: b :: t) (x :: post) x rfl rfl hl hlast hc hsuf
      have hlen := congrArg List.length this
      rw [hsplit] at hlen
      simp only [List.length_cons, List.length_append] at hlen
      omega

theorem mem_allCells {rows columns : Nat} {p : Point} (h0 : 0 ≤ p.x) (h1 : p.x < rows)
    (h2 : 0 ≤ p.y) (h3 : p.y < columns) : p ∈ allCells rows columns := by
  unfold allCells
  have hx : p.x.toNat < rows := by omega
  have hy : p.y.toNat < columns := by omega
  rw [List.mem_flatMap]
  refine ⟨p.x.toNat, List.mem_range.mpr hx, ?_⟩
  rw [List.mem_map]
  refine ⟨p.y.toNat, List.mem_range.mpr hy, ?_⟩
  obtain ⟨px, py⟩ := p
  simp only [Point.mk.injEq] at *
  omega

theorem length_flatMap_row (columns : Nat) (l : List Nat) :
    (l.flatMap fun (i : Nat) =>
      (List.range columns).map fun (j : Nat) => (⟨(i : Int), (j : Int)⟩ : Point)).length =
      l.length * columns := by
  induction l with
  | nil => simp
  | cons a l ih =>
    rw [List.flatMap_cons, List.length_append, ih]
    simp [Nat.succ_mul, Nat.add_comm]

theorem length_allCells (rows columns : Nat) :
    (allCells rows columns).length = rows * columns := by
  unfold allCells
  rw [length_flatMap_row, List.length_range]

/-- A sequence of cells of the grid without repetition has at most `rows * columns`
cells. -/
theorem length_le_of_nodup {grid : List (List Int)} {l : List Point} (hn : l.Nodup)
    (hin : ∀ c ∈ l, InBounds grid c) : l.length ≤ grid.length * columnsOf grid := by
  rw [← length_allCells]
  apply (List.Nodup.subperm hn ?_).length_le
  intro c hc
  obtain ⟨h0, h1, h2, h3⟩ := hin c hc
  exact mem_allCells h0 (by exact_mod_cast h1) h2 (by exact_mod_cast h3)

theorem path_nodup {tie : Nat → Nat} {fuel : Nat} {grid : List (List Int)}
    {start finish : Point} {p : List Point}
    (h : Dijkstra tie fuel grid start finish = .path p) : p.Nodup := by
  obtain ⟨_, _, _, _, gs, st0, st, de, l, _, _, _, _, _, hwb, rfl⟩ := Dijkstra_eq_path h
  obtain ⟨chain, hl, _, hlast, hchain⟩ := walkBack_spec _ _ _ _ _ _ hwb
  simp only [List.nil_append] at hl
  subst hl
  rw [List.nodup_reverse]
  exact chain_nodup _ _ l hlast hchain

/-- C20. On a non-empty rectangular grid with `R` rows and `C` columns, every path that
`Dijkstra` returns visits no cell twice, hence has at most `R * C` cells. -/
theorem C20_path_simple (tie : Nat → Nat) (fuel : Nat) (grid : List (List Int))
    (start finish : Point) (p : List Point) (hr : Rect grid)
    (h : Dijkstra tie fuel grid start finish = .path p) :
    p.Nodup ∧ p.length ≤ grid.length * columnsOf grid := by
  have hn := path_nodup h
  refine ⟨hn, length_le_of_nodup hn ?_⟩
  intro c hc
  obtain ⟨g, hg, _⟩ := (path_isWalk h).2.2.2 c hc
  exact inBounds_of_at2_grid hr hg

/-- Witness of C20 on the grid of the scenario of the specification. -/
theorem C20_path_simple_witness :
    ([⟨0, 0⟩, ⟨0, 1⟩, ⟨0, 2⟩, ⟨1, 2⟩, ⟨2, 2⟩, ⟨2, 1⟩, ⟨2, 0⟩] : List Point).Nodup ∧
    ([⟨0, 0⟩, ⟨0, 1⟩, ⟨0, 2⟩, ⟨1, 2⟩, ⟨2, 2⟩, ⟨2, 1⟩, ⟨2, 0⟩] : List Point).length ≤
      ([[1, 1, 1], [0, 0, 1], [1, 1, 1]] : List (List Int)).length *
        columnsOf [[1, 1, 1], [0, 0, 1], [1, 1, 1]] :=
  C20_path_simple (fun _ => 0) 7 [[1, 1, 1], [0, 0, 1], [1, 1, 1]] ⟨0, 0⟩ ⟨2, 0⟩ _
    (by decide) (by decide)

/-! ## No run-time panic -/

theorem relax_linked {grid : List (List Int)} {start : Point} {rows columns : Int}
    {cur d : Point} {st st2 : State} (hl : Linked start st) (hc : HasPred start st cur)
    (h : relax grid rows columns cur st d = some st2) :
    Linked start st2 ∧ HasPred start st2 cur := by
  rcases relax_cases h with ⟨rfl, _⟩ | ⟨_, _, _, rfl, _⟩ |
    ⟨g, dc, dn, dist2, parent2, hg, hg0, hdc, hdn, hlt, hd2, hp2, rfl⟩
  · exact ⟨hl, hc⟩
  · exact ⟨hl, hc⟩
  · have hmono : ∀ v, HasPred start st v →
        HasPred start ⟨dist2, parent2,
          st.pq ++ [⟨⟨cur.x + d.x, cur.y + d.y⟩, wrapInt (dc + g)⟩]⟩ v := by
      intro v hv
      rcases hv with hv | ⟨u, hu⟩
      · exact Or.inl hv
      · right
        show ∃ u, at2 parent2 v = some (some u)
        rw [at2_store2 hp2]
        by_cases e : v = ⟨cur.x + d.x, cur.y + d.y⟩
        · exact ⟨cur, by simp [e]⟩
        · exact ⟨u, by simp only [e, if_false]; exact hu⟩
    have hnext : HasPred start ⟨dist2, parent2,
        st.pq ++ [⟨⟨cur.x + d.x, cur.y + d.y⟩, wrapInt (dc + g)⟩]⟩
        ⟨cur.x + d.x, cur.y + d.y⟩ := by
      right
      show ∃ u, at2 parent2 _ = some (some u)
      exact ⟨cur, by rw [at2_store2 hp2]; simp⟩
    refine ⟨⟨?_, ?_, ?_⟩, hmono cur hc⟩
    · intro e he
      change e ∈ st.pq ++ _ at he
      rcases List.mem_append.mp he with he | he
      · exact hmono _ (hl.queue e he)
      · rw [List.mem_singleton] at he
        subst he
        exact hnext
    · intro v dv hv hne
      change at2 dist2 v = some dv at hv
      rw [at2_store2 hd2] at hv
      by_cases e : v = ⟨cur.x + d.x, cur.y + d.y⟩
      · rw [e]; exact hnext
      · simp only [e, if_false] at hv
        exact hmono _ (hl.reached v dv hv hne)
    · intro v u hv
      change at2 parent2 v = some (some u) at hv
      rw [at2_store2 hp2] at hv
      by_cases e : v = ⟨cur.x + d.x, cur.y + d.y⟩
      · simp only [e, if_true, Option.some.injEq] at hv
        subst hv
        exact hmono _ hc
      · simp only [e, if_false] at hv
        exact hmono _ (hl.parent v u hv)

theorem relaxAll_linked {grid : List (List Int)} {start : Point} {rows columns : Int}
    {cur : Point} (ds : List Point) :
    ∀ {st st2 : State}, Linked start st → HasPred start st cur →
      relaxAll grid rows columns cur st ds = some st2 → Linked start st2 := by
  induction ds with
  | nil =>
    intro st st2 hl _ h
    simp only [relaxAll, Option.some.injEq] at h
    exact h ▸ hl
  | cons d rest ih =>
    intro st st2 hl hc h
    unfold relaxAll at h
    cases h1 : relax grid rows columns cur st d with
    | none => simp [h1] at h
    | some st1 =>
      simp only [h1] at h
      obtain ⟨hl1, hc1⟩ := relax_linked hl hc h1
      exact ih hl1 hc1 h

theorem linked_erase {start : Point} {st : State} (hl : Linked start st) (item : PqNode) :
    Linked start ⟨st.dist, st.parent, st.pq.erase item⟩ :=
  ⟨fun e he => hl.queue e (List.mem_of_mem_erase he), hl.reached, hl.parent⟩

theorem searchLoop_linked (tie : Nat → Nat) (grid : List (List Int)) (rows columns : Int)
    (start finish : Point) (fuel k : Nat) (st st2 : State) (hl : Linked start st)
    (h : searchLoop tie grid rows columns finish fuel k st = .ret st2) :
    Linked start st2 := by
  refine searchLoop_rule tie grid rows columns finish (Linked start) (Linked start)
    ?_ ?_ ?_ ?_ fuel k st st2 hl h
  · intro st item dc hI _ _ _ _ _
    exact linked_erase hI item
  · intro st item dc st3 hI hmem _ _ _ _ hrel
    exact relaxAll_linked directions (linked_erase hI item) (hI.queue item hmem) hrel
  · intro st item hI _ _ _
    exact linked_erase hI item
  · intro st hI _
    exact hI

theorem linked_init {grid : List (List Int)} {start : Point} (hs : InBounds grid start)
    {gs : Int} {st0 : State}
    (h : initState grid.length (columnsOf grid) start gs = some st0) :
    Linked start st0 := by
  obtain ⟨dist1, hin, hat⟩ := initState_spec hs gs
  rw [hin] at h
  obtain rfl := Option.some.inj h
  refine ⟨?_, ?_, ?_⟩
  · intro e he
    change e ∈ [_] at he
    rw [List.mem_singleton] at he
    subst he
    exact Or.inl rfl
  · intro v d hv hne
    by_cases e : v = start
    · exact Or.inl e
    · change at2 dist1 v = some d at hv
      rw [hat v, if_neg e] at hv
      split at hv
      · exact absurd (Option.some.inj hv).symm hne
      · exact absurd hv (by simp)
  · intro v u hv
    change at2 (List.replicate _ _) v = _ at hv
    rw [at2_replicate_grid] at hv
    split at hv <;> simp at hv

theorem searchLoop_no_panic (tie : Nat → Nat) {grid : List (List Int)} (hr : Rect grid)
    (start finish : Point) (fuel : Nat) :
    ∀ (k : Nat) (st : State), Sound grid start st →
      searchLoop tie grid grid.length (columnsOf grid) finish fuel k st ≠ .panic := by
  induction fuel with
  | zero => intro k st _; simp [searchLoop]
  | succ fuel ih =>
    intro k st hs
    unfold searchLoop
    by_cases hlen : st.pq.length > 0
    · simp only [hlen, if_true]
      have hne : st.pq ≠ [] := by
        intro e; rw [e] at hlen; simp at hlen
      obtain ⟨item, rest, hpop⟩ := heapPop_of_ne_nil (tie k) hne
      obtain ⟨hmem, hleast, rfl⟩ := heapPop_spec hpop
      simp only [hpop]
      have hs1 := sound_erase hs item
      by_cases hfin : item.point = finish
      · simp [hfin]
      · simp only [hfin, if_false]
        obtain ⟨hpass, hreach⟩ := hs.queue item hmem
        have hin : InBounds grid item.point := by
          obtain ⟨g, hg, _⟩ := hpass
          exact inBounds_of_at2_grid hr hg
        obtain ⟨dc, hdc⟩ := Option.isSome_iff_exists.mp (hs.shape _ hin).1
        simp only [hdc]
        by_cases hst : item.dist > dc
        · simp only [hst, if_true]
          exact ih _ _ hs1
        · simp only [hst, if_false]
          obtain ⟨st3, hrel⟩ := relaxAll_total hr hpass hreach directions hs1 (fun d hd => hd)
          simp only [hrel]
          exact ih _ _ (relaxAll_sound hpass hreach directions hs1 (fun d hd => hd) hrel)
    · simp [hlen]

theorem walkBack_no_panic {start : Point} {st : State} (hl : Linked start st) (fuel : Nat) :
    ∀ (cur : Point) (acc : List Point), HasPred start st cur →
      walkBack st.parent start fuel cur acc ≠ .panic := by
  induction fuel with
  | zero => intro cur acc _; simp [walkBack]
  | succ fuel ih =>
    intro cur acc hc
    unfold walkBack
    simp only
    by_cases e : cur = start
    · simp [e]
    · simp only [e, if_false]
      rcases hc with hc | ⟨u, hu⟩
      · exact absurd hc e
      · simp only [hu]
        exact ih u _ (hl.parent cur u hu)

/-- On a non-empty rectangular grid no call of `Dijkstra` panics. -/
theorem Dijkstra_no_panic (tie : Nat → Nat) (fuel : Nat) {grid : List (List Int)}
    (hr : Rect grid) (start finish : Point) :
    Dijkstra tie fuel grid start finish ≠ .panic := by
  by_cases hs : InBounds grid start
  · by_cases hf : InBounds grid finish
    · obtain ⟨gs, hgs⟩ := at2_grid_of_inBounds hr hs
      obtain ⟨ge, hge⟩ := at2_grid_of_inBounds hr hf
      by_cases hs0 : gs = 0
      · cases grid with
        | nil => exact absurd rfl hr.1
        | cons row0 rest =>
          unfold Dijkstra
          simp only
          rw [if_neg (fun h => (not_inBounds_iff row0 rest start).mp h hs),
            if_neg (fun h => (not_inBounds_iff row0 rest finish).mp h hf)]
          simp [hgs, hs0]
      · by_cases hf0 : ge = 0
        · cases grid with
          | nil => exact absurd rfl hr.1
          | cons row0 rest =>
            unfold Dijkstra
            simp only
            rw [if_neg (fun h => (not_inBounds_iff row0 rest start).mp h hs),
              if_neg (fun h => (not_inBounds_iff row0 rest finish).mp h hf)]
            simp [hgs, hs0, hge, hf0]
        · rw [Dijkstra_of_valid tie fuel hs hf hgs hs0 hge hf0]
          obtain ⟨dist1, hin, _⟩ := initState_spec hs gs
          have hsound0 := sound_init hs ⟨gs, hgs, hs0⟩ hin
          have hlinked0 := linked_init hs hin
          unfold search
          simp only [hin]
          cases hloop : searchLoop tie grid grid.length (columnsOf grid) finish fuel 0
              ⟨dist1, List.replicate grid.length (List.replicate (columnsOf grid) none),
                [⟨start, gs⟩]⟩ with
          | panic => exact absurd hloop (searchLoop_no_panic tie hr start finish fuel 0 _ hsound0)
          | outOfFuel => simp
          | ret st =>
            simp only
            have hsound := searchLoop_sound tie grid _ _ start finish fuel 0 _ st hsound0 hloop
            have hlinked := searchLoop_linked tie grid _ _ start finish fuel 0 _ st hlinked0 hloop
            unfold reconstruct
            obtain ⟨de, hde⟩ := Option.isSome_iff_exists.mp (hsound.shape finish hf).1
            simp only [hde]
            by_cases hinf : de = inf
            · simp [hinf]
            · simp only [hinf, if_false]
              have := walkBack_no_panic hlinked fuel finish [] (hlinked.reached finish de hde hinf)
              cases hwb : walkBack st.parent start fuel finish [] with
              | panic => exact absurd hwb this
              | outOfFuel => simp
              | ret l => simp
    · cases grid with
      | nil => exact absurd rfl hr.1
      | cons row0 rest =>
        unfold Dijkstra
        simp only
        rw [if_neg (fun h => (not_inBounds_iff row0 rest start).mp h hs),
          if_pos ((not_inBounds_iff row0 rest finish).mpr hf)]
        simp
  · cases grid with
    | nil => exact absurd rfl hr.1
    | cons row0 rest =>
      unfold Dijkstra
      simp only
      rw [if_pos ((not_inBounds_iff row0 rest start).mpr hs)]
      simp

/-- C15. On a non-empty rectangular grid, for every `start` and `finish`, every
tie-breaking order and every amount of fuel, `Dijkstra` does not panic: no index into
`grid`, `dist` or `parent` is out of range, `heap.Pop` is not called on an empty queue,
and the backward walk reads no nil predecessor (each of these is the outcome `panic` of
the model). -/
theorem C15_no_panic (tie : Nat → Nat) (fuel : Nat) (grid : List (List Int))
    (start finish : Point) (hr : Rect grid) :
    Dijkstra tie fuel grid start finish ≠ .panic :=
  Dijkstra_no_panic tie fuel hr start finish

/-- Witness of C15 on the grid of the scenario of the specification. -/
theorem C15_no_panic_witness :
    Dijkstra (fun _ => 0) 7 [[1, 1, 1], [0, 0, 1], [1, 1, 1]] ⟨0, 0⟩ ⟨2, 0⟩ ≠ .panic :=
  C15_no_panic (fun _ => 0) 7 [[1, 1, 1], [0, 0, 1], [1, 1, 1]] ⟨0, 0⟩ ⟨2, 0⟩ (by decide)

/-! ## The events of the search loop -/

theorem pops_append (l1 l2 : List Event) : pops (l1 ++ l2) = pops l1 ++ pops l2 := by
  induction l1 with
  | nil => rfl
  | cons e l ih => cases e <;> simp [pops, ih]

theorem pushes_append (l1 l2 : List Event) : pushes (l1 ++ l2) = pushes l1 ++ pushes l2 := by
  induction l1 with
  | nil => rfl
  | cons e l ih => cases e <;> simp [pushes, ih]

theorem pops_map_push (c : Point) (l : List PqNode) : pops (l.map (Event.push c)) = [] := by
  induction l with
  | nil => rfl
  | cons e l ih => simp [pops, ih]

theorem pushes_map_push (c : Point) (l : List PqNode) :
    pushes (l.map (Event.push c)) = l.map fun n => (c, n.point) := by
  induction l with
  | nil => rfl
  | cons e l ih => simp [pushes, ih]

theorem mem_pops {l : List Event} {e : PqNode} : e ∈ pops l ↔ Event.pop e ∈ l := by
  induction l with
  | nil => simp [pops]
  | cons x l ih => cases x <;> simp [pops, ih]

theorem mem_pushes {l : List Event} {a b : Point} :
    (a, b) ∈ pushes l ↔ ∃ n, Event.push a n ∈ l ∧ n.point = b := by
  induction l with
  | nil => simp [pushes]
  | cons x l ih =>
    cases x with
    | pop e => simp [pushes, ih]
    | push c n =>
      simp only [pushes, List.mem_cons, Prod.mk.injEq, ih, Event.push.injEq]
      constructor
      · rintro (⟨rfl, rfl⟩ | ⟨m, hm, rfl⟩)
        · exact ⟨n, Or.inl ⟨rfl, rfl⟩, rfl⟩
        · exact ⟨m, Or.inr hm, rfl⟩
      · rintro ⟨m, (⟨rfl, rfl⟩ | hm), rfl⟩
        · exact Or.inl ⟨rfl, rfl⟩
        · exact Or.inr ⟨m, hm, rfl⟩

theorem firstPops_append (seen : List Point) (l : List PqNode) (x : PqNode) :
    firstPops seen (l ++ [x]) =
      firstPops seen l ++
        (if x.point ∈ seen ∨ x.point ∈ l.map PqNode.point then [] else [x]) := by
  induction l generalizing seen with
  | nil =>
    by_cases h : x.point ∈ seen <;> simp [firstPops, h]
  | cons e l ih =>
    change firstPops seen (e :: (l ++ [x])) = firstPops seen (e :: l) ++ _
    have hiff : (x.point ∈ e.point :: seen ∨ x.point ∈ l.map PqNode.point) ↔
        (x.point ∈ seen ∨ x.point ∈ (e :: l).map PqNode.point) := by
      simp only [List.map_cons, List.mem_cons]; tauto
    simp only [firstPops]
    rw [ih (e.point :: seen), if_congr hiff rfl rfl]
    split <;> simp

/-- The state in which the search loop is left is the state that the recording loop
reaches. -/
theorem searchEvents_state (tie : Nat → Nat) (grid : List (List Int)) (rows columns : Int)
    (finish : Point) (fuel : Nat) :
    ∀ (k : Nat) (st st2 : State),
      searchLoop tie grid rows columns finish fuel k st = .ret st2 →
      (searchEvents tie grid rows columns finish fuel k st).2 = st2 := by
  induction fuel with
  | zero => intro k st st2 h; simp [searchLoop] at h
  | succ fuel ih =>
    intro k st st2 h
    unfold searchLoop at h
    unfold searchEvents
    by_cases hlen : st.pq.length > 0
    · simp only [hlen, if_true] at h ⊢
      cases hpop : heapPop (tie k) st.pq with
      | none => simp [hpop] at h
      | some pr =>
        obtain ⟨item, rest⟩ := pr
        simp only [hpop] at h ⊢
        by_cases hfin : item.point = finish
        · simp only [hfin, if_true, Outcome.ret.injEq] at h ⊢
          exact h
        · simp only [hfin, if_false] at h ⊢
          cases hdc : at2 st.dist item.point with
          | none => simp [hdc] at h
          | some dc =>
            simp only [hdc] at h ⊢
            by_cases hst : item.dist > dc
            · simp only [hst, if_true] at h ⊢
              exact ih _ _ _ h
            · simp only [hst, if_false] at h ⊢
              cases hrel : relaxAll grid rows columns item.point
                  ⟨st.dist, st.parent, rest⟩ directions with
              | none => simp [hrel] at h
              | some st3 =>
                simp only [hrel] at h ⊢
                exact ih _ _ _ h
    · simp only [hlen, if_false, Outcome.ret.injEq] at h ⊢
      exact h

theorem searchEvents_of_tieFree (tie1 tie2 : Nat → Nat) (grid : List (List Int))
    (rows columns : Int) (finish : Point) (fuel : Nat) :
    ∀ (k1 k2 : Nat) (st : State), tieFree grid rows columns finish fuel st = true →
      searchEvents tie1 grid rows columns finish fuel k1 st =
        searchEvents tie2 grid rows columns finish fuel k2 st := by
  induction fuel with
  | zero => intro k1 k2 st _; rfl
  | succ fuel ih =>
    intro k1 k2 st h
    obtain ⟨dist, parent, pq⟩ := st
    cases pq with
    | nil => simp [searchEvents]
    | cons e es =>
      unfold tieFree at h
      simp only at h
      unfold searchEvents heapPop
      simp only [List.length_cons, gt_iff_lt, Nat.zero_lt_succ, if_true]
      split at h
      · rename_i item hfil
        simp only [hfil, pick]
        by_cases hfin : item.point = finish
        · simp [hfin]
        · simp only [hfin, if_false] at h ⊢
          cases hd : at2 dist item.point with
          | none => rfl
          | some dc =>
            simp only [hd] at h ⊢
            by_cases hst : item.dist > dc
            · simp only [hst, if_true] at h ⊢
              rw [ih (k1 + 1) (k2 + 1) _ h]
            · simp only [hst, if_false] at h ⊢
              cases hrel : relaxAll grid rows columns item.point
                  ⟨dist, parent, (e :: es).erase item⟩ directions with
              | none => rfl
              | some st2 =>
                simp only [hrel] at h ⊢
                rw [ih (k1 + 1) (k2 + 1) _ h]
      · exact absurd h (by simp)

/-- Proof rule of the recording loop: `I` relates the events so far and the state at the
head of every round, `Q` when the loop is left or the fuel has run out. -/
theorem searchEvents_rule (tie : Nat → Nat) (grid : List (List Int)) (rows columns : Int)
    (finish : Point) (I Q : List Event → State → Prop)
    (hIQ : ∀ log st, I log st → Q log st)
    (hstale : ∀ log st item dc, I log st → item ∈ st.pq →
      (∀ e ∈ st.pq, item.dist ≤ e.dist) → item.point ≠ finish →
      at2 st.dist item.point = some dc → item.dist > dc →
      I (log ++ [.pop item]) ⟨st.dist, st.parent, st.pq.erase item⟩)
    (hrelax : ∀ log st item dc st2, I log st → item ∈ st.pq →
      (∀ e ∈ st.pq, item.dist ≤ e.dist) → item.point ≠ finish →
      at2 st.dist item.point = some dc → ¬ item.dist > dc →
      relaxAll grid rows columns item.point ⟨st.dist, st.parent, st.pq.erase item⟩
        directions = some st2 →
      I (log ++ .pop item ::
        (st2.pq.drop (st.pq.erase item).length).map (Event.push item.point)) st2)
    (hbreak : ∀ log st item, I log st → item ∈ st.pq →
      (∀ e ∈ st.pq, item.dist ≤ e.dist) → item.point = finish →
      Q (log ++ [.pop item]) ⟨st.dist, st.parent, st.pq.erase item⟩) (fuel : Nat) :
    ∀ (k : Nat) (st : State) (log : List Event), I log st →
      Q (log ++ (searchEvents tie grid rows columns finish fuel k st).1)
        (searchEvents tie grid rows columns finish fuel k st).2 := by
  induction fuel with
  | zero => intro k st log h; simpa [searchEvents] using hIQ log st h
  | succ fuel ih =>
    intro k st log hI
    unfold searchEvents
    by_cases hlen : st.pq.length > 0
    · simp only [hlen, if_true]
      cases hpop : heapPop (tie k) st.pq with
      | none => simpa using hIQ log st hI
      | some pr =>
        obtain ⟨item, rest⟩ := pr
        obtain ⟨hmem, hleast, rfl⟩ := heapPop_spec hpop
        simp only
        by_cases hfin : item.point = finish
        · simp only [hfin, if_true]
          exact hbreak log st item hI hmem hleast hfin
        · simp only [hfin, if_false]
          cases hdc : at2 st.dist item.point with
          | none => simpa using hIQ log st hI
          | some dc =>
            simp only
            by_cases hst : item.dist > dc
            · simp only [hst, if_true]
              have := ih (k + 1) _ _ (hstale log st item dc hI hmem hleast hfin hdc hst)
              simpa using this
            · simp only [hst, if_false]
              cases hrel : relaxAll grid rows columns item.point
                  ⟨st.dist, st.parent, st.pq.erase item⟩ directions with
              | none => simpa using hIQ log st hI
              | some st3 =>
                simp only
                have := ih (k + 1) _ _ (hrelax log st item dc st3 hI hmem hleast hfin hdc hst hrel)
                simpa using this
    · simpa [hlen] using hIQ log st hI

/-! ## More on one relaxation without overflow -/

theorem cost_snoc (grid : List (List Int)) (w : List Point) (p : Point) :
    cost grid (w ++ [p]) = cost grid w + val grid p := by
  simp [cost, val]

/-- What holds when a relaxation without overflow updates the tables. -/
theorem relax_update_facts {grid : List (List Int)} {start : Point} {gs : Int}
    {D : Point → Prop} {cur d : Point} {todo : List Point} {st : State}
    (hn : NonNeg grid) (hfit : Fits grid start) (hgs : at2 grid start = some gs)
    (hR : Relaxing grid start gs D cur (d :: todo) st) {g dc dn : Int}
    (hg : at2 grid ⟨cur.x + d.x, cur.y + d.y⟩ = some g)
    (hdc : at2 st.dist cur = some dc)
    (hdn : at2 st.dist ⟨cur.x + d.x, cur.y + d.y⟩ = some dn) :
    wrapInt (dc + g) = dc + g ∧ 0 ≤ g ∧ 0 ≤ dc ∧ (cur = start ∨ dc < inf) ∧
      (dc + g < dn → (⟨cur.x + d.x, cur.y + d.y⟩ : Point) ≠ start ∧
        ¬ D ⟨cur.x + d.x, cur.y + d.y⟩ ∧ dc + g < inf) := by
  obtain ⟨hc, he, hDcur, dc1, hdc1, hmono⟩ := hR
  rw [hdc] at hdc1
  obtain rfl := Option.some.inj hdc1
  obtain ⟨hcpass, dc2, hdc2, hcfin, _⟩ := hc.dmem cur hDcur
  rw [hdc] at hdc2
  obtain rfl := Option.some.inj hdc2
  have hdc0 : 0 ≤ dc := (hc.dbound cur dc hdc).1
  have hvs : val grid start = gs := val_of_at2 hgs
  have hdcle : dc ≤ val grid start ∨ dc < inf := by
    rcases hcfin with rfl | hlt
    · left
      rw [hc.dstart] at hdc
      have := Option.some.inj hdc
      omega
    · exact Or.inr hlt
  have hg1 : 0 ≤ g := nonneg_of_at2_grid hn hg
  refine ⟨wrapInt_fits hdc0 hdcle hg1 (fits_of_at2 hfit hg), hg1, hdc0, hcfin, ?_⟩
  intro hlt
  have hvne : (⟨cur.x + d.x, cur.y + d.y⟩ : Point) ≠ start := by
    intro e
    rw [e] at hdn hg
    rw [hc.dstart] at hdn
    rw [hgs] at hg
    have := Option.some.inj hdn
    have := Option.some.inj hg
    omega
  refine ⟨hvne, ?_, ?_⟩
  · intro hD
    have := hmono _ dn hD hdn
    omega
  · have := (hc.dbound _ dn hdn).2 hvne
    omega

/-- One round of the loop over `directions` without overflow: what it does to the
queue, and the facts about the tables that it keeps. -/
theorem relax_facts {grid : List (List Int)} {start : Point} {gs : Int}
    {D : Point → Prop} {cur d : Point} {todo : List Point} {st st2 : State}
    (hn : NonNeg grid) (hfit : Fits grid start) (hgs : at2 grid start = some gs)
    (hR : Relaxing grid start gs D cur (d :: todo) st) (hd : d ∈ directions)
    (h : relax grid grid.length (columnsOf grid) cur st d = some st2) :
    (st2.pq = st.pq ∨ ∃ x, st2.pq = st.pq ++ [⟨⟨cur.x + d.x, cur.y + d.y⟩, x⟩] ∧
      (⟨cur.x + d.x, cur.y + d.y⟩ : Point) ≠ start ∧ ¬ D ⟨cur.x + d.x, cur.y + d.y⟩) ∧
    (ParentOk start st → ParentOk start st2) ∧
    (Witnessed grid start st → Witnessed grid start st2) := by
  rcases relax_cases h with ⟨rfl, _⟩ | ⟨_, _, _, rfl, _⟩ |
    ⟨g, dc, dn, dist2, parent2, hg, hg0, hdc, hdn, hlt, hd2, hp2, rfl⟩
  · exact ⟨Or.inl rfl, id, id⟩
  · exact ⟨Or.inl rfl, id, id⟩
  · obtain ⟨hwrap, hg1, hdc0, hcfin, hupd⟩ := relax_update_facts hn hfit hgs hR hg hdc hdn
    rw [hwrap] at hlt hd2 ⊢
    obtain ⟨hvne, hvD, hnew⟩ := hupd hlt
    have hatv : at2 dist2 ⟨cur.x + d.x, cur.y + d.y⟩ = some (dc + g) := by
      rw [at2_store2 hd2]; simp
    have hatne : ∀ q, q ≠ (⟨cur.x + d.x, cur.y + d.y⟩ : Point) → at2 dist2 q = at2 st.dist q := by
      intro q hq; rw [at2_store2 hd2, if_neg hq]
    have hpatv : at2 parent2 ⟨cur.x + d.x, cur.y + d.y⟩ = some (some cur) := by
      rw [at2_store2 hp2]; simp
    have hpatne : ∀ q, q ≠ (⟨cur.x + d.x, cur.y + d.y⟩ : Point) →
        at2 parent2 q = at2 st.parent q := by
      intro q hq; rw [at2_store2 hp2, if_neg hq]
    refine ⟨Or.inr ⟨dc + g, rfl, hvne, hvD⟩, ?_, ?_⟩
    · rintro ⟨hp1, hp2⟩
      refine ⟨?_, ?_⟩
      · show at2 parent2 start = some none
        rw [hpatne start (Ne.symm hvne)]; exact hp1
      · intro v u hv
        change at2 parent2 v = some (some u) at hv
        show ∃ dv, at2 dist2 v = some dv ∧ dv < inf
        by_cases e : v = ⟨cur.x + d.x, cur.y + d.y⟩
        · subst e
          exact ⟨dc + g, hatv, hnew⟩
        · rw [hpatne v e] at hv
          rw [hatne v e]
          exact hp2 v u hv
    · intro hw v dv hv hreach
      change at2 dist2 v = some dv at hv
      by_cases e : v = ⟨cur.x + d.x, cur.y + d.y⟩
      · subst e
        rw [hatv] at hv
        obtain rfl := Option.some.inj hv
        have hcr : cur = start ∨ dc ≠ inf := by
          rcases hcfin with h1 | h1
          · exact Or.inl h1
          · exact Or.inr (by omega)
        obtain ⟨w, hw1, hw2⟩ := hw cur dc hdc hcr
        refine ⟨w ++ [⟨cur.x + d.x, cur.y + d.y⟩],
          isWalk_snoc hw1 (adjacent_of_direction hd) ⟨g, hg, hg0⟩, ?_⟩
        rw [cost_snoc, hw2, val_of_at2 hg]
      · rw [hatne v e] at hv
        exact hw v dv hv hreach

/-- The loop over `directions` without overflow: the invariant, the facts about the
tables, and the entries pushed, which are neighbours of `cur` in the order of the
directions, none of them `start` or in `D`. -/
theorem relaxAll_facts {grid : List (List Int)} {start : Point} {gs : Int}
    {D : Point → Prop} {cur : Point} (hr : Rect grid) (hn : NonNeg grid)
    (hfit : Fits grid start) (hgs : at2 grid start = some gs) (ds : List Point) :
    ∀ {st st2 : State}, Relaxing grid start gs D cur ds st → (∀ d ∈ ds, d ∈ directions) →
      relaxAll grid grid.length (columnsOf grid) cur st ds = some st2 →
      Relaxing grid start gs D cur [] st2 ∧
      (ParentOk start st → ParentOk start st2) ∧
      (Witnessed grid start st → Witnessed grid start st2) ∧
      ∃ news, st2.pq = st.pq ++ news ∧
        (news.map PqNode.point).Sublist
          (ds.map fun d => (⟨cur.x + d.x, cur.y + d.y⟩ : Point)) ∧
        ∀ n ∈ news, n.point ≠ start ∧ ¬ D n.point := by
  induction ds with
  | nil =>
    intro st st2 hR _ h
    simp only [relaxAll, Option.some.injEq] at h
    subst h
    exact ⟨hR, id, id, [], by simp, by simp, by simp⟩
  | cons d rest ih =>
    intro st st2 hR hds h
    unfold relaxAll at h
    cases h1 : relax grid grid.length (columnsOf grid) cur st d with
    | none => simp [h1] at h
    | some st1 =>
      simp only [h1] at h
      have hd := hds d (List.mem_cons_self _ _)
      have hR1 := relaxing_step hr hn hfit hgs hR hd h1
      obtain ⟨hq, hp, hw⟩ := relax_facts hn hfit hgs hR hd h1
      obtain ⟨hR2, hp2, hw2, news, hq2, hsub, hnews⟩ :=
        ih hR1 (fun d2 hd2 => hds d2 (List.mem_cons_of_mem _ hd2)) h
      refine ⟨hR2, fun x => hp2 (hp x), fun x => hw2 (hw x), ?_⟩
      rcases hq with hq | ⟨x, hq, hne, hD⟩
      · refine ⟨news, by rw [hq2, hq], ?_, hnews⟩
        exact hsub.trans (List.sublist_cons_self _ _)
      · refine ⟨⟨⟨cur.x + d.x, cur.y + d.y⟩, x⟩ :: news, by rw [hq2, hq]; simp, ?_, ?_⟩
        · simp only [List.map_cons]
          exact hsub.cons₂ _
        · intro n hn2
          rcases List.mem_cons.mp hn2 with rfl | hn2
          · exact ⟨hne, hD⟩
          · exact hnews n hn2

theorem relax_noop {grid : List (List Int)} {start : Point} {gs : Int}
    {D : Point → Prop} {cur d : Point} {todo : List Point} {st st2 : State}
    (hn : NonNeg grid) (hfit : Fits grid start) (hgs : at2 grid start = some gs)
    (hR : Relaxing grid start gs D cur (d :: todo) st)
    (hdone : ∀ dc g, at2 st.dist cur = some dc →
      at2 grid ⟨cur.x + d.x, cur.y + d.y⟩ = some g → g ≠ 0 →
      ∃ dv, at2 st.dist ⟨cur.x + d.x, cur.y + d.y⟩ = some dv ∧ dv ≤ dc + g)
    (h : relax grid grid.length (columnsOf grid) cur st d = some st2) : st2 = st := by
  rcases relax_cases h with ⟨rfl, _⟩ | ⟨_, _, _, rfl, _⟩ |
    ⟨g, dc, dn, dist2, parent2, hg, hg0, hdc, hdn, hlt, hd2, hp2, rfl⟩
  · rfl
  · rfl
  · obtain ⟨hwrap, _⟩ := relax_update_facts hn hfit hgs hR hg hdc hdn
    rw [hwrap] at hlt
    obtain ⟨dv, hdv, hle⟩ := hdone dc g hdc hg hg0
    rw [hdn] at hdv
    obtain rfl := Option.some.inj hdv
    omega

theorem relaxAll_noop {grid : List (List Int)} {start : Point} {gs : Int}
    {D : Point → Prop} {cur : Point} (hr : Rect grid) (hn : NonNeg grid)
    (hfit : Fits grid start) (hgs : at2 grid start = some gs) (ds : List Point) :
    ∀ {st st2 : State}, Relaxing grid start gs D cur ds st → (∀ d ∈ ds, d ∈ directions) →
      (∀ d ∈ ds, ∀ dc g, at2 st.dist cur = some dc →
        at2 grid ⟨cur.x + d.x, cur.y + d.y⟩ = some g → g ≠ 0 →
        ∃ dv, at2 st.dist ⟨cur.x + d.x, cur.y + d.y⟩ = some dv ∧ dv ≤ dc + g) →
      relaxAll grid grid.length (columnsOf grid) cur st ds = some st2 → st2 = st := by
  induction ds with
  | nil =>
    intro st st2 _ _ _ h
    simp only [relaxAll, Option.some.injEq] at h
    exact h.symm
  | cons d rest ih =>
    intro st st2 hR hds hdone h
    unfold relaxAll at h
    cases h1 : relax grid grid.length (columnsOf grid) cur st d with
    | none => simp [h1] at h
    | some st1 =>
      simp only [h1] at h
      have hd := hds d (List.mem_cons_self _ _)
      have hR1 := relaxing_step hr hn hfit hgs hR hd h1
      have e1 := relax_noop hn hfit hgs hR (hdone d (List.mem_cons_self _ _)) h1
      subst e1
      exact ih hR1 (fun d2 hd2 => hds d2 (List.mem_cons_of_mem _ hd2))
        (fun d2 hd2 => hdone d2 (List.mem_cons_of_mem _ hd2)) h

theorem neighbours_nodup (cur : Point) :
    (directions.map fun d => (⟨cur.x + d.x, cur.y + d.y⟩ : Point)).Nodup := by
  simp [directions]

/-! ## The invariant of the recording loop -/

theorem pop_reached {grid : List (List Int)} {start : Point} {gs : Int} {D : Point → Prop}
    {st : State} (hc : Core grid start gs D st) {item : PqNode} (hmem : item ∈ st.pq)
    {dc : Int} (hdc : at2 st.dist item.point = some dc) : item.point = start ∨ dc < inf := by
  obtain ⟨de, hde, hle⟩ := hc.qkey item hmem
  rw [hdc] at hde
  obtain rfl := Option.some.inj hde
  rcases hc.qinf with ⟨hpq, _⟩ | hlt
  · rw [hpq, List.mem_singleton] at hmem
    left; rw [hmem]
  · right
    have := hlt item hmem
    omega

/-- An entry popped for a cell that is not in `D` is not stale. -/
theorem pop_fresh_of_not_mem {grid : List (List Int)} {start : Point} {gs : Int}
    {D : Point → Prop} {st : State} (hr : Rect grid) (hc : Core grid start gs D st)
    {item : PqNode} (hmem : item ∈ st.pq) (hleast : ∀ e ∈ st.pq, item.dist ≤ e.dist)
    {dc : Int} (hdc : at2 st.dist item.point = some dc) (hD : ¬ D item.point) :
    item.dist = dc := by
  obtain ⟨de, hde, hle⟩ := hc.qkey item hmem
  rw [hdc] at hde
  obtain rfl := Option.some.inj hde
  have hin : InBounds grid item.point := by
    obtain ⟨g, hg, _⟩ := (hc.sound.queue item hmem).1
    exact inBounds_of_at2_grid hr hg
  have hreach : item.point = start ∨ dc ≠ inf := by
    rcases pop_reached hc hmem hdc with h | h
    · exact Or.inl h
    · exact Or.inr (by omega)
  have := hleast _ (hc.qhas item.point dc hin hD hdc hreach)
  simp only at this
  omega

theorem minCost_of_fresh {grid : List (List Int)} {start : Point} {gs : Int}
    {D : Point → Prop} {st : State} {c : Point} (hr : Rect grid) (hn : NonNeg grid)
    (hgs : at2 grid start = some gs) (hc : Core grid start gs D st)
    (hw : Witnessed grid start st) (he : Edges grid D c [] st) {item : PqNode}
    (hmem : item ∈ st.pq) (hleast : ∀ e ∈ st.pq, item.dist ≤ e.dist) {dc : Int}
    (hdc : at2 st.dist item.point = some dc) (hst : ¬ item.dist > dc) :
    MinCost grid start item.point item.dist := by
  obtain ⟨de, hde, hle⟩ := hc.qkey item hmem
  rw [hdc] at hde
  obtain rfl := Option.some.inj hde
  have hkey : item.dist = dc := by omega
  have hreach : item.point = start ∨ dc ≠ inf := by
    rcases pop_reached hc hmem hdc with h | h
    · exact Or.inl h
    · exact Or.inr (by omega)
  refine ⟨?_, ?_⟩
  · obtain ⟨w, h1, h2⟩ := hw item.point dc hdc hreach
    exact ⟨w, h1, by rw [h2, hkey]⟩
  · intro w hw2
    rcases least_le_cost hr hn hgs hc he hmem hleast _ w hw2 with ⟨_, dv, h1, h2⟩ | h
    · rw [hdc] at h1
      obtain rfl := Option.some.inj h1
      omega
    · exact h

theorem pops_snoc (log : List Event) (item : PqNode) (cur : Point) (news : List PqNode) :
    pops (log ++ Event.pop item :: news.map (Event.push cur)) = pops log ++ [item] := by
  rw [pops_append]
  simp [pops, pops_map_push]

theorem pushes_snoc (log : List Event) (item : PqNode) (cur : Point) (news : List PqNode) :
    pushes (log ++ Event.pop item :: news.map (Event.push cur)) =
      pushes log ++ news.map fun n => (cur, n.point) := by
  rw [pushes_append]
  simp [pushes, pushes_map_push]

theorem mem_pop_snoc {log : List Event} {item e : PqNode} {cur : Point} {news : List PqNode}
    (h : Event.pop e ∈ log ++ Event.pop item :: news.map (Event.push cur)) :
    Event.pop e ∈ log ∨ e = item := by
  rcases List.mem_append.mp h with h | h
  · exact Or.inl h
  · rcases List.mem_cons.mp h with h | h
    · exact Or.inr (by simpa using h)
    · rw [List.mem_map] at h
      obtain ⟨n, _, hn⟩ := h
      exact absurd hn (by simp)

theorem firstOk_snoc {grid : List (List Int)} {start : Point} {D : Point → Prop}
    {log : List Event} {item : PqNode}
    (hin : ∀ u, D u → ∃ e, Event.pop e ∈ log ∧ e.point = u)
    (hold : ∀ e ∈ firstPops [] (pops log), MinCost grid start e.point e.dist)
    (hnew : ¬ D item.point → MinCost grid start item.point item.dist) :
    ∀ e ∈ firstPops [] (pops log ++ [item]), MinCost grid start e.point e.dist := by
  intro e he
  rw [firstPops_append] at he
  rcases List.mem_append.mp he with he | he
  · exact hold e he
  · split at he
    · simp at he
    · rename_i hcond
      rw [List.mem_singleton] at he
      subst he
      apply hnew
      intro hD
      obtain ⟨x, hx, hxp⟩ := hin _ hD
      exact hcond (Or.inr (List.mem_map.mpr ⟨x, mem_pops.mpr hx, hxp⟩))

theorem traced_stale {grid : List (List Int)} {start : Point} {gs : Int}
    {log : List Event} {st : State} (hr : Rect grid)
    (hI : TracedLoop grid start gs log st) {item : PqNode} (hmem : item ∈ st.pq)
    (hleast : ∀ e ∈ st.pq, item.dist ≤ e.dist) {dc : Int}
    (hdc : at2 st.dist item.point = some dc) (hst : item.dist > dc) :
    TracedLoop grid start gs (log ++ [.pop item]) ⟨st.dist, st.parent, st.pq.erase item⟩ := by
  obtain ⟨D, ht, he⟩ := hI
  have hD : D item.point := by
    by_contra hD
    have := pop_fresh_of_not_mem hr ht.core hmem hleast hdc hD
    omega
  have hlog : log ++ [Event.pop item] = log ++ Event.pop item :: ([] : List PqNode).map
      (Event.push item.point) := by simp
  refine ⟨D, ⟨core_pop_stale ht.core hmem hdc hst, ht.parentOk, ht.witnessed, ?_, ?_, ?_, ?_,
    ?_, ?_⟩, he⟩
  · intro u hu
    obtain ⟨e, h1, h2⟩ := ht.popsIn u hu
    exact ⟨e, List.mem_append_left _ h1, h2⟩
  · intro e h1
    rw [hlog] at h1
    rcases mem_pop_snoc h1 with h1 | rfl
    · exact ht.popsOut e h1
    · exact hD
  · intro a b hab
    rw [hlog, pushes_snoc] at hab
    simp only [List.map_nil, List.append_nil] at hab
    exact ht.pushesFrom a b hab
  · rw [hlog, pushes_snoc]
    simpa using ht.pushNodup
  · rw [hlog, pops_snoc]
    exact firstOk_snoc ht.popsIn ht.firstOk (fun h => absurd hD h)
  · rw [hlog, pops_snoc, pushes_snoc]
    have := ht.balance
    have hlen := List.length_erase_of_mem hmem
    have hpos : 0 < st.pq.length := List.length_pos_of_mem hmem
    simp only [List.length_append, List.length_singleton, List.map_nil, List.length_nil]
    show (pops log).length + 1 + (st.pq.erase item).length = _
    omega

/-- The facts about the events that hold once a fresh entry has been popped, whatever
is pushed in the round. -/
theorem traced_break {grid : List (List Int)} {start : Point} {gs : Int}
    {log : List Event} {st : State} (hr : Rect grid) (hn : NonNeg grid)
    (hgs : at2 grid start = some gs)
    (hI : TracedLoop grid start gs log st) {item : PqNode} (hmem : item ∈ st.pq)
    (hleast : ∀ e ∈ st.pq, item.dist ≤ e.dist) :
    TracedEnd grid start gs (log ++ [.pop item]) ⟨st.dist, st.parent, st.pq.erase item⟩ := by
  obtain ⟨dc, hdc, hle⟩ := hI.choose_spec.1.core.qkey item hmem
  by_cases hst : item.dist > dc
  · obtain ⟨D, ht, _⟩ := traced_stale hr hI hmem hleast hdc hst
    exact ⟨D, ht⟩
  · obtain ⟨D, ht, he⟩ := hI
    have hR := core_pop_fresh hr hn hgs ht.core he hmem hleast hdc hst
    have hlog : log ++ [Event.pop item] = log ++ Event.pop item :: ([] : List PqNode).map
        (Event.push item.point) := by simp
    refine ⟨fun p => D p ∨ p = item.point, hR.1, ht.parentOk, ht.witnessed, ?_, ?_, ?_, ?_,
      ?_, ?_⟩
    · rintro u (hu | rfl)
      · obtain ⟨e, h1, h2⟩ := ht.popsIn u hu
        exact ⟨e, List.mem_append_left _ h1, h2⟩
      · exact ⟨item, by simp, rfl⟩
    · intro e h1
      rw [hlog] at h1
      rcases mem_pop_snoc h1 with h1 | rfl
      · exact Or.inl (ht.popsOut e h1)
      · exact Or.inr rfl
    · intro a b hab
      rw [hlog, pushes_snoc] at hab
      simp only [List.map_nil, List.append_nil] at hab
      obtain ⟨h1, h2, h3, h4⟩ := ht.pushesFrom a b hab
      exact ⟨Or.inl h1, h2, h3, h4⟩
    · rw [hlog, pushes_snoc]
      simpa using ht.pushNodup
    · rw [hlog, pops_snoc]
      exact firstOk_snoc ht.popsIn ht.firstOk
        (fun _ => minCost_of_fresh hr hn hgs ht.core ht.witnessed he hmem hleast hdc hst)
    · rw [hlog, pops_snoc, pushes_snoc]
      have := ht.balance
      have hlen := List.length_erase_of_mem hmem
      have hpos : 0 < st.pq.length := List.length_pos_of_mem hmem
      simp only [List.length_append, List.length_singleton, List.map_nil, List.length_nil]
      show (pops log).length + 1 + (st.pq.erase item).length = _
      omega

theorem traced_relax {grid : List (List Int)} {start : Point} {gs : Int}
    {log : List Event} {st st2 : State} (hr : Rect grid) (hn : NonNeg grid)
    (hfit : Fits grid start) (hgs : at2 grid start = some gs)
    (hI : TracedLoop grid start gs log st) {item : PqNode} (hmem : item ∈ st.pq)
    (hleast : ∀ e ∈ st.pq, item.dist ≤ e.dist) {dc : Int}
    (hdc : at2 st.dist item.point = some dc) (hst : ¬ item.dist > dc)
    (hrel : relaxAll grid grid.length (columnsOf grid) item.point
      ⟨st.dist, st.parent, st.pq.erase item⟩ directions = some st2) :
    TracedLoop grid start gs
      (log ++ .pop item ::
        (st2.pq.drop (st.pq.erase item).length).map (Event.push item.point)) st2 := by
  obtain ⟨D, ht, he⟩ := hI
  have hR := core_pop_fresh hr hn hgs ht.core he hmem hleast hdc hst
  obtain ⟨hR2, hp, hw, news, hq2, hsub, hnews⟩ :=
    relaxAll_facts hr hn hfit hgs directions hR (fun d hd => hd) hrel
  change st2.pq = st.pq.erase item ++ news at hq2
  have hdrop : st2.pq.drop (st.pq.erase item).length = news := by
    rw [hq2, List.drop_left]
  rw [hdrop]
  have hnil : D item.point → news = [] := by
    intro hD
    have hsame := relaxAll_noop hr hn hfit hgs directions hR (fun d hd => hd)
      (fun d hd dc2 g h1 h2 h3 => he item.point dc2 hD h1 d hd (fun _ => List.not_mem_nil _)
        g h2 h3) hrel
    rw [hsame] at hq2
    exact (List.self_eq_append_right.mp hq2)
  refine ⟨fun p => D p ∨ p = item.point,
    ⟨hR2.1, hp ht.parentOk, hw ht.witnessed, ?_, ?_, ?_, ?_, ?_, ?_⟩, edges_nil_cur hR2.2.1⟩
  · rintro u (hu | rfl)
    · obtain ⟨e, h1, h2⟩ := ht.popsIn u hu
      exact ⟨e, List.mem_append_left _ h1, h2⟩
    · exact ⟨item, by simp, rfl⟩
  · intro e h1
    rcases mem_pop_snoc h1 with h1 | rfl
    · exact Or.inl (ht.popsOut e h1)
    · exact Or.inr rfl
  · intro a b hab
    rw [pushes_snoc] at hab
    rcases List.mem_append.mp hab with hab | hab
    · obtain ⟨h1, h2, h3, h4⟩ := ht.pushesFrom a b hab
      exact ⟨Or.inl h1, h2, h3, h4⟩
    · rw [List.mem_map] at hab
      obtain ⟨n, hn1, hn2⟩ := hab
      simp only [Prod.mk.injEq] at hn2
      obtain ⟨rfl, rfl⟩ := hn2
      refine ⟨Or.inr rfl, ?_, (hnews n hn1).1, ?_⟩
      · have := hsub.subset (List.mem_map.mpr ⟨n, hn1, rfl⟩)
        rw [List.mem_map] at this
        obtain ⟨d, hd, hdn⟩ := this
        exact ⟨d, hd, hdn.symm⟩
      · have hin : n ∈ st2.pq := by rw [hq2]; exact List.mem_append_right _ hn1
        obtain ⟨g, hg, _⟩ := (hR2.1.sound.queue n hin).1
        exact inBounds_of_at2_grid hr hg
  · rw [pushes_snoc]
    refine List.Nodup.append ht.pushNodup ?_ ?_
    · have h1 : (news.map PqNode.point).Nodup := (neighbours_nodup item.point).sublist hsub
      have h2 : (news.map fun n => (item.point, n.point)) =
          (news.map PqNode.point).map fun b => (item.point, b) := by simp
      rw [h2]
      exact h1.map (fun a b hab => by simpa using hab)
    · intro x hx1 hx2
      rw [List.mem_map] at hx2
      obtain ⟨n, hn1, rfl⟩ := hx2
      have hD := (ht.pushesFrom _ _ hx1).1
      rw [hnil hD] at hn1
      simp at hn1
  · rw [pops_snoc]
    exact firstOk_snoc ht.popsIn ht.firstOk
      (fun _ => minCost_of_fresh hr hn hgs ht.core ht.witnessed he hmem hleast hdc hst)
  · rw [pops_snoc, pushes_snoc, hq2]
    have := ht.balance
    have hlen := List.length_erase_of_mem hmem
    have hpos : 0 < st.pq.length := List.length_pos_of_mem hmem
    simp only [List.length_append, List.length_singleton, List.length_map]
    omega

theorem traced_init {grid : List (List Int)} {start : Point} {gs : Int} (hn : NonNeg grid)
    (hs : InBounds grid start) (hgs : at2 grid start = some gs) (hs0 : gs ≠ 0) {st0 : State}
    (h : initState grid.length (columnsOf grid) start gs = some st0) :
    TracedLoop grid start gs [] st0 := by
  have hcore := core_init hn hs hgs hs0 h
  obtain ⟨dist1, hin, hat⟩ := initState_spec hs gs
  rw [hin] at h
  obtain rfl := Option.some.inj h
  refine ⟨fun _ => False, ⟨hcore, ?_, ?_, ?_, ?_, ?_, ?_, ?_, ?_⟩, fun _ _ hu => absurd hu id⟩
  · refine ⟨?_, ?_⟩
    · show at2 (List.replicate _ _) start = some none
      rw [at2_replicate_grid, if_pos hs]
    · intro v u hv
      change at2 (List.replicate _ _) v = _ at hv
      rw [at2_replicate_grid] at hv
      split at hv <;> simp at hv
  · intro v d hv hreach
    change at2 dist1 v = some d at hv
    by_cases e : v = start
    · subst e
      rw [hat v, if_pos rfl] at hv
      obtain rfl := Option.some.inj hv
      refine ⟨[v], isWalk_single ⟨gs, hgs, hs0⟩, ?_⟩
      rw [cost_cons, val_of_at2 hgs]
      simp [cost]
    · rw [hat v, if_neg e] at hv
      rcases hreach with h1 | h1
      · exact absurd h1 e
      · split at hv
        · exact absurd (Option.some.inj hv).symm h1
        · exact absurd hv (by simp)
  · intro u hu
    exact absurd hu id
  · intro e he
    simp at he
  · intro a b hab
    simp [pushes] at hab
  · simp [pushes]
  · intro e he
    simp [pops, firstPops] at he
  · simp [pops, pushes]

/-- The events of a search without overflow and the state it reaches satisfy the
invariant, whatever the fuel. -/
theorem searchEvents_traced (tie : Nat → Nat) {grid : List (List Int)} {start : Point}
    {gs : Int} (hr : Rect grid) (hn : NonNeg grid) (hfit : Fits grid start)
    (hs : InBounds grid start) (hgs : at2 grid start = some gs) (hs0 : gs ≠ 0)
    (finish : Point) (fuel : Nat) {st0 : State}
    (h : initState grid.length (columnsOf grid) start gs = some st0) :
    TracedEnd grid start gs
      (searchEvents tie grid grid.length (columnsOf grid) finish fuel 0 st0).1
      (searchEvents tie grid grid.length (columnsOf grid) finish fuel 0 st0).2 := by
  have := searchEvents_rule tie grid grid.length (columnsOf grid) finish
    (TracedLoop grid start gs) (TracedEnd grid start gs)
    (fun log st ⟨D, ht, _⟩ => ⟨D, ht⟩)
    (fun log st item dc hI hmem hleast _ hdc hst => traced_stale hr hI hmem hleast hdc hst)
    (fun log st item dc st2 hI hmem hleast _ hdc hst hrel =>
      traced_relax hr hn hfit hgs hI hmem hleast hdc hst hrel)
    (fun log st item hI hmem hleast _ => traced_break hr hn hgs hI hmem hleast)
    fuel 0 st0 [] (traced_init hn hs hgs hs0 h)
  simpa using this

/-! ## The first pop of a cell -/

theorem DijkstraEvents_eq (tie : Nat → Nat) (fuel : Nat) {grid : List (List Int)}
    {start : Point} (finish : Point) {gs : Int} {st0 : State}
    (hgs : at2 grid start = some gs)
    (hin : initState grid.length (columnsOf grid) start gs = some st0) :
    DijkstraEvents tie fuel grid start finish =
      (searchEvents tie grid grid.length (columnsOf grid) finish fuel 0 st0).1 := by
  cases grid with
  | nil => simp [at2, index] at hgs
  | cons row0 rest =>
    have hin2 : initState (row0 :: rest).length row0.length start gs = some st0 := hin
    unfold DijkstraEvents
    simp only [hgs, hin2]
    rfl

theorem loopEnd_eq (tie : Nat → Nat) (fuel : Nat) {grid : List (List Int)}
    {start : Point} (finish : Point) {gs : Int} {st0 st : State}
    (hgs : at2 grid start = some gs)
    (hin : initState grid.length (columnsOf grid) start gs = some st0)
    (h : loopEnd tie fuel grid start finish = some st) :
    searchLoop tie grid grid.length (columnsOf grid) finish fuel 0 st0 = .ret st := by
  cases grid with
  | nil => simp [at2, index] at hgs
  | cons row0 rest =>
    have hin2 : initState (row0 :: rest).length row0.length start gs = some st0 := hin
    unfold loopEnd at h
    simp only [hgs, hin2] at h
    have e : columnsOf (row0 :: rest) = row0.length := rfl
    rw [e]
    split at h
    · rename_i st2 hl
      rw [hl, Option.some.inj h]
    · exact absurd h (by simp)

theorem DijkstraEvents_of_tieFreeRun (tie1 tie2 : Nat → Nat) (fuel : Nat)
    (grid : List (List Int)) (start finish : Point)
    (h : tieFreeRun fuel grid start finish = true) :
    DijkstraEvents tie1 fuel grid start finish = DijkstraEvents tie2 fuel grid start finish := by
  unfold DijkstraEvents
  unfold tieFreeRun at h
  cases grid with
  | nil => rfl
  | cons row0 rest =>
    simp only at h ⊢
    cases hgs : at2 (row0 :: rest) start with
    | none => rfl
    | some gs =>
      simp only [hgs] at h ⊢
      cases hin : initState (row0 :: rest).length row0.length start gs with
      | none => rfl
      | some st0 =>
        simp only [hin] at h ⊢
        rw [searchEvents_of_tieFree tie1 tie2 _ _ _ _ _ 0 0 st0 h]

theorem loopEnd_of_tieFreeRun (tie1 tie2 : Nat → Nat) (fuel : Nat)
    (grid : List (List Int)) (start finish : Point)
    (h : tieFreeRun fuel grid start finish = true) :
    loopEnd tie1 fuel grid start finish = loopEnd tie2 fuel grid start finish := by
  unfold loopEnd
  unfold tieFreeRun at h
  cases grid with
  | nil => rfl
  | cons row0 rest =>
    simp only at h ⊢
    cases hgs : at2 (row0 :: rest) start with
    | none => rfl
    | some gs =>
      simp only [hgs] at h ⊢
      cases hin : initState (row0 :: rest).length row0.length start gs with
      | none => rfl
      | some st0 =>
        simp only [hin] at h ⊢
        rw [searchLoop_of_tieFree tie1 tie2 _ _ _ _ _ 0 0 st0 h]

/-- C17, amended. On a non-empty rectangular grid of non-negative integers on which no
addition of the search overflows (`Fits`), with an in-bounds nonzero `start` and any
`finish`, in every run (every tie-breaking order, every amount of fuel) the first entry
`(u, d)` popped for a cell `u` has `d` equal to the least sum of grid values of a walk
from `start` to `u`; and when the loop is left after a pop of `finish`, `dist[finish]`
is that least sum for `finish`. -/
theorem C17_first_pop_min (tie : Nat → Nat) (fuel : Nat) (grid : List (List Int))
    (start finish : Point) (hr : Rect grid) (hn : NonNeg grid) (hfit : Fits grid start)
    (hs : InBounds grid start) (hps : Passable grid start) :
    (∀ e ∈ firstPops [] (pops (DijkstraEvents tie fuel grid start finish)),
      MinCost grid start e.point e.dist) ∧
    ∀ st, loopEnd tie fuel grid start finish = some st →
      (∃ e, Event.pop e ∈ DijkstraEvents tie fuel grid start finish ∧ e.point = finish) →
      ∃ de, at2 st.dist finish = some de ∧ MinCost grid start finish de := by
  obtain ⟨gs, hgs, hs0⟩ := hps
  obtain ⟨dist1, hin, _⟩ := initState_spec hs gs
  obtain ⟨D, ht⟩ := searchEvents_traced tie hr hn hfit hs hgs hs0 finish fuel hin
  rw [DijkstraEvents_eq tie fuel finish hgs hin]
  refine ⟨ht.firstOk, ?_⟩
  intro st hst ⟨e, he, hef⟩
  have hloop := loopEnd_eq tie fuel finish hgs hin hst
  have hstate := searchEvents_state tie grid _ _ finish fuel 0 _ st hloop
  rw [hstate] at ht
  have hD : D finish := hef ▸ ht.popsOut e he
  obtain ⟨_, du, h1, h2, h3⟩ := ht.core.dmem finish hD
  refine ⟨du, h1, ?_, h3⟩
  exact ht.witnessed finish du h1 (by
    rcases h2 with h2 | h2
    · exact Or.inl h2
    · exact Or.inr (by omega))

/-- Witness of C17, amended, on the grid of the scenario of the specification: the entry
popped first. -/
theorem C17_first_pop_min_witness :
    MinCost [[1, 1, 1], [0, 0, 1], [1, 1, 1]] ⟨0, 0⟩ ⟨0, 0⟩ 1 :=
  (C17_first_pop_min (fun _ => 0) 7 [[1, 1, 1], [0, 0, 1], [1, 1, 1]] ⟨0, 0⟩ ⟨2, 0⟩
    (by decide) (by decide) (by decide) (by decide) (by decide)).1 ⟨⟨0, 0⟩, 1⟩ (by decide)

/-- Counterexample to C17: on the grid `[[2, 2^63 - 1], [3, 1]]` of non-negative Go
`int`s, from `(0,0)` to `(1,1)`, the first entry popped for the cell `(0,1)` carries the
wrapped distance `-2^63 + 1`, which is the cost of no walk. -/
theorem C17_counterexample :
    Rect [[2, 9223372036854775807], [3, 1]] ∧ NonNeg [[2, 9223372036854775807], [3, 1]] ∧
    (∀ (tie : Nat → Nat) (k : Nat),
      (⟨⟨0, 1⟩, -9223372036854775807⟩ : PqNode) ∈ firstPops []
        (pops (DijkstraEvents tie (k + 3) [[2, 9223372036854775807], [3, 1]] ⟨0, 0⟩ ⟨1, 1⟩))) ∧
    ¬ MinCost [[2, 9223372036854775807], [3, 1]] ⟨0, 0⟩ ⟨0, 1⟩ (-9223372036854775807) := by
  refine ⟨by decide, by decide, ?_, ?_⟩
  · intro tie k
    have h : tieFreeRun (k + 3) [[2, 9223372036854775807], [3, 1]] ⟨0, 0⟩ ⟨1, 1⟩ = true := rfl
    rw [DijkstraEvents_of_tieFreeRun tie (fun _ => 0) _ _ _ _ h]
    have e : DijkstraEvents (fun _ => 0) (k + 3) [[2, 9223372036854775807], [3, 1]] ⟨0, 0⟩
        ⟨1, 1⟩ =
        [.pop ⟨⟨0, 0⟩, 2⟩, .push ⟨0, 0⟩ ⟨⟨1, 0⟩, 5⟩,
          .push ⟨0, 0⟩ ⟨⟨0, 1⟩, -9223372036854775807⟩,
          .pop ⟨⟨0, 1⟩, -9223372036854775807⟩,
          .push ⟨0, 1⟩ ⟨⟨1, 1⟩, -9223372036854775806⟩,
          .push ⟨0, 1⟩ ⟨⟨0, 0⟩, -9223372036854775805⟩,
          .pop ⟨⟨1, 1⟩, -9223372036854775806⟩] := rfl
    rw [e]
    decide
  · rintro ⟨⟨w, _, hw⟩, _⟩
    have := cost_nonneg (by decide : NonNeg [[2, 9223372036854775807], [3, 1]]) w
    omega

/-! ## The predecessor table when the loop is left -/

theorem loopEnd_of_ret (tie : Nat → Nat) (fuel : Nat) {grid : List (List Int)}
    {start : Point} (finish : Point) {gs : Int} {st0 st : State}
    (hgs : at2 grid start = some gs)
    (hin : initState grid.length (columnsOf grid) start gs = some st0)
    (h : searchLoop tie grid grid.length (columnsOf grid) finish fuel 0 st0 = .ret st) :
    loopEnd tie fuel grid start finish = some st := by
  cases grid with
  | nil => simp [at2, index] at hgs
  | cons row0 rest =>
    have hin2 : initState (row0 :: rest).length row0.length start gs = some st0 := hin
    have h2 : searchLoop tie (row0 :: rest) (row0 :: rest).length row0.length finish fuel 0
        st0 = .ret st := h
    unfold loopEnd
    simp only [hgs, hin2, h2]

/-- C19, amended. On a non-empty rectangular grid of non-negative integers on which no
addition of the search overflows (`Fits`), with an in-bounds nonzero `start` and any
`finish`, the search loop ends, and when it has ended: `start` has no predecessor; every other cell of the
grid has a predecessor exactly when its distance is below `1<<20`; and whenever the
predecessor of `v` is `u`, `u` is an in-bounds nonzero cell 4-adjacent to `v` with
`dist[v] = dist[u] + grid[v]`. -/
theorem C19_predecessors (grid : List (List Int)) (start finish : Point) (hr : Rect grid)
    (hn : NonNeg grid) (hfit : Fits grid start) (hs : InBounds grid start)
    (hps : Passable grid start) :
    ∃ n, ∀ (tie : Nat → Nat) (fuel : Nat), n ≤ fuel →
      ∃ st, loopEnd tie fuel grid start finish = some st ∧
        at2 st.parent start = some none ∧
        (∀ v, InBounds grid v → v ≠ start →
          ((∃ u, at2 st.parent v = some (some u)) ↔ ∃ d, at2 st.dist v = some d ∧ d < inf)) ∧
        ∀ v u, at2 st.parent v = some (some u) →
          InBounds grid u ∧ Passable grid u ∧ Adjacent u v ∧
            ∃ dv du g, at2 st.dist v = some dv ∧ at2 st.dist u = some du ∧
              at2 grid v = some g ∧ dv = du + g := by
  obtain ⟨gs, hgs, hs0⟩ := hps
  obtain ⟨dist1, hin, _⟩ := initState_spec hs gs
  refine ⟨measure ⟨dist1, List.replicate grid.length (List.replicate (columnsOf grid) none),
    [⟨start, gs⟩]⟩ + 1, ?_⟩
  intro tie fuel hfuel
  obtain ⟨st, hloop⟩ := searchLoop_terminates tie hr start finish fuel 0 _
    (sound_init hs ⟨gs, hgs, hs0⟩ hin) (by omega)
  obtain ⟨D, ht⟩ := searchEvents_traced tie hr hn hfit hs hgs hs0 finish fuel hin
  rw [searchEvents_state tie grid _ _ finish fuel 0 _ st hloop] at ht
  have hkey : ∀ v u, at2 st.parent v = some (some u) →
      v ≠ start ∧ ∃ dv du, at2 st.dist v = some dv ∧ dv < inf ∧ at2 st.dist u = some du ∧
        dv = du + val grid v := by
    intro v u hvu
    have hvs : v ≠ start := by
      rintro rfl
      rw [ht.parentOk.1] at hvu
      exact absurd hvu (by simp)
    obtain ⟨dv, hdv, hlt⟩ := ht.parentOk.2 v u hvu
    obtain ⟨u2, du, hp2, _, hdu, he⟩ := ht.core.par v dv hdv hvs (by omega)
    rw [hvu] at hp2
    obtain rfl : u = u2 := Option.some.inj (Option.some.inj hp2)
    exact ⟨hvs, dv, du, hdv, hlt, hdu, he⟩
  refine ⟨st, loopEnd_of_ret tie fuel finish hgs hin hloop, ht.parentOk.1, ?_, ?_⟩
  · intro v _ hvs
    constructor
    · rintro ⟨u, hvu⟩
      obtain ⟨_, dv, _, hdv, hlt, _⟩ := hkey v u hvu
      exact ⟨dv, hdv, hlt⟩
    · rintro ⟨d, hd, hlt⟩
      obtain ⟨u, _, hp, _⟩ := ht.core.par v d hd hvs (by omega)
      exact ⟨u, hp⟩
  · intro v u hvu
    obtain ⟨hadj, hpu, g, hg, _⟩ := ht.core.sound.parent v u hvu
    obtain ⟨_, dv, du, hdv, _, hdu, he⟩ := hkey v u hvu
    obtain ⟨gu, hgu, _⟩ := hpu
    refine ⟨inBounds_of_at2_grid hr hgu, ⟨gu, hgu, ‹_›⟩, hadj, dv, du, g, hdv, hdu, hg, ?_⟩
    rw [he, val_of_at2 hg]

/-- Witness of C19, amended, on the grid of the scenario of the specification. -/
theorem C19_predecessors_witness :
    ∃ n, ∀ (tie : Nat → Nat) (fuel : Nat), n ≤ fuel →
      ∃ st, loopEnd tie fuel [[1, 1, 1], [0, 0, 1], [1, 1, 1]] ⟨0, 0⟩ ⟨2, 0⟩ = some st ∧
        at2 st.parent ⟨0, 0⟩ = some none ∧
        (∀ v, InBounds [[1, 1, 1], [0, 0, 1], [1, 1, 1]] v → v ≠ ⟨0, 0⟩ →
          ((∃ u, at2 st.parent v = some (some u)) ↔ ∃ d, at2 st.dist v = some d ∧ d < inf)) ∧
        ∀ v u, at2 st.parent v = some (some u) →
          InBounds [[1, 1, 1], [0, 0, 1], [1, 1, 1]] u ∧
            Passable [[1, 1, 1], [0, 0, 1], [1, 1, 1]] u ∧ Adjacent u v ∧
            ∃ dv du g, at2 st.dist v = some dv ∧ at2 st.dist u = some du ∧
              at2 [[1, 1, 1], [0, 0, 1], [1, 1, 1]] v = some g ∧ dv = du + g :=
  C19_predecessors [[1, 1, 1], [0, 0, 1], [1, 1, 1]] ⟨0, 0⟩ ⟨2, 0⟩ (by decide) (by decide)
    (by decide) (by decide) (by decide)

/-- Counterexample to C19: on the grid `[[2, 2^63 - 1], [3, 1]]` of non-negative Go
`int`s, from `(0,0)` to `(1,1)`, the loop ends after three pops with `(0,1)` recorded as
the predecessor of the start cell `(0,0)`. -/
theorem C19_counterexample :
    Rect [[2, 9223372036854775807], [3, 1]] ∧ NonNeg [[2, 9223372036854775807], [3, 1]] ∧
    ∀ (tie : Nat → Nat) (k : Nat),
      ∃ st, loopEnd tie (k + 3) [[2, 9223372036854775807], [3, 1]] ⟨0, 0⟩ ⟨1, 1⟩ = some st ∧
        at2 st.parent ⟨0, 0⟩ = some (some ⟨0, 1⟩) := by
  refine ⟨by decide, by decide, ?_⟩
  intro tie k
  have h : tieFreeRun (k + 3) [[2, 9223372036854775807], [3, 1]] ⟨0, 0⟩ ⟨1, 1⟩ = true := rfl
  rw [loopEnd_of_tieFreeRun tie (fun _ => 0) _ _ _ _ h]
  exact ⟨_, rfl, rfl⟩

/-! ## The number of pushes -/

theorem length_flatMap_directions {α : Type} (f : Point → Point → α) (l : List Point) :
    (l.flatMap fun b => directions.map (f b)).length = 4 * l.length := by
  induction l with
  | nil => rfl
  | cons b l ih =>
    rw [List.flatMap_cons, List.length_append, ih, List.length_map, List.length_cons]
    have : directions.length = 4 := rfl
    omega

/-- C18, amended. On a non-empty rectangular grid of non-negative integers on which no
addition of the search overflows (`Fits`), with an in-bounds nonzero `start` and any
`finish`, in every run the loop pushes each cell at most 4 times and never pushes `start`, whose only entry is
that of the initialisation; that entry and the pushes of the loop are at most
`4 * R * C` together, and the pops are at most as many. -/
theorem C18_push_bound (tie : Nat → Nat) (fuel : Nat) (grid : List (List Int))
    (start finish : Point) (hr : Rect grid) (hn : NonNeg grid) (hfit : Fits grid start)
    (hs : InBounds grid start) (hps : Passable grid start) :
    (∀ v, ((pushes (DijkstraEvents tie fuel grid start finish)).filter
      fun p => p.2 = v).length ≤ 4) ∧
    (∀ a, (a, start) ∉ pushes (DijkstraEvents tie fuel grid start finish)) ∧
    1 + (pushes (DijkstraEvents tie fuel grid start finish)).length ≤
      4 * (grid.length * columnsOf grid) ∧
    (pops (DijkstraEvents tie fuel grid start finish)).length ≤
      1 + (pushes (DijkstraEvents tie fuel grid start finish)).length := by
  obtain ⟨gs, hgs, hs0⟩ := hps
  obtain ⟨dist1, hin, _⟩ := initState_spec hs gs
  obtain ⟨D, ht⟩ := searchEvents_traced tie hr hn hfit hs hgs hs0 finish fuel hin
  rw [DijkstraEvents_eq tie fuel finish hgs hin]
  generalize (searchEvents tie grid grid.length (columnsOf grid) finish fuel 0 _).1 = ev at ht
  generalize (searchEvents tie grid grid.length (columnsOf grid) finish fuel 0 _).2 = st at ht
  have hfrom : ∀ a b, (a, b) ∈ pushes ev →
      (a, b) ∈ directions.map fun d => ((⟨b.x - d.x, b.y - d.y⟩ : Point), b) := by
    intro a b hab
    obtain ⟨_, ⟨d, hd, hb⟩, _, _⟩ := ht.pushesFrom a b hab
    refine List.mem_map.mpr ⟨d, hd, ?_⟩
    subst hb
    cases a
    simp
  refine ⟨?_, ?_, ?_, ?_⟩
  · intro v
    have hnd : ((pushes ev).filter fun p => p.2 = v).Nodup := ht.pushNodup.filter _
    have hsub : ∀ p ∈ (pushes ev).filter (fun p => p.2 = v),
        p ∈ directions.map fun d => ((⟨v.x - d.x, v.y - d.y⟩ : Point), v) := by
      rintro ⟨a, b⟩ hp
      obtain ⟨hp1, hp2⟩ := List.mem_filter.mp hp
      have hbv : b = v := by simpa using hp2
      subst hbv
      exact hfrom a b hp1
    have := (List.Nodup.subperm hnd hsub).length_le
    rw [List.length_map] at this
    exact this
  · intro a ha
    exact (ht.pushesFrom a start ha).2.2.1 rfl
  · have hsub : ∀ p ∈ pushes ev,
        p ∈ ((allCells grid.length (columnsOf grid)).erase start).flatMap fun b =>
          directions.map fun d => ((⟨b.x - d.x, b.y - d.y⟩ : Point), b) := by
      rintro ⟨a, b⟩ hp
      obtain ⟨_, _, hbs, h0, h1, h2, h3⟩ := ht.pushesFrom a b hp
      refine List.mem_flatMap.mpr ⟨b, ?_, hfrom a b hp⟩
      exact (List.mem_erase_of_ne hbs).mpr
        (mem_allCells h0 (by exact_mod_cast h1) h2 (by exact_mod_cast h3))
    have hlen := (List.Nodup.subperm ht.pushNodup hsub).length_le
    rw [length_flatMap_directions] at hlen
    have hmem : start ∈ allCells grid.length (columnsOf grid) :=
      mem_allCells hs.1 (by exact_mod_cast hs.2.1) hs.2.2.1 (by exact_mod_cast hs.2.2.2)
    rw [List.length_erase_of_mem hmem, length_allCells] at hlen
    have hpos : 0 < (allCells grid.length (columnsOf grid)).length :=
      List.length_pos_of_mem hmem
    rw [length_allCells] at hpos
    omega
  · have := ht.balance
    omega

/-- Witness of C18, amended, on the grid of the scenario of the specification. -/
theorem C18_push_bound_witness :
    1 + (pushes (DijkstraEvents (fun _ => 0) 9 [[1, 1, 1], [0, 0, 1], [1, 1, 1]] ⟨0, 0⟩
      ⟨2, 0⟩)).length ≤ 4 * (3 * 3) :=
  (C18_push_bound (fun _ => 0) 9 [[1, 1, 1], [0, 0, 1], [1, 1, 1]] ⟨0, 0⟩ ⟨2, 0⟩
    (by decide) (by decide) (by decide) (by decide) (by decide)).2.2.1

/-- Counterexample to C18: on the grid `[[2, 2^63 - 1], [3, 1]]` of non-negative Go
`int`s, from `(0,0)` to `(1,1)`, the round that relaxes the neighbours of `(0,1)` pushes
the start cell `(0,0)` a second time. -/
theorem C18_counterexample :
    Rect [[2, 9223372036854775807], [3, 1]] ∧ NonNeg [[2, 9223372036854775807], [3, 1]] ∧
    ∀ (tie : Nat → Nat) (k : Nat),
      ((⟨0, 1⟩, ⟨0, 0⟩) : Point × Point) ∈
        pushes (DijkstraEvents tie (k + 3) [[2, 9223372036854775807], [3, 1]] ⟨0, 0⟩ ⟨1, 1⟩) := by
  refine ⟨by decide, by decide, ?_⟩
  intro tie k
  have h : tieFreeRun (k + 3) [[2, 9223372036854775807], [3, 1]] ⟨0, 0⟩ ⟨1, 1⟩ = true := rfl
  rw [DijkstraEvents_of_tieFreeRun tie (fun _ => 0) _ _ _ _ h]
  have e : DijkstraEvents (fun _ => 0) (k + 3) [[2, 9223372036854775807], [3, 1]] ⟨0, 0⟩
      ⟨1, 1⟩ =
      [.pop ⟨⟨0, 0⟩, 2⟩, .push ⟨0, 0⟩ ⟨⟨1, 0⟩, 5⟩,
        .push ⟨0, 0⟩ ⟨⟨0, 1⟩, -9223372036854775807⟩,
        .pop ⟨⟨0, 1⟩, -9223372036854775807⟩,
        .push ⟨0, 1⟩ ⟨⟨1, 1⟩, -9223372036854775806⟩,
        .push ⟨0, 1⟩ ⟨⟨0, 0⟩, -9223372036854775805⟩,
        .pop ⟨⟨1, 1⟩, -9223372036854775806⟩] := rfl
  rw [e]
  decide

/-! ## Termination -/

/-- Arguments that fail one of the four validation tests give an error, whatever the
fuel. -/
theorem Dijkstra_invalid (tie : Nat → Nat) (fuel : Nat) {grid : List (List Int)}
    (hr : Rect grid) (start finish : Point)
    (h : ¬ (InBounds grid start ∧ InBounds grid finish ∧ Passable grid start ∧
      Passable grid finish)) :
    ∃ msg, Dijkstra tie fuel grid start finish = .error msg := by
  cases grid with
  | nil => exact absurd rfl hr.1
  | cons row0 rest =>
    unfold Dijkstra
    simp only
    by_cases hs : InBounds (row0 :: rest) start
    · rw [if_neg (fun h => (not_inBounds_iff row0 rest start).mp h hs)]
      by_cases hf : InBounds (row0 :: rest) finish
      · rw [if_neg (fun h => (not_inBounds_iff row0 rest finish).mp h hf)]
        obtain ⟨gs, hgs⟩ := at2_grid_of_inBounds hr hs
        obtain ⟨ge, hge⟩ := at2_grid_of_inBounds hr hf
        simp only [hgs, hge]
        by_cases hs0 : gs = 0
        · exact ⟨_, by rw [if_pos hs0]⟩
        · rw [if_neg hs0]
          by_cases hf0 : ge = 0
          · exact ⟨_, by rw [if_pos hf0]⟩
          · exact absurd ⟨hs, hf, ⟨gs, hgs, hs0⟩, ⟨ge, hge, hf0⟩⟩ h
      · exact ⟨_, by rw [if_pos ((not_inBounds_iff row0 rest finish).mpr hf)]⟩
    · exact ⟨_, by rw [if_pos ((not_inBounds_iff row0 rest start).mpr hs)]⟩

/-- In a state of a search without overflow the backward walk from a reached cell comes
to `start`: every step goes to a cell of smaller distance. -/
theorem walkBack_terminates {grid : List (List Int)} {start : Point} {gs : Int}
    {D : Point → Prop} {st : State} (hn : NonNeg grid) (hc : Core grid start gs D st) :
    ∀ (n : Nat) (cur : Point) (acc : List Point) (dc : Int), at2 st.dist cur = some dc →
      (cur = start ∨ (dc ≠ inf ∧ dc ≤ n)) →
      ∃ l, walkBack st.parent start (n + 1) cur acc = .ret l := by
  intro n
  induction n with
  | zero =>
    intro cur acc dc hdc h
    by_cases e : cur = start
    · exact ⟨acc ++ [cur], by unfold walkBack; simp only [e, if_true]⟩
    · rcases h with h | ⟨h1, h2⟩
      · exact absurd h e
      · obtain ⟨u, du, hp, _, hdu, he⟩ := hc.par cur dc hdc e h1
        obtain ⟨_, _, g, hg, hg0⟩ := hc.sound.parent cur u hp
        have hv := val_of_at2 hg
        have hv0 := val_nonneg hn cur
        have := (hc.dbound u du hdu).1
        simp only [Nat.cast_zero] at h2
        omega
  | succ n ih =>
    intro cur acc dc hdc h
    by_cases e : cur = start
    · exact ⟨acc ++ [cur], by unfold walkBack; simp only [e, if_true]⟩
    · rcases h with h | ⟨h1, h2⟩
      · exact absurd h e
      · obtain ⟨u, du, hp, _, hdu, he⟩ := hc.par cur dc hdc e h1
        obtain ⟨_, _, g, hg, hg0⟩ := hc.sound.parent cur u hp
        have hv := val_of_at2 hg
        have hv0 := val_nonneg hn cur
        have hb := (hc.dbound cur dc hdc).2 e
        obtain ⟨l, hl⟩ := ih u (acc ++ [cur]) du hdu (Or.inr ⟨by omega, by push_cast at h2; omega⟩)
        refine ⟨l, ?_⟩
        rw [← hl]
        conv_lhs => unfold walkBack
        simp only [e, if_false, hp]

/-- C16, amended. For every non-empty rectangular grid of non-negative integers on which
no addition of the search overflows (`Fits`) and every start and end, `Dijkstra`
terminates: there is an amount of fuel from which on, in every tie-breaking order, the
call returns a path or an error, so the search loop has ended and the backward walk has
come to `start`. -/
theorem C16_terminates (grid : List (List Int)) (start finish : Point) (hr : Rect grid)
    (hn : NonNeg grid) (hfit : Fits grid start) :
    ∃ n, ∀ (tie : Nat → Nat) (fuel : Nat), n ≤ fuel →
      (∃ p, Dijkstra tie fuel grid start finish = .path p) ∨
        ∃ msg, Dijkstra tie fuel grid start finish = .error msg := by
  by_cases hv : InBounds grid start ∧ InBounds grid finish ∧ Passable grid start ∧
      Passable grid finish
  · obtain ⟨hs, hf, ⟨gs, hgs, hs0⟩, ⟨ge, hge, hf0⟩⟩ := hv
    obtain ⟨dist1, hin, _⟩ := initState_spec hs gs
    refine ⟨measure ⟨dist1, List.replicate grid.length (List.replicate (columnsOf grid) none),
      [⟨start, gs⟩]⟩ + 1048578, ?_⟩
    intro tie fuel hfuel
    obtain ⟨st, hloop⟩ := searchLoop_terminates tie hr start finish fuel 0 _
      (sound_init hs ⟨gs, hgs, hs0⟩ hin) (by omega)
    obtain ⟨⟨D, hc⟩, _⟩ := searchLoop_final tie hr hn hfit hgs hf fuel 0 _ st
      (inv_init hn hs hgs hs0 hin) hloop
    rw [Dijkstra_of_valid tie fuel hs hf hgs hs0 hge hf0]
    unfold search
    simp only [hin, hloop]
    unfold reconstruct
    obtain ⟨de, hde⟩ := Option.isSome_iff_exists.mp (hc.sound.shape finish hf).1
    simp only [hde]
    by_cases hinf : de = inf
    · exact Or.inr ⟨errNoPath, by rw [if_pos hinf]⟩
    · rw [if_neg hinf]
      have hreach : finish = start ∨ (de ≠ inf ∧ de ≤ (1048576 : Nat)) := by
        by_cases e : finish = start
        · exact Or.inl e
        · have := (hc.dbound finish de hde).2 e
          have hi : inf = 1048576 := rfl
          exact Or.inr ⟨hinf, by push_cast; omega⟩
      obtain ⟨l, hl⟩ := walkBack_terminates hn hc 1048576 finish [] de hde hreach
      have hmono := walkBack_mono st.parent start (fuel - 1048577) (1048576 + 1) finish []
        (by rw [hl]; simp)
      have hfe : 1048576 + 1 + (fuel - 1048577) = fuel := by omega
      rw [hfe, hl] at hmono
      exact Or.inl ⟨reversePath l, by rw [hmono]⟩
  · exact ⟨0, fun tie fuel _ => Or.inr (Dijkstra_invalid tie fuel hr start finish hv)⟩

/-- Witness of C16, amended, on the grid of the scenario of the specification. -/
theorem C16_terminates_witness :
    ∃ n, ∀ (tie : Nat → Nat) (fuel : Nat), n ≤ fuel →
      (∃ p, Dijkstra tie fuel [[1, 1, 1], [0, 0, 1], [1, 1, 1]] ⟨0, 0⟩ ⟨2, 0⟩ = .path p) ∨
        ∃ msg, Dijkstra tie fuel [[1, 1, 1], [0, 0, 1], [1, 1, 1]] ⟨0, 0⟩ ⟨2, 0⟩ =
          .error msg :=
  C16_terminates [[1, 1, 1], [0, 0, 1], [1, 1, 1]] ⟨0, 0⟩ ⟨2, 0⟩ (by decide) (by decide)
    (by decide)

theorem walkBack_cycle (fuel : Nat) :
    ∀ acc : List Point,
      walkBack [[none, some ⟨0, 2⟩, some ⟨0, 1⟩, some ⟨0, 2⟩]] ⟨0, 0⟩ fuel ⟨0, 1⟩ acc =
        .outOfFuel ∧
      walkBack [[none, some ⟨0, 2⟩, some ⟨0, 1⟩, some ⟨0, 2⟩]] ⟨0, 0⟩ fuel ⟨0, 2⟩ acc =
        .outOfFuel := by
  induction fuel with
  | zero => intro acc; exact ⟨rfl, rfl⟩
  | succ fuel ih =>
    intro acc
    have e1 : walkBack [[none, some ⟨0, 2⟩, some ⟨0, 1⟩, some ⟨0, 2⟩]] ⟨0, 0⟩ (fuel + 1)
        ⟨0, 1⟩ acc =
        walkBack [[none, some ⟨0, 2⟩, some ⟨0, 1⟩, some ⟨0, 2⟩]] ⟨0, 0⟩ fuel ⟨0, 2⟩
          (acc ++ [⟨0, 1⟩]) := rfl
    have e2 : walkBack [[none, some ⟨0, 2⟩, some ⟨0, 1⟩, some ⟨0, 2⟩]] ⟨0, 0⟩ (fuel + 1)
        ⟨0, 2⟩ acc =
        walkBack [[none, some ⟨0, 2⟩, some ⟨0, 1⟩, some ⟨0, 2⟩]] ⟨0, 0⟩ fuel ⟨0, 1⟩
          (acc ++ [⟨0, 2⟩]) := rfl
    rw [e1, e2]
    exact ⟨(ih _).2, (ih _).1⟩

/-- Counterexample to C16: on the 1×4 grid `[[1, 2, 2^63 - 1, 1]]` of non-negative Go
`int`s, from `(0,0)` to `(0,3)`, the search loop ends after four pops, with `(0,2)` the
predecessor of `(0,1)` and `(0,1)` the predecessor of `(0,2)`; the backward walk from
`(0,3)` then goes round these two cells and never comes to `start`: whatever the fuel,
the call does not return. -/
theorem C16_counterexample :
    Rect [[1, 2, 9223372036854775807, 1]] ∧ NonNeg [[1, 2, 9223372036854775807, 1]] ∧
    (∀ (tie : Nat → Nat) (k : Nat),
      ∃ st, loopEnd tie (k + 4) [[1, 2, 9223372036854775807, 1]] ⟨0, 0⟩ ⟨0, 3⟩ = some st ∧
        at2 st.parent ⟨0, 1⟩ = some (some ⟨0, 2⟩) ∧
        at2 st.parent ⟨0, 2⟩ = some (some ⟨0, 1⟩)) ∧
    ∀ (tie : Nat → Nat) (fuel : Nat),
      Dijkstra tie fuel [[1, 2, 9223372036854775807, 1]] ⟨0, 0⟩ ⟨0, 3⟩ = .outOfFuel := by
  refine ⟨by decide, by decide, ?_, ?_⟩
  · intro tie k
    have h : tieFreeRun (k + 4) [[1, 2, 9223372036854775807, 1]] ⟨0, 0⟩ ⟨0, 3⟩ = true := rfl
    rw [loopEnd_of_tieFreeRun tie (fun _ => 0) _ _ _ _ h]
    exact ⟨_, rfl, rfl, rfl⟩
  · intro tie fuel
    have hsmall : ∀ n, n < 4 →
        Dijkstra tie n [[1, 2, 9223372036854775807, 1]] ⟨0, 0⟩ ⟨0, 3⟩ = .outOfFuel := by
      intro n hn
      have h : tieFreeRun n [[1, 2, 9223372036854775807, 1]] ⟨0, 0⟩ ⟨0, 3⟩ = true := by
        interval_cases n <;> rfl
      rw [Dijkstra_of_tieFreeRun tie (fun _ => 0) _ _ _ _ h]
      interval_cases n <;> rfl
    by_cases hlt : fuel < 4
    · exact hsmall fuel hlt
    · obtain ⟨k, rfl⟩ : ∃ k, fuel = k + 4 := ⟨fuel - 4, by omega⟩
      have h : tieFreeRun (k + 4) [[1, 2, 9223372036854775807, 1]] ⟨0, 0⟩ ⟨0, 3⟩ = true := rfl
      rw [Dijkstra_of_tieFreeRun tie (fun _ => 0) _ _ _ _ h]
      have e : Dijkstra (fun _ => 0) (k + 4) [[1, 2, 9223372036854775807, 1]] ⟨0, 0⟩ ⟨0, 3⟩ =
          match walkBack [[none, some ⟨0, 2⟩, some ⟨0, 1⟩, some ⟨0, 2⟩]] ⟨0, 0⟩ (k + 4)
            ⟨0, 3⟩ [] with
          | .panic => .panic
          | .outOfFuel => .outOfFuel
          | .ret path => .path (reversePath path) := rfl
      rw [e]
      have hw : walkBack [[none, some ⟨0, 2⟩, some ⟨0, 1⟩, some ⟨0, 2⟩]] ⟨0, 0⟩ (k + 4)
          ⟨0, 3⟩ [] = .outOfFuel := (walkBack_cycle (k + 3) [⟨0, 3⟩]).2
      rw [hw]

/-! ## Reading the input -/

theorem set_at_length {α : Type} (pre : List α) (x v : α) (post : List α) :
    (pre ++ x :: post).set pre.length v = pre ++ v :: post := by
  induction pre with
  | nil => rfl
  | cons a pre ih => simp [ih]

theorem getElem?_at_length {α : Type} (pre : List α) (x : α) (post : List α) :
    (pre ++ x :: post)[pre.length]? = some x := by
  induction pre with
  | nil => simp
  | cons a pre ih => simpa using ih

theorem index_append_cons {α : Type} (pre : List α) (x : α) (post : List α) :
    index (pre ++ x :: post) (pre.length : Int) = some x := by
  unfold index
  have h : ¬ ((pre.length : Int) < 0) := by omega
  rw [if_neg h, Int.toNat_ofNat, getElem?_at_length]

theorem store_append_cons {α : Type} (pre : List α) (x v : α) (post : List α) :
    store (pre ++ x :: post) (pre.length : Int) v = some (pre ++ v :: post) := by
  unfold store
  have h : 0 ≤ (pre.length : Int) ∧ (pre.length : Int).toNat < (pre ++ x :: post).length := by
    rw [Int.toNat_ofNat, List.length_append, List.length_cons]
    omega
  rw [if_pos h, Int.toNat_ofNat, set_at_length]

theorem store2_append_cons {α : Type} (done : List (List α)) (pre : List α) (x v : α)
    (post : List α) (rest : List (List α)) :
    store2 (done ++ (pre ++ x :: post) :: rest) ⟨done.length, pre.length⟩ v =
      some (done ++ (pre ++ v :: post) :: rest) := by
  unfold store2
  simp only [index_append_cons, Option.some_bind, store_append_cons]

theorem fillRow_spec (done : List (List Int)) (rest : List (List Int)) :
    ∀ (toks : List String) (pre post : List Int), post.length = toks.length →
      (allSome (toks.map atoi) = none →
        fillRow done.length toks pre.length (done ++ (pre ++ post) :: rest) = .ret none) ∧
      ∀ vals, allSome (toks.map atoi) = some vals →
        fillRow done.length toks pre.length (done ++ (pre ++ post) :: rest) =
          .ret (some (done ++ (pre ++ vals) :: rest)) := by
  intro toks
  induction toks with
  | nil =>
    intro pre post hlen
    have hp : post = [] := List.length_eq_zero.mp hlen
    subst hp
    refine ⟨fun h => by simp [allSome] at h, fun vals h => ?_⟩
    simp only [List.map_nil, allSome, Option.some.injEq] at h
    subst h
    rfl
  | cons t ts ih =>
    intro pre post hlen
    cases post with
    | nil => simp at hlen
    | cons x post =>
      have hlen2 : post.length = ts.length := by simpa using hlen
      unfold fillRow
      cases ht : atoi t with
      | none =>
        refine ⟨fun _ => rfl, fun vals h => ?_⟩
        simp [allSome, ht] at h
      | some num =>
        simp only [store2_append_cons]
        have e1 : pre ++ num :: post = (pre ++ [num]) ++ post := by simp
        have e2 : ((pre.length : Int) + 1) = ((pre ++ [num]).length : Int) := by simp
        rw [e1, e2]
        obtain ⟨h1, h2⟩ := ih (pre ++ [num]) post hlen2
        refine ⟨fun h => h1 ?_, fun vals h => ?_⟩
        · simp only [List.map_cons, ht, allSome, Option.map_eq_none'] at h
          exact h
        · simp only [List.map_cons, ht, allSome, Option.map_eq_some'] at h
          obtain ⟨l, hl, rfl⟩ := h
          rw [h2 l hl]
          simp

theorem lineAt_zero (input : List String) : lineAt input 0 = (scanText input).1 := by
  cases input <;> rfl

theorem lineAt_succ (input : List String) (k : Nat) :
    lineAt input (k + 1) = lineAt (scanText input).2 k := by
  cases input <;> rfl

theorem scanText_drop (input : List String) (n : Nat) :
    (scanText input).2.drop n = input.drop (n + 1) := by
  cases input <;> simp [scanText]

theorem lineAt_drop (input : List String) (n k : Nat) :
    lineAt (input.drop n) k = lineAt input (n + k) := by
  unfold lineAt
  simp [List.getD_eq_getElem?_getD, List.getElem?_drop]

theorem allSome_length {α : Type} :
    ∀ (l : List (Option α)) (g : List α), allSome l = some g → g.length = l.length
  | [], g, h => by
    simp only [allSome, Option.some.injEq] at h
    subst h
    rfl
  | none :: _, g, h => by simp [allSome] at h
  | some a :: rest, g, h => by
    simp only [allSome, Option.map_eq_some'] at h
    obtain ⟨l, hl, rfl⟩ := h
    simp [allSome_length rest l hl]

theorem allSome_mem {α : Type} :
    ∀ (l : List (Option α)) (g : List α), allSome l = some g → ∀ a ∈ g, some a ∈ l
  | [], g, h => by
    simp only [allSome, Option.some.injEq] at h
    subst h
    simp
  | none :: _, g, h => by simp [allSome] at h
  | some a :: rest, g, h => by
    simp only [allSome, Option.map_eq_some'] at h
    obtain ⟨l, hl, rfl⟩ := h
    intro b hb
    rcases List.mem_cons.mp hb with rfl | hb
    · exact List.mem_cons_self _ _
    · exact List.mem_cons_of_mem _ (allSome_mem rest l hl b hb)

theorem fieldsLoop_length :
    ∀ (cs : List Char) (tok : Option (List Char)), (fieldsLoop cs tok).length ≤ cs.length + 1
  | [], none => by simp [fieldsLoop]
  | [], some _ => by simp [fieldsLoop]
  | c :: cs, none => by
    unfold fieldsLoop
    split
    · have := fieldsLoop_length cs none
      simp only [List.length_cons]
      omega
    · have := fieldsLoop_length cs (some [c])
      simp only [List.length_cons]
      omega
  | c :: cs, some tok => by
    unfold fieldsLoop
    split
    · have := fieldsLoop_length cs none
      simp only [List.length_cons]
      omega
    · have := fieldsLoop_length cs (some (tok ++ [c]))
      simp only [List.length_cons]
      omega

theorem length_le_utf8ByteSize (s : String) : s.length ≤ s.utf8ByteSize := by
  have key : ∀ cs : List Char, cs.length ≤ String.utf8ByteSize.go cs := by
    intro cs
    induction cs with
    | nil => simp [String.utf8ByteSize.go]
    | cons c cs ih =>
      have := Char.utf8Size_pos c
      simp only [String.utf8ByteSize.go, List.length_cons]
      omega
  cases s with
  | mk cs => exact key cs

/-- A line has at most one field more than it has bytes. -/
theorem fields_length_le (s : String) : (fields s).length ≤ s.utf8ByteSize + 1 := by
  unfold fields
  rw [List.length_map]
  have h1 := fieldsLoop_length s.toList none
  have h2 := length_le_utf8ByteSize s
  have h3 : s.toList.length = s.length := rfl
  omega

theorem scannable_scanText {input : List String} (h : Scannable input) :
    (scanText input).1.utf8ByteSize + 2 ≤ maxScanTokenSize ∧ Scannable (scanText input).2 := by
  cases input with
  | nil => exact ⟨by decide, fun _ hl => absurd hl (List.not_mem_nil _)⟩
  | cons line rest =>
    exact ⟨h line (List.mem_cons_self _ _), fun l hl => h l (List.mem_cons_of_mem _ hl)⟩

theorem readRows_spec (columns : Int) :
    ∀ (n : Nat) (done : List (List Int)) (input : List String), Scannable input →
      (allSome ((List.range n).map fun k => rowSpec atoi columns (fields (lineAt input k))) =
          none →
        ∃ msg, readRows columns n done.length input (done ++ List.replicate n []) =
          .ret (.error msg)) ∧
      ∀ g, allSome ((List.range n).map fun k =>
          rowSpec atoi columns (fields (lineAt input k))) = some g →
        readRows columns n done.length input (done ++ List.replicate n []) =
          .ret (.ok (done ++ g, input.drop n)) := by
  intro n
  induction n with
  | zero =>
    intro done input _
    refine ⟨fun h => by simp [allSome] at h, fun g h => ?_⟩
    simp only [List.range_zero, List.map_nil, allSome, Option.some.injEq] at h
    subst h
    simp [readRows]
  | succ n ih =>
    intro done input hscan
    obtain ⟨hsize, hscan2⟩ := scannable_scanText hscan
    have hspec : allSome ((List.range (n + 1)).map fun k =>
        rowSpec atoi columns (fields (lineAt input k))) =
        allSome (rowSpec atoi columns (fields (scanText input).1) ::
          (List.range n).map fun k =>
            rowSpec atoi columns (fields (lineAt (scanText input).2 k))) := by
      rw [List.range_succ_eq_map, List.map_cons, List.map_map, lineAt_zero]
      congr 2
      apply List.map_congr_left
      intro k _
      simp only [Function.comp, Nat.succ_eq_add_one, lineAt_succ]
    rw [hspec]
    unfold readRows
    simp only
    by_cases hlen : ((fields (scanText input).1).length : Int) = columns
    · have hrow : rowSpec atoi columns (fields (scanText input).1) =
          allSome ((fields (scanText input).1).map atoi) := by
        unfold rowSpec
        rw [if_pos hlen]
      have hcol : ¬ (columns < 0 ∨ 8 * columns > maxAlloc) := by
        have h1 := fields_length_le (scanText input).1
        have h2 : maxScanTokenSize = 65536 := rfl
        have h3 : maxAlloc = 281474976710656 := rfl
        omega
      have hmk : makeSlice 8 columns (0 : Int) = some (List.replicate columns.toNat 0) := by
        unfold makeSlice
        rw [if_neg hcol]
      have hst : store (done ++ List.replicate (n + 1) []) (done.length : Int)
          (List.replicate columns.toNat (0 : Int)) =
          some (done ++ ([] ++ List.replicate columns.toNat (0 : Int)) ::
            List.replicate n []) := by
        rw [List.replicate_succ, store_append_cons]
        rfl
      rw [if_neg (not_not.mpr hlen), hmk]
      simp only [hst]
      have hl : (List.replicate columns.toNat (0 : Int)).length =
          (fields (scanText input).1).length := by
        rw [List.length_replicate]
        omega
      obtain ⟨f1, f2⟩ := fillRow_spec done (List.replicate n [])
        (fields (scanText input).1) [] (List.replicate columns.toNat 0) hl
      rw [hrow]
      cases hall : allSome ((fields (scanText input).1).map atoi) with
      | none =>
        have := f1 hall
        simp only [List.length_nil, Nat.cast_zero] at this
        rw [this]
        exact ⟨fun _ => ⟨_, rfl⟩, fun g h => by simp [allSome] at h⟩
      | some vals =>
        have := f2 vals hall
        simp only [List.length_nil, Nat.cast_zero, List.nil_append] at this
        simp only [List.nil_append]
        rw [this]
        simp only
        have e1 : done ++ vals :: List.replicate n [] =
            (done ++ [vals]) ++ List.replicate n [] := by simp
        have e2 : ((done.length : Int) + 1) = ((done ++ [vals]).length : Int) := by simp
        rw [e1, e2]
        obtain ⟨h1, h2⟩ := ih (done ++ [vals]) (scanText input).2 hscan2
        refine ⟨fun h => h1 ?_, fun g h => ?_⟩
        · simp only [allSome, Option.map_eq_none'] at h
          exact h
        · simp only [allSome, Option.map_eq_some'] at h
          obtain ⟨l, hl, rfl⟩ := h
          rw [h2 l hl, scanText_drop]
          simp
    · rw [if_pos hlen]
      refine ⟨fun _ => ⟨_, rfl⟩, fun g h => ?_⟩
      unfold rowSpec at h
      rw [if_neg hlen] at h
      simp [allSome] at h

theorem readCoords_spec (maze : List (List Int)) (input : List String) :
    (coordsSpec atoi (fields (scanText input).1) = none →
      ∃ msg, readCoords maze input = .error msg) ∧
    ∀ start finish, coordsSpec atoi (fields (scanText input).1) = some (start, finish) →
      readCoords maze input = .ok (maze, start, finish) := by
  unfold readCoords coordsSpec
  rcases fields (scanText input).1 with _ | ⟨c0, _ | ⟨c1, _ | ⟨c2, _ | ⟨c3, _ | ⟨c4, t⟩⟩⟩⟩⟩
  · exact ⟨fun _ => ⟨_, rfl⟩, fun _ _ h => by simp at h⟩
  · exact ⟨fun _ => ⟨_, rfl⟩, fun _ _ h => by simp at h⟩
  · exact ⟨fun _ => ⟨_, rfl⟩, fun _ _ h => by simp at h⟩
  · exact ⟨fun _ => ⟨_, rfl⟩, fun _ _ h => by simp at h⟩
  · dsimp only
    cases h0 : atoi c0 with
    | none => exact ⟨fun _ => ⟨_, rfl⟩, fun _ _ h => by simp [allSome] at h⟩
    | some x0 =>
      cases h1 : atoi c1 with
      | none => exact ⟨fun _ => ⟨_, rfl⟩, fun _ _ h => by simp [allSome] at h⟩
      | some x1 =>
        cases h2 : atoi c2 with
        | none => exact ⟨fun _ => ⟨_, rfl⟩, fun _ _ h => by simp [allSome] at h⟩
        | some x2 =>
          cases h3 : atoi c3 with
          | none => exact ⟨fun _ => ⟨_, rfl⟩, fun _ _ h => by simp [allSome] at h⟩
          | some x3 =>
            refine ⟨fun h => by simp [allSome] at h, fun start finish h => ?_⟩
            simp only [allSome, Option.map_some', Option.some.injEq, Prod.mk.injEq] at h
            obtain ⟨rfl, rfl⟩ := h
            rfl
  · exact ⟨fun _ => ⟨_, rfl⟩, fun _ _ h => by simp at h⟩

theorem rowSpec_length {parse : String → Option Int} {columns : Int} {tokens : List String}
    {row : List Int} (h : rowSpec parse columns tokens = some row) :
    (row.length : Int) = columns := by
  unfold rowSpec at h
  by_cases hlen : (tokens.length : Int) = columns
  · rw [if_pos hlen] at h
    rw [allSome_length _ _ h, List.length_map, hlen]
  · rw [if_neg hlen] at h
    exact absurd h (by simp)

/-- C13, amended. For every sequence of input lines each of which fits the buffer of
the scanner (`Scannable`) and whose first line declares a number of rows for which
`make([][]int, rows)` does not panic (`0 ≤ rows` and `24 * rows ≤ maxAlloc`),
`readInput` returns an error and no grid when the first line does not have exactly 2
tokens, when one of the `rows` grid lines does not have exactly `columns` tokens, when
the line of the coordinates does not have exactly 4 tokens, or when one of these tokens
is not a decimal integer that a Go `int` can hold (`atoi`); otherwise it returns no
error, a grid of exactly `rows` rows of `columns` values equal to the parsed tokens in
order, and the start and the end of the line of the coordinates. -/
theorem C13_readInput_refines (input : List String) (hscan : Scannable input)
    (hrows : ∀ s0 s1 rows, fields (lineAt input 0) = [s0, s1] → atoi s0 = some rows →
      0 ≤ rows ∧ 24 * rows ≤ maxAlloc) :
    (readInputSpec atoi input = none → ∃ msg, readInput input = .ret (.error msg)) ∧
    ∀ grid start finish, readInputSpec atoi input = some (grid, start, finish) →
      readInput input = .ret (.ok (grid, start, finish)) ∧
      ∃ s0 s1 rows columns, fields (lineAt input 0) = [s0, s1] ∧ atoi s0 = some rows ∧
        atoi s1 = some columns ∧ (grid.length : Int) = rows ∧
        ∀ row ∈ grid, (row.length : Int) = columns := by
  unfold readInput readInputSpec
  rw [lineAt_zero] at hrows
  rw [lineAt_zero]
  rcases hf : fields (scanText input).1 with _ | ⟨s0, _ | ⟨s1, _ | ⟨s2, t⟩⟩⟩
  · exact ⟨fun _ => ⟨_, rfl⟩, fun _ _ _ h => by simp at h⟩
  · exact ⟨fun _ => ⟨_, rfl⟩, fun _ _ _ h => by simp at h⟩
  · dsimp only
    cases h0 : atoi s0 with
    | none => exact ⟨fun _ => ⟨_, rfl⟩, fun _ _ _ h => by simp [allSome, h0] at h⟩
    | some rows =>
      cases h1 : atoi s1 with
      | none => exact ⟨fun _ => ⟨_, rfl⟩, fun _ _ _ h => by simp [allSome, h0, h1] at h⟩
      | some columns =>
        obtain ⟨hr0, hr1⟩ := hrows s0 s1 rows hf h0
        have hmk : makeSlice 24 rows ([] : List Int) =
            some (List.replicate rows.toNat []) := by
          unfold makeSlice
          rw [if_neg (by omega)]
        obtain ⟨r1, r2⟩ := readRows_spec columns rows.toNat [] (scanText input).2
          (scannable_scanText hscan).2
        simp only [List.length_nil, Nat.cast_zero, List.nil_append] at r1 r2
        have hline : lineAt (scanText input).2 rows.toNat =
            (scanText ((scanText input).2.drop rows.toNat)).1 := by
          rw [← lineAt_zero, lineAt_drop, Nat.add_zero]
        simp only [allSome, Option.map_some', hmk, lineAt_succ, hline]
        cases hg : allSome ((List.range rows.toNat).map fun k =>
            rowSpec atoi columns (fields (lineAt (scanText input).2 k))) with
        | none =>
          obtain ⟨msg, hmsg⟩ := r1 hg
          rw [hmsg]
          exact ⟨fun _ => ⟨_, rfl⟩, fun _ _ _ h => by simp at h⟩
        | some g =>
          rw [r2 g hg]
          simp only
          obtain ⟨c1, c2⟩ := readCoords_spec g ((scanText input).2.drop rows.toNat)
          cases hc : coordsSpec atoi
              (fields (scanText ((scanText input).2.drop rows.toNat)).1) with
          | none =>
            obtain ⟨msg, hmsg⟩ := c1 hc
            rw [hmsg]
            exact ⟨fun _ => ⟨_, rfl⟩, fun _ _ _ h => by simp at h⟩
          | some sf =>
            obtain ⟨start, finish⟩ := sf
            rw [c2 start finish hc]
            refine ⟨fun h => by simp at h, fun grid st fi h => ?_⟩
            simp only [Option.some.injEq, Prod.mk.injEq] at h
            obtain ⟨rfl, rfl, rfl⟩ := h
            refine ⟨rfl, s0, s1, rows, columns, rfl, h0, h1, ?_, ?_⟩
            · rw [allSome_length _ _ hg, List.length_map, List.length_range]
              omega
            · intro row hrow
              have := allSome_mem _ _ hg row hrow
              obtain ⟨k, _, hk⟩ := List.mem_map.mp this
              exact rowSpec_length hk
  · exact ⟨fun _ => ⟨_, rfl⟩, fun _ _ _ h => by simp at h⟩

/-- Witness of C13, amended: the input of the scenario of the specification. -/
theorem C13_readInput_refines_witness :
    readInput ["3 3", "1 1 1", "0 0 1", "1 1 1", "0 0 2 0"] =
      .ret (.ok ([[1, 1, 1], [0, 0, 1], [1, 1, 1]], ⟨0, 0⟩, ⟨2, 0⟩)) :=
  ((C13_readInput_refines ["3 3", "1 1 1", "0 0 1", "1 1 1", "0 0 2 0"] (by decide)
    (by
      intro s0 s1 rows h1 h2
      have e : fields (lineAt ["3 3", "1 1 1", "0 0 1", "1 1 1", "0 0 2 0"] 0) =
          ["3", "3"] := rfl
      rw [e] at h1
      have hs : s0 = "3" := by
        simp only [List.cons.injEq] at h1
        exact h1.1.symm
      subst hs
      have e3 : atoi "3" = some 3 := rfl
      rw [e3] at h2
      obtain rfl := Option.some.inj h2
      decide)).2 [[1, 1, 1], [0, 0, 1], [1, 1, 1]] ⟨0, 0⟩ ⟨2, 0⟩ rfl).1

/-- Counterexample to C13: the first line `-1 1` has 2 tokens, both decimal integers,
and the line of the coordinates has 4, yet `readInput` returns neither an error nor a
grid: `make([][]int, -1)` panics, and so does `make([][]int, 4611686018427387904)`.
And the token `9223372036854775808` is a decimal integer, so that the specification
gives a grid, yet `readInput` returns an error: `strconv.Atoi` refuses a value that a
Go `int` cannot hold. -/
theorem C13_counterexample :
    readInput ["-1 1", "0 0 0 0"] = .panic ∧
    readInput ["4611686018427387904 1", "0 0 0 0"] = .panic ∧
    readInputSpec decimal ["1 1", "9223372036854775808", "0 0 0 0"] =
      some ([[9223372036854775808]], ⟨0, 0⟩, ⟨0, 0⟩) ∧
    readInput ["1 1", "9223372036854775808", "0 0 0 0"] = .ret (.error errValue) :=
  ⟨rfl, rfl, rfl, rfl⟩

/-- C12, the failing input: `readInput` checks neither `rows ≥ 1` nor `columns ≥ 1`. On
the lines `0 0` and `0 0 0 0` it returns the empty grid and no error, and `main` hands
it to `Dijkstra`, which panics at `len(grid[0])`; on the lines `1 0`, an empty line and
`0 0 0 0` it returns a grid of one row of zero length and no error. -/
theorem C12_empty_grid_accepted :
    readInput ["0 0", "0 0 0 0"] = .ret (.ok ([], ⟨0, 0⟩, ⟨0, 0⟩)) ∧
    (∀ (tie : Nat → Nat) (fuel : Nat), Dijkstra tie fuel [] ⟨0, 0⟩ ⟨0, 0⟩ = .panic) ∧
    (∀ (tie : Nat → Nat) (fuel : Nat), main tie fuel ["0 0", "0 0 0 0"] = .panic) ∧
    readInput ["1 0", "", "0 0 0 0"] = .ret (.ok ([[]], ⟨0, 0⟩, ⟨0, 0⟩)) :=
  ⟨rfl, fun _ _ => rfl, fun _ _ => rfl, rfl⟩

/-! ## The output of `main` -/

theorem join_cons (a : String) (l : List String) :
    String.join (a :: l) = a ++ String.join l := by
  have key : ∀ (l : List String) (acc : String),
      l.foldl (fun r s => r ++ s) acc = acc ++ l.foldl (fun r s => r ++ s) "" := by
    intro l
    induction l with
    | nil => intro acc; simp
    | cons b l ih =>
      intro acc
      rw [List.foldl_cons, List.foldl_cons, ih (acc ++ b), ih ("" ++ b), String.empty_append,
        String.append_assoc]
  unfold String.join
  rw [List.foldl_cons, key l ("" ++ a), String.empty_append]

theorem printPath_eq (path : List Point) :
    ∀ out : String, printPath path out =
      out ++ String.join (path.map fun c => toString c.x ++ " " ++ toString c.y ++ "\n") := by
  induction path with
  | nil => intro out; simp [printPath, String.join]
  | cons c rest ih =>
    intro out
    rw [printPath, ih, List.map_cons, join_cons, String.append_assoc]

/-- C14. With `main` a function from the lines of the input to the standard output and
the exit status: when `Dijkstra` returns a path, the output is one line `row column` per
cell of the path, in order, then the line `.`, and the status is 0; when `Dijkstra`
returns the error "нет пути до финиша", the output is the one line "Пути не существует"
and the status is 0; when `readInput` returns an error, or `Dijkstra` one of the four
validation errors, nothing is written to the standard output and the status is not 0. -/
theorem C14_main_output (tie : Nat → Nat) (fuel : Nat) (input : List String) :
    (∀ grid start finish path, readInput input = .ret (.ok (grid, start, finish)) →
      Dijkstra tie fuel grid start finish = .path path →
      main tie fuel input = .ret ⟨String.join (path.map fun c =>
        toString c.x ++ " " ++ toString c.y ++ "\n") ++ ".\n", "", 0⟩) ∧
    (∀ grid start finish, readInput input = .ret (.ok (grid, start, finish)) →
      Dijkstra tie fuel grid start finish = .error errNoPath →
      main tie fuel input = .ret ⟨"Пути не существует\n", "", 0⟩) ∧
    (∀ msg, readInput input = .ret (.error msg) →
      ∃ run, main tie fuel input = .ret run ∧ run.stdout = "" ∧ run.status ≠ 0) ∧
    ∀ grid start finish msg, readInput input = .ret (.ok (grid, start, finish)) →
      Dijkstra tie fuel grid start finish = .error msg →
      msg ∈ [errStartOutside, errEndOutside, errStartWall, errEndWall] →
      ∃ run, main tie fuel input = .ret run ∧ run.stdout = "" ∧ run.status ≠ 0 := by
  refine ⟨?_, ?_, ?_, ?_⟩
  · intro grid start finish path hin hd
    unfold main
    simp only [hin, hd, printPath_eq]
    simp
  · intro grid start finish hin hd
    unfold main
    simp only [hin, hd]
    rfl
  · intro msg hin
    unfold main
    simp only [hin]
    exact ⟨_, rfl, rfl, Nat.succ_ne_zero 0⟩
  · intro grid start finish msg hin hd hmsg
    have hne : msg ≠ "нет пути до финиша" := by
      intro e
      subst e
      revert hmsg
      decide
    unfold main
    simp only [hin, hd, if_neg hne]
    exact ⟨_, rfl, rfl, Nat.succ_ne_zero 0⟩

/-- Witness of C14 on the input of the scenario of the specification: the seven cells of
the path and the line `.`. -/
theorem C14_main_output_witness :
    main (fun _ => 0) 7 ["3 3", "1 1 1", "0 0 1", "1 1 1", "0 0 2 0"] =
      .ret ⟨"0 0\n0 1\n0 2\n1 2\n2 2\n2 1\n2 0\n.\n", "", 0⟩ :=
  (C14_main_output (fun _ => 0) 7 ["3 3", "1 1 1", "0 0 1", "1 1 1", "0 0 2 0"]).1
    [[1, 1, 1], [0, 0, 1], [1, 1, 1]] ⟨0, 0⟩ ⟨2, 0⟩
    [⟨0, 0⟩, ⟨0, 1⟩, ⟨0, 2⟩, ⟨1, 2⟩, ⟨2, 2⟩, ⟨2, 1⟩, ⟨2, 0⟩] rfl rfl

end Maze
